/-
Verification of the IDIOMS metadata-indexing system against its
natural-language specification.

The development shallowly embeds the C++ sources:
  * the two-layer affix index (idioms.cpp, src/index/Trie.cpp),
  * the trie-backed distributed server with checkpoint/recover
    (src1/server/Server.cpp),
  * the consistent-hash ring and DART router (dart.cpp, src4/dart/DART.cpp),
  * the simplified demo server of dart.cpp (canHandleQuery/executeQuery),
  * the popularity tracker and adaptive router (src4/popularity, src4/dart),
  * the fault manager status machine (src4/fault/FaultManager.cpp).

Strings are modelled as `List Char`; C++ `unordered_map<char, Node>` children
become association lists; `unordered_set<int>` becomes a duplicate-free
`List Int`; results are compared at the level of membership, with the final
sorted vectors produced by `dedup` + insertion sort.  `double`-valued
popularity arithmetic is modelled over `ℚ` with the transcendental functions
(`exp`, `log10`) abstracted as parameters, since the claims about the tracker
concern which branch runs and which score feeds it, not real analysis.
-/
import Mathlib

namespace Idioms

/-- Strings of the C++ source are modelled as lists of characters. -/
abbrev Str := List Char

/-! ## Association-list children (C++ `unordered_map<char, shared_ptr<Node>>`)

`childLookup` models `children.find(c)`; `childUpdate` models the write-back
of `children[c]` (replace the entry if present, append it otherwise). -/

/-- Lookup of a child node by character, first match wins. -/
def childLookup {α : Type} : List (Char × α) → Char → Option α
  | [], _ => none
  | (d, n) :: rest, c => if d = c then some n else childLookup rest c

/-- Replace the first entry with the given key, or append a fresh entry. -/
def childUpdate {α : Type} : List (Char × α) → Char → α → List (Char × α)
  | [], c, n => [(c, n)]
  | (d, m) :: rest, c, n =>
    if d = c then (d, n) :: rest else (d, m) :: childUpdate rest c n

@[simp] theorem childLookup_childUpdate_self {α : Type} (cs : List (Char × α)) (c : Char) (n : α) :
    childLookup (childUpdate cs c n) c = some n := by
  induction cs with
  | nil => simp [childUpdate, childLookup]
  | cons hd tl ih =>
    obtain ⟨d, m⟩ := hd
    by_cases h : d = c <;> simp [childUpdate, childLookup, h, ih]

theorem childLookup_childUpdate_other {α : Type} (cs : List (Char × α)) (c e : Char) (n : α)
    (h : e ≠ c) : childLookup (childUpdate cs c n) e = childLookup cs e := by
  induction cs with
  | nil => simp [childUpdate, childLookup, Ne.symm h]
  | cons hd tl ih =>
    obtain ⟨d, m⟩ := hd
    by_cases hdc : d = c
    · subst hdc
      simp [childUpdate, childLookup, Ne.symm h]
    · simp [childUpdate, childLookup, hdc, ih]

theorem childUpdate_of_lookup_eq {α : Type} (cs : List (Char × α)) (c : Char) (n : α)
    (h : childLookup cs c = some n) : childUpdate cs c n = cs := by
  induction cs with
  | nil => simp [childLookup] at h
  | cons hd tl ih =>
    obtain ⟨d, m⟩ := hd
    by_cases hdc : d = c
    · subst hdc
      simp [childLookup] at h
      simp [childUpdate, h]
    · simp [childLookup, hdc] at h
      simp [childUpdate, hdc, ih h]

/-- Insertion into an id set (`unordered_set<int>::insert`): no duplicates. -/
def insertId (ids : List Int) (oid : Int) : List Int :=
  if oid ∈ ids then ids else ids ++ [oid]

@[simp] theorem mem_insertId (ids : List Int) (oid o : Int) :
    o ∈ insertId ids oid ↔ o = oid ∨ o ∈ ids := by
  unfold insertId
  by_cases h : oid ∈ ids
  · simp only [if_pos h]
    constructor
    · exact fun ho => Or.inr ho
    · rintro (rfl | ho)
      · exact h
      · exact ho
  · simp [if_neg h, or_comm]

theorem insertId_of_mem (ids : List Int) (oid : Int) (h : oid ∈ ids) :
    insertId ids oid = ids := by
  simp [insertId, h]

/-! ## Second-layer trie: `ValueTrie` nodes (idioms.cpp `ValueTrieNode`)

A node carries the `isEndOfValue` flag, the `objectIds` set, the `fullValue`
tag used by suffix/infix searches, and the children map. -/

inductive VNode : Type where
  | mk (isEnd : Bool) (ids : List Int) (full : Str) (children : List (Char × VNode))

/-- Terminal flag of a value-trie node (`isEndOfValue`). -/
def VNode.isEnd : VNode → Bool
  | .mk e _ _ _ => e

/-- Object-id set of a value-trie node (`objectIds`). -/
def VNode.ids : VNode → List Int
  | .mk _ i _ _ => i

/-- Stored `fullValue` tag of a value-trie node. -/
def VNode.full : VNode → Str
  | .mk _ _ f _ => f

/-- Children map of a value-trie node. -/
def VNode.children : VNode → List (Char × VNode)
  | .mk _ _ _ cs => cs

/-- A freshly constructed `ValueTrieNode()`. -/
def emptyV : VNode := .mk false [] [] []

/-- Structural induction for the nested inductive `VNode`. -/
def VNode.inductionOn {P : VNode → Prop}
    (h : ∀ e ids f cs, (∀ p ∈ cs, P (Prod.snd p)) → P (.mk e ids f cs)) :
    ∀ n, P n
  | .mk e ids f cs =>
    h e ids f cs (fun p hp => VNode.inductionOn h p.2)
termination_by n => sizeOf n
decreasing_by
  have h1 : sizeOf p < sizeOf cs := List.sizeOf_lt_of_mem hp
  have h2 : sizeOf p.2 < sizeOf p := by
    obtain ⟨a, b⟩ := p
    simp only [Prod.mk.sizeOf_spec]
    omega
  simp only [VNode.mk.sizeOf_spec]
  omega

/-- Terminal flag at a path (false where no node exists). -/
def VNode.endAt : VNode → Str → Bool
  | n, [] => n.isEnd
  | n, c :: p =>
    match childLookup n.children c with
    | some m => m.endAt p
    | none => false

/-- Object-id set at a path (empty where no node exists). -/
def VNode.idsAt : VNode → Str → List Int
  | n, [] => n.ids
  | n, c :: p =>
    match childLookup n.children c with
    | some m => m.idsAt p
    | none => []

/-- Stored `fullValue` tag at a path (empty where no node exists). -/
def VNode.fullAt : VNode → Str → Str
  | n, [] => n.full
  | n, c :: p =>
    match childLookup n.children c with
    | some m => m.fullAt p
    | none => []

@[simp] theorem VNode.endAt_nil (n : VNode) : n.endAt [] = n.isEnd := rfl

@[simp] theorem VNode.idsAt_nil (n : VNode) : n.idsAt [] = n.ids := rfl

@[simp] theorem VNode.fullAt_nil (n : VNode) : n.fullAt [] = n.full := rfl

theorem VNode.endAt_cons (n : VNode) (c : Char) (p : Str) :
    n.endAt (c :: p) =
      match childLookup n.children c with
      | some m => m.endAt p
      | none => false := rfl

theorem VNode.idsAt_cons (n : VNode) (c : Char) (p : Str) :
    n.idsAt (c :: p) =
      match childLookup n.children c with
      | some m => m.idsAt p
      | none => [] := rfl

theorem VNode.fullAt_cons (n : VNode) (c : Char) (p : Str) :
    n.fullAt (c :: p) =
      match childLookup n.children c with
      | some m => m.fullAt p
      | none => [] := rfl

@[simp] theorem emptyV_endAt (p : Str) : emptyV.endAt p = false := by
  cases p with
  | nil => rfl
  | cons c q => simp [VNode.endAt_cons, emptyV, VNode.children, childLookup]

@[simp] theorem emptyV_idsAt (p : Str) : emptyV.idsAt p = [] := by
  cases p with
  | nil => rfl
  | cons c q => simp [VNode.idsAt_cons, emptyV, VNode.children, childLookup]

@[simp] theorem emptyV_fullAt (p : Str) : emptyV.fullAt p = [] := by
  cases p with
  | nil => rfl
  | cons c q => simp [VNode.fullAt_cons, emptyV, VNode.children, childLookup]

/-! ## Value-trie insertion (idioms.cpp `ValueTrie::insertValue` and friends) -/

/-- Walk/create nodes along `value`; at the end set the terminal flag, add
the object id, and store the already-computed `fullValue` tag `fv`. -/
def insValGo : Str → Int → Str → VNode → VNode
  | [], oid, fv, .mk _ ids _ cs => .mk true (insertId ids oid) fv cs
  | c :: rest, oid, fv, n =>
    .mk n.isEnd n.ids n.full
      (childUpdate n.children c
        (insValGo rest oid fv ((childLookup n.children c).getD emptyV)))

/-- `ValueTrie::insertValue(value, objectId, fullValue)`: the stored tag is
`fullValue` when non-empty, else `value` itself. -/
def insertValue (n : VNode) (value : Str) (oid : Int) (fullValue : Str) : VNode :=
  insValGo value oid (if fullValue = [] then value else fullValue) n

/-- `ValueTrie::insertValueWithSuffixes`: insert `value.substr(i)` for each
`i ∈ [0, value.length)`, tagging each with the full `value`. -/
def insertValueWithSuffixes (n : VNode) (value : Str) (oid : Int) : VNode :=
  (List.range value.length).foldl
    (fun m i => insertValue m (value.drop i) oid value) n

/-- `ValueTrie::insertValueWithSuffixMode`: insert the full value first, then
all suffixes when suffix-tree mode is on. -/
def insertValueWithSuffixMode (mode : Bool) (n : VNode) (value : Str) (oid : Int) : VNode :=
  let n1 := insertValue n value oid []
  if mode then insertValueWithSuffixes n1 value oid else n1

theorem insValGo_cons_same (c : Char) (rest : Str) (oid : Int) (fv : Str) (n : VNode) (q : Str) :
    (insValGo (c :: rest) oid fv n).endAt (c :: q)
        = (insValGo rest oid fv ((childLookup n.children c).getD emptyV)).endAt q ∧
      (insValGo (c :: rest) oid fv n).idsAt (c :: q)
        = (insValGo rest oid fv ((childLookup n.children c).getD emptyV)).idsAt q ∧
      (insValGo (c :: rest) oid fv n).fullAt (c :: q)
        = (insValGo rest oid fv ((childLookup n.children c).getD emptyV)).fullAt q := by
  refine ⟨?_, ?_, ?_⟩ <;>
    simp [insValGo, VNode.endAt_cons, VNode.idsAt_cons, VNode.fullAt_cons, VNode.children]

theorem insValGo_cons_other (c : Char) (rest : Str) (oid : Int) (fv : Str) (n : VNode)
    (d : Char) (q : Str) (hdc : d ≠ c) :
    (insValGo (c :: rest) oid fv n).endAt (d :: q) = n.endAt (d :: q) ∧
      (insValGo (c :: rest) oid fv n).idsAt (d :: q) = n.idsAt (d :: q) ∧
      (insValGo (c :: rest) oid fv n).fullAt (d :: q) = n.fullAt (d :: q) := by
  refine ⟨?_, ?_, ?_⟩ <;>
    simp [insValGo, VNode.endAt_cons, VNode.idsAt_cons, VNode.fullAt_cons, VNode.children,
      childLookup_childUpdate_other _ _ _ _ hdc]

theorem getD_emptyV_endAt (x : Option VNode) (n : VNode) (c : Char) (q : Str)
    (hl : childLookup n.children c = x) :
    (x.getD emptyV).endAt q = n.endAt (c :: q) := by
  cases x with
  | none => simp [VNode.endAt_cons, hl]
  | some m => simp [VNode.endAt_cons, hl]

theorem getD_emptyV_idsAt (x : Option VNode) (n : VNode) (c : Char) (q : Str)
    (hl : childLookup n.children c = x) :
    (x.getD emptyV).idsAt q = n.idsAt (c :: q) := by
  cases x with
  | none => simp [VNode.idsAt_cons, hl]
  | some m => simp [VNode.idsAt_cons, hl]

theorem getD_emptyV_fullAt (x : Option VNode) (n : VNode) (c : Char) (q : Str)
    (hl : childLookup n.children c = x) :
    (x.getD emptyV).fullAt q = n.fullAt (c :: q) := by
  cases x with
  | none => simp [VNode.fullAt_cons, hl]
  | some m => simp [VNode.fullAt_cons, hl]

theorem endAt_insValGo (s : Str) (oid : Int) (fv : Str) (n : VNode) (p : Str) :
    (insValGo s oid fv n).endAt p = if p = s then true else n.endAt p := by
  induction s generalizing n p with
  | nil =>
    obtain ⟨e, ids, f, cs⟩ := n
    cases p with
    | nil => simp [insValGo, VNode.isEnd]
    | cons d q => simp [insValGo, VNode.endAt_cons, VNode.children]
  | cons c rest ih =>
    cases p with
    | nil => simp [insValGo, VNode.isEnd]
    | cons d q =>
      by_cases hdc : d = c
      · subst hdc
        rw [(insValGo_cons_same d rest oid fv n q).1, ih,
          getD_emptyV_endAt _ n d q rfl]
        by_cases hq : q = rest
        · simp [hq]
        · simp [hq]
      · rw [(insValGo_cons_other c rest oid fv n d q hdc).1]
        have hne : ¬ (d :: q = c :: rest) := by simp [hdc]
        simp [hne]

theorem mem_idsAt_insValGo (s : Str) (oid : Int) (fv : Str) (n : VNode) (p : Str) (o : Int) :
    o ∈ (insValGo s oid fv n).idsAt p ↔
      (p = s ∧ o = oid) ∨ o ∈ n.idsAt p := by
  induction s generalizing n p with
  | nil =>
    obtain ⟨e, ids, f, cs⟩ := n
    cases p with
    | nil =>
      simp only [insValGo, VNode.idsAt_nil, VNode.ids, mem_insertId]
      tauto
    | cons d q => simp [insValGo, VNode.idsAt_cons, VNode.children]
  | cons c rest ih =>
    cases p with
    | nil => simp [insValGo, VNode.ids]
    | cons d q =>
      by_cases hdc : d = c
      · subst hdc
        rw [(insValGo_cons_same d rest oid fv n q).2.1, ih,
          getD_emptyV_idsAt _ n d q rfl]
        by_cases hq : q = rest
        · simp [hq]
        · simp [hq]
      · rw [(insValGo_cons_other c rest oid fv n d q hdc).2.1]
        have hne : ¬ (d :: q = c :: rest) := by simp [hdc]
        simp [hne]

theorem fullAt_insValGo (s : Str) (oid : Int) (fv : Str) (n : VNode) (p : Str) :
    (insValGo s oid fv n).fullAt p = if p = s then fv else n.fullAt p := by
  induction s generalizing n p with
  | nil =>
    obtain ⟨e, ids, f, cs⟩ := n
    cases p with
    | nil => simp [insValGo, VNode.full]
    | cons d q => simp [insValGo, VNode.fullAt_cons, VNode.children]
  | cons c rest ih =>
    cases p with
    | nil => simp [insValGo, VNode.full]
    | cons d q =>
      by_cases hdc : d = c
      · subst hdc
        rw [(insValGo_cons_same d rest oid fv n q).2.2, ih,
          getD_emptyV_fullAt _ n d q rfl]
        by_cases hq : q = rest
        · simp [hq]
        · simp [hq]
      · rw [(insValGo_cons_other c rest oid fv n d q hdc).2.2]
        have hne : ¬ (d :: q = c :: rest) := by simp [hdc]
        simp [hne]

theorem endAt_insertValue (n : VNode) (value : Str) (oid : Int) (fvArg : Str) (p : Str) :
    (insertValue n value oid fvArg).endAt p = if p = value then true else n.endAt p :=
  endAt_insValGo value oid _ n p

theorem mem_idsAt_insertValue (n : VNode) (value : Str) (oid : Int) (fvArg : Str)
    (p : Str) (o : Int) :
    o ∈ (insertValue n value oid fvArg).idsAt p ↔
      (p = value ∧ o = oid) ∨ o ∈ n.idsAt p :=
  mem_idsAt_insValGo value oid _ n p o

theorem fullAt_insertValue (n : VNode) (value : Str) (oid : Int) (fvArg : Str) (p : Str) :
    (insertValue n value oid fvArg).fullAt p =
      if p = value then (if fvArg = [] then value else fvArg) else n.fullAt p :=
  fullAt_insValGo value oid _ n p

/-! ## Which paths a record insert writes

In suffix-tree mode a record with value `v` writes the terminal data at `v`
itself and at every non-empty suffix of `v`; without suffix mode only at `v`. -/

/-- The set of paths whose terminal data is written when inserting `v`. -/
def vWrites : Bool → Str → Str → Prop
  | true, p, v => p <:+ v ∧ (p = [] → v = [])
  | false, p, v => p = v

instance vWrites.instDecidable : ∀ (mode : Bool) (p v : Str), Decidable (vWrites mode p v)
  | true, _, _ => inferInstanceAs (Decidable (_ ∧ _))
  | false, _, _ => inferInstanceAs (Decidable (_ = _))

@[simp] theorem vWrites_true (p v : Str) :
    vWrites true p v ↔ (p <:+ v ∧ (p = [] → v = [])) := Iff.rfl

@[simp] theorem vWrites_false (p v : Str) : vWrites false p v ↔ p = v := Iff.rfl

theorem drop_writes_iff (p v : Str) :
    (p = v ∨ ∃ i ∈ List.range v.length, p = v.drop i) ↔
      (p <:+ v ∧ (p = [] → v = [])) := by
  constructor
  · rintro (rfl | ⟨i, hi, rfl⟩)
    · exact ⟨List.suffix_refl p, fun h => h⟩
    · refine ⟨List.drop_suffix i v, fun h => ?_⟩
      rw [List.mem_range] at hi
      have : (v.drop i).length = v.length - i := List.length_drop i v
      rw [h] at this
      simp at this
      omega
  · rintro ⟨⟨t, rfl⟩, hpe⟩
    cases t with
    | nil => left; simp
    | cons a t2 =>
      right
      have hp : p ≠ [] := by
        intro hp0
        have h2 := hpe hp0
        subst hp0
        simp at h2
      refine ⟨(a :: t2).length, ?_, ?_⟩
      · rw [List.mem_range, List.length_append]
        have : 0 < p.length := List.length_pos.mpr hp
        omega
      · exact (List.drop_left (a :: t2) p).symm

theorem endAt_foldDrop (L : List Nat) (v : Str) (oid : Int) (n : VNode) (p : Str) :
    ((L.foldl (fun m i => insertValue m (v.drop i) oid v) n).endAt p = true) ↔
      (∃ i ∈ L, p = v.drop i) ∨ n.endAt p = true := by
  induction L generalizing n with
  | nil => simp
  | cons i L ih =>
    simp only [List.foldl_cons, ih, endAt_insertValue]
    by_cases hp : p = v.drop i
    · simp [hp]
    · simp only [if_neg hp, List.mem_cons]
      constructor
      · rintro (⟨j, hj, rfl⟩ | h)
        · exact Or.inl ⟨j, Or.inr hj, rfl⟩
        · exact Or.inr h
      · rintro (⟨j, (rfl | hj), rfl⟩ | h)
        · exact absurd rfl hp
        · exact Or.inl ⟨j, hj, rfl⟩
        · exact Or.inr h

theorem mem_idsAt_foldDrop (L : List Nat) (v : Str) (oid : Int) (n : VNode) (p : Str) (o : Int) :
    o ∈ (L.foldl (fun m i => insertValue m (v.drop i) oid v) n).idsAt p ↔
      ((∃ i ∈ L, p = v.drop i) ∧ o = oid) ∨ o ∈ n.idsAt p := by
  induction L generalizing n with
  | nil => simp
  | cons i L ih =>
    simp only [List.foldl_cons, ih, mem_idsAt_insertValue]
    constructor
    · rintro (⟨⟨j, hj, rfl⟩, rfl⟩ | ⟨hp, rfl⟩ | h)
      · exact Or.inl ⟨⟨j, List.mem_cons_of_mem i hj, rfl⟩, rfl⟩
      · exact Or.inl ⟨⟨i, List.mem_cons_self i L, hp⟩, rfl⟩
      · exact Or.inr h
    · rintro (⟨⟨j, hj, rfl⟩, rfl⟩ | h)
      · rcases List.mem_cons.mp hj with rfl | hj2
        · exact Or.inr (Or.inl ⟨rfl, rfl⟩)
        · exact Or.inl ⟨⟨j, hj2, rfl⟩, rfl⟩
      · exact Or.inr (Or.inr h)

theorem fullAt_foldDrop (L : List Nat) (v : Str) (oid : Int) (n : VNode) (p : Str) :
    (L.foldl (fun m i => insertValue m (v.drop i) oid v) n).fullAt p =
      if (∃ i ∈ L, p = v.drop i) then v else n.fullAt p := by
  induction L generalizing n with
  | nil => simp
  | cons i L ih =>
    simp only [List.foldl_cons, ih, fullAt_insertValue]
    have htag : (if v = [] then v.drop i else v) = v := by
      by_cases hv : v = []
      · subst hv; simp
      · simp [hv]
    by_cases hL : ∃ j ∈ L, p = v.drop j
    · rw [if_pos hL, if_pos]
      exact ⟨hL.choose, List.mem_cons_of_mem i hL.choose_spec.1, hL.choose_spec.2⟩
    · by_cases hp : p = v.drop i
      · rw [if_neg hL, if_pos hp, htag, if_pos]
        exact ⟨i, List.mem_cons_self i L, hp⟩
      · rw [if_neg hL, if_neg hp, if_neg]
        rintro ⟨j, hj, rfl⟩
        rcases List.mem_cons.mp hj with rfl | hj2
        · exact hp rfl
        · exact hL ⟨j, hj2, rfl⟩

theorem endAt_insertRecord (mode : Bool) (n : VNode) (v : Str) (oid : Int) (p : Str) :
    ((insertValueWithSuffixMode mode n v oid).endAt p = true) ↔
      vWrites mode p v ∨ n.endAt p = true := by
  cases mode
  · show ((insertValue n v oid []).endAt p = true) ↔ _
    rw [endAt_insertValue]
    by_cases hp : p = v <;> simp [hp, vWrites_false]
  · show (((List.range v.length).foldl
        (fun m i => insertValue m (v.drop i) oid v) (insertValue n v oid [])).endAt p
          = true) ↔ _
    rw [endAt_foldDrop, endAt_insertValue]
    rw [show (vWrites true p v) = (p = v ∨ ∃ i ∈ List.range v.length, p = v.drop i) from
      propext ((vWrites_true p v).trans (drop_writes_iff p v).symm)]
    by_cases hp : p = v <;> simp [hp] <;> tauto

theorem mem_idsAt_insertRecord (mode : Bool) (n : VNode) (v : Str) (oid : Int)
    (p : Str) (o : Int) :
    o ∈ (insertValueWithSuffixMode mode n v oid).idsAt p ↔
      (vWrites mode p v ∧ o = oid) ∨ o ∈ n.idsAt p := by
  cases mode
  · show o ∈ (insertValue n v oid []).idsAt p ↔ _
    rw [mem_idsAt_insertValue]
    by_cases hp : p = v <;> simp [hp, vWrites_false]
  · show o ∈ ((List.range v.length).foldl
        (fun m i => insertValue m (v.drop i) oid v) (insertValue n v oid [])).idsAt p ↔ _
    rw [mem_idsAt_foldDrop, mem_idsAt_insertValue]
    rw [show (vWrites true p v) = (p = v ∨ ∃ i ∈ List.range v.length, p = v.drop i) from
      propext ((vWrites_true p v).trans (drop_writes_iff p v).symm)]
    by_cases hp : p = v <;> simp [hp] <;> tauto

theorem fullAt_insertRecord (mode : Bool) (n : VNode) (v : Str) (oid : Int) (p : Str) :
    (insertValueWithSuffixMode mode n v oid).fullAt p =
      if vWrites mode p v then v else n.fullAt p := by
  cases mode
  · show (insertValue n v oid []).fullAt p = _
    rw [fullAt_insertValue]
    by_cases hp : p = v <;> simp [hp, vWrites_false]
  · show ((List.range v.length).foldl
        (fun m i => insertValue m (v.drop i) oid v) (insertValue n v oid [])).fullAt p = _
    rw [fullAt_foldDrop, fullAt_insertValue]
    have hiff : vWrites true p v ↔ (p = v ∨ ∃ i ∈ List.range v.length, p = v.drop i) :=
      (vWrites_true p v).trans (drop_writes_iff p v).symm
    by_cases hL : ∃ i ∈ List.range v.length, p = v.drop i
    · rw [if_pos hL, if_pos (hiff.mpr (Or.inr hL))]
    · by_cases hp : p = v
      · rw [if_neg hL, if_pos hp, if_pos (hiff.mpr (Or.inl hp))]
        simp
      · rw [if_neg hL, if_neg hp, if_neg]
        intro hw
        rcases hiff.mp hw with h1 | h2
        · exact hp h1
        · exact hL h2

/-! ## A whole list of `(value, objectId)` records inserted into a value trie -/

/-- Fold a list of `(value, objectId)` records into a value trie via
`insertValueWithSuffixMode`; this is the accumulated effect of the calls that
`create_md_index`/`addIndexedKey` make on one key's `ValueTrie`. -/
def vtFoldRecords (mode : Bool) (vs : List (Str × Int)) (n : VNode) : VNode :=
  vs.foldl (fun m r => insertValueWithSuffixMode mode m r.1 r.2) n

/-- The value written last at path `p` by the records in `vs` (the C++ tries
overwrite `fullValue` on every insert, so the last writer wins). -/
def lastWrite (mode : Bool) (vs : List (Str × Int)) (p dflt : Str) : Str :=
  vs.foldl (fun acc r => if vWrites mode p r.1 then r.1 else acc) dflt

theorem endAt_vtFold (mode : Bool) (vs : List (Str × Int)) (n : VNode) (p : Str) :
    ((vtFoldRecords mode vs n).endAt p = true) ↔
      (∃ r ∈ vs, vWrites mode p r.1) ∨ n.endAt p = true := by
  induction vs generalizing n with
  | nil => simp [vtFoldRecords]
  | cons r vs ih =>
    show ((vtFoldRecords mode vs (insertValueWithSuffixMode mode n r.1 r.2)).endAt p = true) ↔ _
    rw [ih, endAt_insertRecord]
    constructor
    · rintro (⟨s, hs, hw⟩ | hw | h)
      · exact Or.inl ⟨s, List.mem_cons_of_mem r hs, hw⟩
      · exact Or.inl ⟨r, List.mem_cons_self r vs, hw⟩
      · exact Or.inr h
    · rintro (⟨s, hs, hw⟩ | h)
      · rcases List.mem_cons.mp hs with rfl | hs2
        · exact Or.inr (Or.inl hw)
        · exact Or.inl ⟨s, hs2, hw⟩
      · exact Or.inr (Or.inr h)

theorem mem_idsAt_vtFold (mode : Bool) (vs : List (Str × Int)) (n : VNode) (p : Str) (o : Int) :
    o ∈ (vtFoldRecords mode vs n).idsAt p ↔
      (∃ r ∈ vs, vWrites mode p r.1 ∧ o = r.2) ∨ o ∈ n.idsAt p := by
  induction vs generalizing n with
  | nil => simp [vtFoldRecords]
  | cons r vs ih =>
    show o ∈ (vtFoldRecords mode vs (insertValueWithSuffixMode mode n r.1 r.2)).idsAt p ↔ _
    rw [ih, mem_idsAt_insertRecord]
    constructor
    · rintro (⟨s, hs, hw, rfl⟩ | ⟨hw, rfl⟩ | h)
      · exact Or.inl ⟨s, List.mem_cons_of_mem r hs, hw, rfl⟩
      · exact Or.inl ⟨r, List.mem_cons_self r vs, hw, rfl⟩
      · exact Or.inr h
    · rintro (⟨s, hs, hw, rfl⟩ | h)
      · rcases List.mem_cons.mp hs with rfl | hs2
        · exact Or.inr (Or.inl ⟨hw, rfl⟩)
        · exact Or.inl ⟨s, hs2, hw, rfl⟩
      · exact Or.inr (Or.inr h)

theorem fullAt_vtFold (mode : Bool) (vs : List (Str × Int)) (n : VNode) (p : Str) :
    (vtFoldRecords mode vs n).fullAt p = lastWrite mode vs p (n.fullAt p) := by
  induction vs generalizing n with
  | nil => simp [vtFoldRecords, lastWrite]
  | cons r vs ih =>
    show (vtFoldRecords mode vs (insertValueWithSuffixMode mode n r.1 r.2)).fullAt p = _
    rw [ih, fullAt_insertRecord]
    rfl

/-! ## Well-formedness: children maps never carry duplicate characters

The C++ children maps are `unordered_map`s, so each node has at most one
child per character.  In the association-list model this is an invariant that
insertion preserves; the traversal lemmas need it to identify a listed child
with the result of `childLookup`. -/

/-- Every node in the trie has duplicate-free child keys. -/
inductive VNode.WF : VNode → Prop where
  | mk (e : Bool) (ids : List Int) (f : Str) (cs : List (Char × VNode))
      (hnd : (cs.map Prod.fst).Nodup) (hch : ∀ p ∈ cs, VNode.WF p.2) :
      VNode.WF (.mk e ids f cs)

theorem VNode.WF_iff (e : Bool) (ids : List Int) (f : Str) (cs : List (Char × VNode)) :
    VNode.WF (.mk e ids f cs) ↔ (cs.map Prod.fst).Nodup ∧ ∀ p ∈ cs, VNode.WF p.2 := by
  constructor
  · rintro ⟨⟩
    constructor <;> assumption
  · rintro ⟨h1, h2⟩
    exact VNode.WF.mk e ids f cs h1 h2

theorem emptyV_WF : emptyV.WF := by
  rw [emptyV, VNode.WF_iff]
  simp

theorem mem_of_childLookup {α : Type} (cs : List (Char × α)) (c : Char) (m : α)
    (h : childLookup cs c = some m) : (c, m) ∈ cs := by
  induction cs with
  | nil => simp [childLookup] at h
  | cons hd tl ih =>
    obtain ⟨d, x⟩ := hd
    by_cases hdc : d = c
    · subst hdc
      have h2 : some x = some m := by simpa [childLookup] using h
      obtain rfl := Option.some.inj h2
      exact List.mem_cons_self _ _
    · simp only [childLookup, if_neg hdc] at h
      exact List.mem_cons_of_mem _ (ih h)

theorem childLookup_of_mem {α : Type} (cs : List (Char × α)) (c : Char) (m : α)
    (hnd : (cs.map Prod.fst).Nodup) (h : (c, m) ∈ cs) : childLookup cs c = some m := by
  induction cs with
  | nil => simp at h
  | cons hd tl ih =>
    obtain ⟨d, x⟩ := hd
    simp only [List.map_cons, List.nodup_cons] at hnd
    rcases List.mem_cons.mp h with heq | hmem
    · have heq2 : c = d ∧ m = x := by simpa using heq
      obtain ⟨rfl, rfl⟩ := heq2
      simp [childLookup]
    · have hdc : d ≠ c := by
        intro hh
        subst hh
        exact hnd.1 (by simpa using List.mem_map_of_mem Prod.fst hmem)
      simp only [childLookup, if_neg hdc]
      exact ih hnd.2 hmem

theorem mem_childUpdate {α : Type} (cs : List (Char × α)) (c : Char) (n : α)
    (q : Char × α) (h : q ∈ childUpdate cs c n) : q = (c, n) ∨ q ∈ cs := by
  induction cs with
  | nil =>
    simp [childUpdate] at h
    exact Or.inl h
  | cons hd tl ih =>
    obtain ⟨d, m⟩ := hd
    by_cases hdc : d = c
    · subst hdc
      simp only [childUpdate, if_pos rfl] at h
      rcases List.mem_cons.mp h with rfl | hmem
      · exact Or.inl rfl
      · exact Or.inr (List.mem_cons_of_mem _ hmem)
    · simp only [childUpdate, if_neg hdc] at h
      rcases List.mem_cons.mp h with rfl | hmem
      · exact Or.inr (List.mem_cons_self _ _)
      · rcases ih hmem with h1 | h2
        · exact Or.inl h1
        · exact Or.inr (List.mem_cons_of_mem _ h2)

theorem keys_childUpdate {α : Type} (cs : List (Char × α)) (c : Char) (n : α) :
    (childUpdate cs c n).map Prod.fst =
      if c ∈ cs.map Prod.fst then cs.map Prod.fst else cs.map Prod.fst ++ [c] := by
  induction cs with
  | nil => simp [childUpdate]
  | cons hd tl ih =>
    obtain ⟨d, m⟩ := hd
    by_cases hdc : d = c
    · subst hdc
      simp [childUpdate]
    · simp only [childUpdate, if_neg hdc, List.map_cons, ih]
      by_cases hc : c ∈ tl.map Prod.fst
      · simp [hc, hdc, Ne.symm hdc]
      · simp [hc, hdc, Ne.symm hdc]

theorem nodup_keys_childUpdate {α : Type} (cs : List (Char × α)) (c : Char) (n : α)
    (hnd : (cs.map Prod.fst).Nodup) : ((childUpdate cs c n).map Prod.fst).Nodup := by
  rw [keys_childUpdate]
  by_cases hc : c ∈ cs.map Prod.fst
  · simpa [hc]
  · simp only [if_neg hc]
    simpa [hc] using List.Nodup.append hnd (List.nodup_singleton c) (by simpa using hc)

theorem WF_insValGo (s : Str) (oid : Int) (fv : Str) (n : VNode) (hwf : n.WF) :
    (insValGo s oid fv n).WF := by
  induction s generalizing n with
  | nil =>
    obtain ⟨e, ids, f, cs⟩ := n
    rw [VNode.WF_iff] at hwf
    rw [insValGo, VNode.WF_iff]
    exact hwf
  | cons c rest ih =>
    obtain ⟨e, ids, f, cs⟩ := n
    rw [VNode.WF_iff] at hwf
    rw [insValGo, VNode.WF_iff]
    constructor
    · exact nodup_keys_childUpdate _ _ _ hwf.1
    · intro q hq
      rcases mem_childUpdate _ _ _ _ hq with rfl | hmem
      · refine ih _ ?_
        simp only [VNode.children]
        cases hl : childLookup cs c with
        | none => simpa using emptyV_WF
        | some m =>
          simpa using hwf.2 (c, m) (mem_of_childLookup _ _ _ hl)
      · exact hwf.2 q hmem

theorem WF_insertValue (n : VNode) (value : Str) (oid : Int) (fvArg : Str) (hwf : n.WF) :
    (insertValue n value oid fvArg).WF :=
  WF_insValGo value oid _ n hwf

theorem WF_insertRecord (mode : Bool) (n : VNode) (v : Str) (oid : Int) (hwf : n.WF) :
    (insertValueWithSuffixMode mode n v oid).WF := by
  cases mode
  · exact WF_insertValue n v oid [] hwf
  · show ((List.range v.length).foldl
      (fun m i => insertValue m (v.drop i) oid v) (insertValue n v oid [])).WF
    have h0 : (insertValue n v oid []).WF := WF_insertValue n v oid [] hwf
    generalize insertValue n v oid [] = n0 at h0
    induction List.range v.length generalizing n0 with
    | nil => exact h0
    | cons i L ih2 => exact ih2 _ (WF_insertValue n0 (v.drop i) oid v h0)

theorem WF_vtFold (mode : Bool) (vs : List (Str × Int)) (n : VNode) (hwf : n.WF) :
    (vtFoldRecords mode vs n).WF := by
  induction vs generalizing n with
  | nil => exact hwf
  | cons r vs ih => exact ih _ (WF_insertRecord mode n r.1 r.2 hwf)

/-! ## Value-trie searches (idioms.cpp `ValueTrie::search...`) -/

mutual

/-- `ValueTrie::collectAllObjectIds`: all ids below a node. -/
def collectAllObjectIds : VNode → List Int
  | .mk e ids _ cs => (if e then ids else []) ++ collectAllObjectIdsAux cs

/-- Traversal of a children list for `collectAllObjectIds`. -/
def collectAllObjectIdsAux : List (Char × VNode) → List Int
  | [] => []
  | (_, m) :: rest => collectAllObjectIds m ++ collectAllObjectIdsAux rest

end

theorem mem_collectAllObjectIdsAux (cs : List (Char × VNode)) (o : Int) :
    o ∈ collectAllObjectIdsAux cs ↔ ∃ q ∈ cs, o ∈ collectAllObjectIds q.2 := by
  induction cs with
  | nil => simp [collectAllObjectIdsAux]
  | cons hd tl ih =>
    obtain ⟨c, m⟩ := hd
    simp only [collectAllObjectIdsAux, List.mem_append, ih]
    constructor
    · rintro (h | ⟨q, hq, ho⟩)
      · exact ⟨(c, m), List.mem_cons_self _ _, h⟩
      · exact ⟨q, List.mem_cons_of_mem _ hq, ho⟩
    · rintro ⟨q, hq, ho⟩
      rcases List.mem_cons.mp hq with rfl | hq2
      · exact Or.inl ho
      · exact Or.inr ⟨q, hq2, ho⟩

theorem mem_collectAllObjectIds (n : VNode) :
    n.WF → ∀ o : Int,
      (o ∈ collectAllObjectIds n ↔ ∃ p, n.endAt p = true ∧ o ∈ n.idsAt p) := by
  induction n using VNode.inductionOn with
  | _ e ids f cs ih =>
    intro hwf o
    rw [VNode.WF_iff] at hwf
    constructor
    · intro ho
      rw [collectAllObjectIds] at ho
      rcases List.mem_append.mp ho with h1 | h2
      · refine ⟨[], ?_, ?_⟩ <;> by_cases he : e <;> simp_all [VNode.isEnd, VNode.ids]
      · obtain ⟨⟨c, m⟩, hq, ho2⟩ := (mem_collectAllObjectIdsAux cs o).mp h2
        obtain ⟨p, hend, hid⟩ := (ih (c, m) hq (hwf.2 (c, m) hq) o).mp ho2

        refine ⟨c :: p, ?_, ?_⟩
        · rw [VNode.endAt_cons]
          simp only [VNode.children]
          rw [childLookup_of_mem cs c m hwf.1 hq]
          exact hend
        · rw [VNode.idsAt_cons]
          simp only [VNode.children]
          rw [childLookup_of_mem cs c m hwf.1 hq]
          exact hid
    · rintro ⟨p, hend, hid⟩
      rw [collectAllObjectIds, List.mem_append]
      cases p with
      | nil =>
        left
        simp only [VNode.endAt_nil, VNode.isEnd] at hend
        simp only [VNode.idsAt_nil, VNode.ids] at hid
        simp [hend, hid]
      | cons c q =>
        right
        rw [VNode.endAt_cons] at hend
        rw [VNode.idsAt_cons] at hid
        simp only [VNode.children] at hend hid
        cases hl : childLookup cs c with
        | none => rw [hl] at hend; simp at hend
        | some m =>
          rw [hl] at hend hid
          have hq : (c, m) ∈ cs := mem_of_childLookup cs c m hl
          exact (mem_collectAllObjectIdsAux cs o).mpr
            ⟨(c, m), hq, (ih (c, m) hq (hwf.2 (c, m) hq) o).mpr ⟨q, hend, hid⟩⟩

/-- `ValueTrie::searchExactValue`: walk the value, return the terminal ids. -/
def searchExactValue : VNode → Str → List Int
  | n, [] => if n.isEnd then n.ids else []
  | n, c :: rest =>
    match childLookup n.children c with
    | some m => searchExactValue m rest
    | none => []

theorem mem_searchExactValue (n : VNode) (t : Str) (o : Int) :
    o ∈ searchExactValue n t ↔ n.endAt t = true ∧ o ∈ n.idsAt t := by
  induction t generalizing n with
  | nil =>
    rw [searchExactValue]
    by_cases he : n.isEnd <;> simp [he]
  | cons c rest ih =>
    rw [searchExactValue, VNode.endAt_cons, VNode.idsAt_cons]
    cases hl : childLookup n.children c with
    | none => simp
    | some m => simpa using ih m

/-- A literal pattern step by step: `*` in the pattern matches any character
at that position (idioms.cpp `searchByValuePrefix` branching). -/
def patMatch : Str → Str → Bool
  | [], [] => true
  | c :: pr, d :: qr => (c == '*' || c == d) && patMatch pr qr
  | _, _ => false

@[simp] theorem patMatch_nil (p : Str) : patMatch [] p = true ↔ p = [] := by
  cases p <;> simp [patMatch]

theorem patMatch_cons (c : Char) (pr : Str) (p : Str) :
    patMatch (c :: pr) p = true ↔
      ∃ d qr, p = d :: qr ∧ (c = '*' ∨ c = d) ∧ patMatch pr qr = true := by
  cases p with
  | nil => simp [patMatch]
  | cons d qr =>
    simp only [patMatch, Bool.and_eq_true, Bool.or_eq_true, beq_iff_eq]
    constructor
    · rintro ⟨h1, h2⟩
      exact ⟨d, qr, rfl, h1, h2⟩
    · rintro ⟨d2, qr2, heq, h1, h2⟩
      obtain ⟨rfl, rfl⟩ : d = d2 ∧ qr = qr2 := by
        constructor <;> [exact (List.cons.injEq .. ▸ heq).1; exact (List.cons.injEq .. ▸ heq).2]
      exact ⟨h1, h2⟩

theorem sizeOf_lt_of_childLookup (n : VNode) (c : Char) (m : VNode)
    (h : childLookup n.children c = some m) : sizeOf m < sizeOf n := by
  obtain ⟨e, ids, f, cs⟩ := n
  simp only [VNode.children] at h
  have h1 : ((c, m) : Char × VNode) ∈ cs := mem_of_childLookup cs c m h
  have h2 : sizeOf ((c, m) : Char × VNode) < sizeOf cs := List.sizeOf_lt_of_mem h1
  have h3 : sizeOf m < sizeOf ((c, m) : Char × VNode) := by
    simp only [Prod.mk.sizeOf_spec]
    omega
  simp only [VNode.mk.sizeOf_spec]
  omega

mutual

/-- `ValueTrie::searchByValuePrefix`: walk the pattern, branching to every
child when the pattern character is `*`; collect the subtree at the end. -/
def searchByValuePrefix : VNode → Str → List Int
  | n, [] => collectAllObjectIds n
  | n, c :: rest =>
    if c = '*' then searchByValuePrefixAux n.children rest
    else
      match hl : childLookup n.children c with
      | some m => searchByValuePrefix m rest
      | none => []
termination_by n _ => sizeOf n
decreasing_by
  · obtain ⟨e, ids, f, csn⟩ := n
    simp only [VNode.children, VNode.mk.sizeOf_spec]
    omega
  · exact sizeOf_lt_of_childLookup n c m hl

/-- The `*` branch of `searchByValuePrefix`: recurse into every child. -/
def searchByValuePrefixAux : List (Char × VNode) → Str → List Int
  | [], _ => []
  | (_, m) :: cs, pat => searchByValuePrefix m pat ++ searchByValuePrefixAux cs pat
termination_by cs _ => sizeOf cs
decreasing_by
  · simp only [Prod.mk.sizeOf_spec, List.cons.sizeOf_spec]
    omega
  · simp only [List.cons.sizeOf_spec]
    omega

end

theorem searchByValuePrefix_nil (n : VNode) :
    searchByValuePrefix n [] = collectAllObjectIds n := by
  rw [searchByValuePrefix]

theorem searchByValuePrefix_star (n : VNode) (rest : Str) :
    searchByValuePrefix n ('*' :: rest) = searchByValuePrefixAux n.children rest := by
  rw [searchByValuePrefix]
  simp

theorem searchByValuePrefix_cons_ne (n : VNode) (c : Char) (rest : Str) (hc : ¬ c = '*') :
    searchByValuePrefix n (c :: rest) =
      match childLookup n.children c with
      | some m => searchByValuePrefix m rest
      | none => [] := by
  rw [searchByValuePrefix]
  simp only [if_neg hc]
  cases hl : childLookup n.children c <;> simp

theorem mem_searchByValuePrefixAux (cs : List (Char × VNode)) (pat : Str) (o : Int) :
    o ∈ searchByValuePrefixAux cs pat ↔ ∃ q ∈ cs, o ∈ searchByValuePrefix q.2 pat := by
  induction cs with
  | nil => simp [searchByValuePrefixAux]
  | cons hd tl ih =>
    obtain ⟨c, m⟩ := hd
    rw [searchByValuePrefixAux]
    simp only [List.mem_append, ih]
    constructor
    · rintro (h | ⟨q, hq, ho⟩)
      · exact ⟨(c, m), List.mem_cons_self _ _, h⟩
      · exact ⟨q, List.mem_cons_of_mem _ hq, ho⟩
    · rintro ⟨q, hq, ho⟩
      rcases List.mem_cons.mp hq with rfl | hq2
      · exact Or.inl ho
      · exact Or.inr ⟨q, hq2, ho⟩

theorem mem_searchByValuePrefix (pat : Str) :
    ∀ n : VNode, n.WF → ∀ o : Int,
      (o ∈ searchByValuePrefix n pat ↔
        ∃ p q, patMatch pat p = true ∧ n.endAt (p ++ q) = true ∧ o ∈ n.idsAt (p ++ q)) := by
  induction pat with
  | nil =>
    intro n hwf o
    rw [searchByValuePrefix_nil, mem_collectAllObjectIds n hwf o]
    constructor
    · rintro ⟨p, h1, h2⟩
      exact ⟨[], p, rfl, by simpa using h1, by simpa using h2⟩
    · rintro ⟨p, q, hm, h1, h2⟩
      obtain rfl := patMatch_nil p |>.mp hm
      exact ⟨q, by simpa using h1, by simpa using h2⟩
  | cons c rest ih =>
    intro n hwf o
    by_cases hc : c = '*'
    · subst hc
      rw [searchByValuePrefix_star]
      rw [mem_searchByValuePrefixAux]
      have hwfc := hwf
      rw [show n = VNode.mk n.isEnd n.ids n.full n.children by cases n <;> rfl] at hwfc
      rw [VNode.WF_iff] at hwfc
      constructor
      · rintro ⟨⟨d, m⟩, hq, ho⟩
        obtain ⟨p, q, hm, h1, h2⟩ := (ih m (hwfc.2 (d, m) hq) o).mp ho
        refine ⟨d :: p, q, ?_, ?_, ?_⟩
        · rw [patMatch_cons]
          exact ⟨d, p, rfl, Or.inl rfl, hm⟩
        · rw [List.cons_append, VNode.endAt_cons,
            childLookup_of_mem n.children d m hwfc.1 hq]
          exact h1
        · rw [List.cons_append, VNode.idsAt_cons,
            childLookup_of_mem n.children d m hwfc.1 hq]
          exact h2
      · rintro ⟨p, q, hm, h1, h2⟩
        obtain ⟨d, pr, rfl, hstar, hm2⟩ := (patMatch_cons '*' rest p).mp hm
        rw [List.cons_append, VNode.endAt_cons] at h1
        rw [List.cons_append, VNode.idsAt_cons] at h2
        cases hl : childLookup n.children d with
        | none => rw [hl] at h1; simp at h1
        | some m =>
          rw [hl] at h1 h2
          have hq : (d, m) ∈ n.children := mem_of_childLookup _ _ _ hl
          exact ⟨(d, m), hq, (ih m (hwfc.2 (d, m) hq) o).mpr ⟨pr, q, hm2, h1, h2⟩⟩
    · rw [searchByValuePrefix_cons_ne n c rest hc]
      constructor
      · intro ho
        cases hl : childLookup n.children c with
        | none => rw [hl] at ho; simp at ho
        | some m =>
          rw [hl] at ho
          have hwfm : m.WF := by
            have hwfc := hwf
            rw [show n = VNode.mk n.isEnd n.ids n.full n.children by cases n <;> rfl] at hwfc
            rw [VNode.WF_iff] at hwfc
            exact hwfc.2 (c, m) (mem_of_childLookup _ _ _ hl)
          obtain ⟨p, q, hm, h1, h2⟩ := (ih m hwfm o).mp ho
          refine ⟨c :: p, q, ?_, ?_, ?_⟩
          · rw [patMatch_cons]
            exact ⟨c, p, rfl, Or.inr rfl, hm⟩
          · rw [List.cons_append, VNode.endAt_cons, hl]
            exact h1
          · rw [List.cons_append, VNode.idsAt_cons, hl]
            exact h2
      · rintro ⟨p, q, hm, h1, h2⟩
        obtain ⟨d, pr, rfl, hor, hm2⟩ := (patMatch_cons c rest p).mp hm
        have hcd : c = d := by
          rcases hor with h | h
          · exact absurd h hc
          · exact h
        subst hcd
        rw [List.cons_append, VNode.endAt_cons] at h1
        rw [List.cons_append, VNode.idsAt_cons] at h2
        cases hl : childLookup n.children c with
        | none => rw [hl] at h1; simp at h1
        | some m =>
          rw [hl] at h1 h2
          have hwfm : m.WF := by
            have hwfc := hwf
            rw [show n = VNode.mk n.isEnd n.ids n.full n.children by cases n <;> rfl] at hwfc
            rw [VNode.WF_iff] at hwfc
            exact hwfc.2 (c, m) (mem_of_childLookup _ _ _ hl)
          exact (ih m hwfm o).mpr ⟨pr, q, hm2, h1, h2⟩

theorem VNode.WF.keysNodup {n : VNode} (hwf : n.WF) : (n.children.map Prod.fst).Nodup := by
  cases hwf
  assumption

theorem VNode.WF.memWF {n : VNode} (hwf : n.WF) {q : Char × VNode}
    (hq : q ∈ n.children) : q.2.WF := by
  cases hwf with
  | mk e ids f cs hnd hch => exact hch q hq

mutual

/-- `ValueTrie::searchByValueSuffix`: visit every node; a terminal whose
stored `fullValue` is non-empty and ends with the target contributes its
ids. -/
def searchByValueSuffix : VNode → Str → List Int
  | .mk e ids f cs, suf =>
    (if e = true ∧ f ≠ [] ∧ suf <:+ f then ids else []) ++ searchByValueSuffixAux cs suf

/-- Children traversal for `searchByValueSuffix`. -/
def searchByValueSuffixAux : List (Char × VNode) → Str → List Int
  | [], _ => []
  | (_, m) :: cs, suf => searchByValueSuffix m suf ++ searchByValueSuffixAux cs suf

end

mutual

/-- `ValueTrie::searchByValueInfix`: visit every node; a terminal whose
stored `fullValue` is non-empty and contains the target contributes its
ids. -/
def searchByValueInfix : VNode → Str → List Int
  | .mk e ids f cs, t =>
    (if e = true ∧ f ≠ [] ∧ t <:+: f then ids else []) ++ searchByValueInfixAux cs t

/-- Children traversal for `searchByValueInfix`. -/
def searchByValueInfixAux : List (Char × VNode) → Str → List Int
  | [], _ => []
  | (_, m) :: cs, t => searchByValueInfix m t ++ searchByValueInfixAux cs t

end

theorem mem_searchByValueSuffixAux (cs : List (Char × VNode)) (suf : Str) (o : Int) :
    o ∈ searchByValueSuffixAux cs suf ↔ ∃ q ∈ cs, o ∈ searchByValueSuffix q.2 suf := by
  induction cs with
  | nil => simp [searchByValueSuffixAux]
  | cons hd tl ih =>
    obtain ⟨c, m⟩ := hd
    rw [searchByValueSuffixAux]
    simp only [List.mem_append, ih]
    constructor
    · rintro (h | ⟨q, hq, ho⟩)
      · exact ⟨(c, m), List.mem_cons_self _ _, h⟩
      · exact ⟨q, List.mem_cons_of_mem _ hq, ho⟩
    · rintro ⟨q, hq, ho⟩
      rcases List.mem_cons.mp hq with rfl | hq2
      · exact Or.inl ho
      · exact Or.inr ⟨q, hq2, ho⟩

theorem mem_searchByValueInfixAux (cs : List (Char × VNode)) (t : Str) (o : Int) :
    o ∈ searchByValueInfixAux cs t ↔ ∃ q ∈ cs, o ∈ searchByValueInfix q.2 t := by
  induction cs with
  | nil => simp [searchByValueInfixAux]
  | cons hd tl ih =>
    obtain ⟨c, m⟩ := hd
    rw [searchByValueInfixAux]
    simp only [List.mem_append, ih]
    constructor
    · rintro (h | ⟨q, hq, ho⟩)
      · exact ⟨(c, m), List.mem_cons_self _ _, h⟩
      · exact ⟨q, List.mem_cons_of_mem _ hq, ho⟩
    · rintro ⟨q, hq, ho⟩
      rcases List.mem_cons.mp hq with rfl | hq2
      · exact Or.inl ho
      · exact Or.inr ⟨q, hq2, ho⟩

theorem mem_searchByValueSuffix (n : VNode) :
    n.WF → ∀ (suf : Str) (o : Int),
      (o ∈ searchByValueSuffix n suf ↔
        ∃ p, n.endAt p = true ∧ n.fullAt p ≠ [] ∧ suf <:+ n.fullAt p ∧
          o ∈ n.idsAt p) := by
  induction n using VNode.inductionOn with
  | _ e ids f cs ih =>
    intro hwf suf o
    rw [VNode.WF_iff] at hwf
    constructor
    · intro ho
      rw [searchByValueSuffix] at ho
      rcases List.mem_append.mp ho with h1 | h2
      · by_cases hcond : e = true ∧ f ≠ [] ∧ suf <:+ f
        · refine ⟨[], ?_, ?_, ?_, ?_⟩ <;>
            simp_all [VNode.isEnd, VNode.ids, VNode.full]
        · rw [if_neg hcond] at h1
          simp at h1
      · obtain ⟨⟨c, m⟩, hq, ho2⟩ := (mem_searchByValueSuffixAux cs suf o).mp h2
        obtain ⟨p, hend, hf, hsuf, hid⟩ := (ih (c, m) hq (hwf.2 (c, m) hq) suf o).mp ho2
        have hl := childLookup_of_mem cs c m hwf.1 hq
        refine ⟨c :: p, ?_, ?_, ?_, ?_⟩
        · rw [VNode.endAt_cons]; simp only [VNode.children]; rw [hl]; exact hend
        · rw [VNode.fullAt_cons]; simp only [VNode.children]; rw [hl]; exact hf
        · rw [VNode.fullAt_cons]; simp only [VNode.children]; rw [hl]; exact hsuf
        · rw [VNode.idsAt_cons]; simp only [VNode.children]; rw [hl]; exact hid
    · rintro ⟨p, hend, hf, hsuf, hid⟩
      rw [searchByValueSuffix, List.mem_append]
      cases p with
      | nil =>
        left
        simp only [VNode.endAt_nil, VNode.isEnd] at hend
        simp only [VNode.fullAt_nil, VNode.full] at hf hsuf
        simp only [VNode.idsAt_nil, VNode.ids] at hid
        rw [if_pos ⟨hend, hf, hsuf⟩]
        exact hid
      | cons c q =>
        right
        rw [VNode.endAt_cons] at hend
        rw [VNode.fullAt_cons] at hf hsuf
        rw [VNode.idsAt_cons] at hid
        simp only [VNode.children] at hend hf hsuf hid
        cases hl : childLookup cs c with
        | none => rw [hl] at hend; simp at hend
        | some m =>
          rw [hl] at hend hf hsuf hid
          have hq : (c, m) ∈ cs := mem_of_childLookup cs c m hl
          exact (mem_searchByValueSuffixAux cs suf o).mpr
            ⟨(c, m), hq, (ih (c, m) hq (hwf.2 (c, m) hq) suf o).mpr ⟨q, hend, hf, hsuf, hid⟩⟩

theorem mem_searchByValueInfix (n : VNode) :
    n.WF → ∀ (t : Str) (o : Int),
      (o ∈ searchByValueInfix n t ↔
        ∃ p, n.endAt p = true ∧ n.fullAt p ≠ [] ∧ t <:+: n.fullAt p ∧
          o ∈ n.idsAt p) := by
  induction n using VNode.inductionOn with
  | _ e ids f cs ih =>
    intro hwf t o
    rw [VNode.WF_iff] at hwf
    constructor
    · intro ho
      rw [searchByValueInfix] at ho
      rcases List.mem_append.mp ho with h1 | h2
      · by_cases hcond : e = true ∧ f ≠ [] ∧ t <:+: f
        · refine ⟨[], ?_, ?_, ?_, ?_⟩ <;>
            simp_all [VNode.isEnd, VNode.ids, VNode.full]
        · rw [if_neg hcond] at h1
          simp at h1
      · obtain ⟨⟨c, m⟩, hq, ho2⟩ := (mem_searchByValueInfixAux cs t o).mp h2
        obtain ⟨p, hend, hf, hinf, hid⟩ := (ih (c, m) hq (hwf.2 (c, m) hq) t o).mp ho2
        have hl := childLookup_of_mem cs c m hwf.1 hq
        refine ⟨c :: p, ?_, ?_, ?_, ?_⟩
        · rw [VNode.endAt_cons]; simp only [VNode.children]; rw [hl]; exact hend
        · rw [VNode.fullAt_cons]; simp only [VNode.children]; rw [hl]; exact hf
        · rw [VNode.fullAt_cons]; simp only [VNode.children]; rw [hl]; exact hinf
        · rw [VNode.idsAt_cons]; simp only [VNode.children]; rw [hl]; exact hid
    · rintro ⟨p, hend, hf, hinf, hid⟩
      rw [searchByValueInfix, List.mem_append]
      cases p with
      | nil =>
        left
        simp only [VNode.endAt_nil, VNode.isEnd] at hend
        simp only [VNode.fullAt_nil, VNode.full] at hf hinf
        simp only [VNode.idsAt_nil, VNode.ids] at hid
        rw [if_pos ⟨hend, hf, hinf⟩]
        exact hid
      | cons c q =>
        right
        rw [VNode.endAt_cons] at hend
        rw [VNode.fullAt_cons] at hf hinf
        rw [VNode.idsAt_cons] at hid
        simp only [VNode.children] at hend hf hinf hid
        cases hl : childLookup cs c with
        | none => rw [hl] at hend; simp at hend
        | some m =>
          rw [hl] at hend hf hinf hid
          have hq : (c, m) ∈ cs := mem_of_childLookup cs c m hl
          exact (mem_searchByValueInfixAux cs t o).mpr
            ⟨(c, m), hq, (ih (c, m) hq (hwf.2 (c, m) hq) t o).mpr ⟨q, hend, hf, hinf, hid⟩⟩

/-- `ValueTrie::searchValueSuffix`: the traversal runs only with suffix-tree
mode on; otherwise the result is empty (with a warning in the source). -/
def searchValueSuffix (mode : Bool) (n : VNode) (suf : Str) : List Int :=
  if mode then searchByValueSuffix n suf else []

/-- `ValueTrie::searchValueInfix`: the traversal runs only with suffix-tree
mode on; otherwise the result is empty (with a warning in the source). -/
def searchValueInfix (mode : Bool) (n : VNode) (t : Str) : List Int :=
  if mode then searchByValueInfix n t else []

/-! ## First-layer trie: `KeyTrie` nodes (idioms.cpp `KeyTrieNode`)

A key-trie node carries the `isEndOfKey` flag, a lazily created `ValueTrie`
(`none` models a null pointer), the `fullKey` tag, and the children map. -/

inductive KNode : Type where
  | mk (isEnd : Bool) (vt : Option VNode) (full : Str) (children : List (Char × KNode))

/-- Terminal flag of a key-trie node (`isEndOfKey`). -/
def KNode.isEnd : KNode → Bool
  | .mk e _ _ _ => e

/-- The owned `ValueTrie` of a key-trie node (null pointer = `none`). -/
def KNode.vt : KNode → Option VNode
  | .mk _ v _ _ => v

/-- Stored `fullKey` tag of a key-trie node. -/
def KNode.full : KNode → Str
  | .mk _ _ f _ => f

/-- Children map of a key-trie node. -/
def KNode.children : KNode → List (Char × KNode)
  | .mk _ _ _ cs => cs

/-- A freshly constructed `KeyTrieNode()`. -/
def emptyK : KNode := .mk false none [] []

/-- Structural induction for the nested inductive `KNode`. -/
def KNode.inductionOn {P : KNode → Prop}
    (h : ∀ e vt f cs, (∀ p ∈ cs, P (Prod.snd p)) → P (.mk e vt f cs)) :
    ∀ n, P n
  | .mk e vt f cs =>
    h e vt f cs (fun p hp => KNode.inductionOn h p.2)
termination_by n => sizeOf n
decreasing_by
  have h1 : sizeOf p < sizeOf cs := List.sizeOf_lt_of_mem hp
  have h2 : sizeOf p.2 < sizeOf p := by
    obtain ⟨a, b⟩ := p
    simp only [Prod.mk.sizeOf_spec]
    omega
  simp only [KNode.mk.sizeOf_spec]
  omega

/-- Terminal flag at a path of the key trie. -/
def KNode.kEndAt : KNode → Str → Bool
  | n, [] => n.isEnd
  | n, c :: p =>
    match childLookup n.children c with
    | some m => m.kEndAt p
    | none => false

/-- Stored `fullKey` tag at a path of the key trie. -/
def KNode.kFullAt : KNode → Str → Str
  | n, [] => n.full
  | n, c :: p =>
    match childLookup n.children c with
    | some m => m.kFullAt p
    | none => []

/-- The `ValueTrie` at a path of the key trie (`none` where absent). -/
def KNode.vtAt : KNode → Str → Option VNode
  | n, [] => n.vt
  | n, c :: p =>
    match childLookup n.children c with
    | some m => m.vtAt p
    | none => none

@[simp] theorem KNode.kEndAt_nil (n : KNode) : n.kEndAt [] = n.isEnd := rfl

@[simp] theorem KNode.kFullAt_nil (n : KNode) : n.kFullAt [] = n.full := rfl

@[simp] theorem KNode.vtAt_nil (n : KNode) : n.vtAt [] = n.vt := rfl

theorem KNode.kEndAt_cons (n : KNode) (c : Char) (p : Str) :
    n.kEndAt (c :: p) =
      match childLookup n.children c with
      | some m => m.kEndAt p
      | none => false := rfl

theorem KNode.kFullAt_cons (n : KNode) (c : Char) (p : Str) :
    n.kFullAt (c :: p) =
      match childLookup n.children c with
      | some m => m.kFullAt p
      | none => [] := rfl

theorem KNode.vtAt_cons (n : KNode) (c : Char) (p : Str) :
    n.vtAt (c :: p) =
      match childLookup n.children c with
      | some m => m.vtAt p
      | none => none := rfl

@[simp] theorem emptyK_kEndAt (p : Str) : emptyK.kEndAt p = false := by
  cases p with
  | nil => rfl
  | cons c q => simp [KNode.kEndAt_cons, emptyK, KNode.children, childLookup]

@[simp] theorem emptyK_kFullAt (p : Str) : emptyK.kFullAt p = [] := by
  cases p with
  | nil => rfl
  | cons c q => simp [KNode.kFullAt_cons, emptyK, KNode.children, childLookup]

@[simp] theorem emptyK_vtAt (p : Str) : emptyK.vtAt p = none := by
  cases p with
  | nil => rfl
  | cons c q => simp [KNode.vtAt_cons, emptyK, KNode.children, childLookup]

/-! ## Key-trie insertion (idioms.cpp `KeyTrie::insertKeyOnly` and friends) -/

/-- Walk/create nodes along the key; at the end set the terminal flag,
lazily create the `ValueTrie`, and store the computed `fullKey` tag `fk`. -/
def insKeyGo : Str → Str → KNode → KNode
  | [], fk, .mk _ vt _ cs => .mk true (some (vt.getD emptyV)) fk cs
  | c :: rest, fk, n =>
    .mk n.isEnd n.vt n.full
      (childUpdate n.children c
        (insKeyGo rest fk ((childLookup n.children c).getD emptyK)))

/-- `KeyTrie::insertKeyOnly(key, fullKey)`: stored tag is `fullKey` when
non-empty, else `key` itself. -/
def insertKeyOnly (n : KNode) (key fk : Str) : KNode :=
  insKeyGo key (if fk = [] then key else fk) n

/-- `KeyTrie::insertKeyWithSuffixes`: insert `key.substr(i)` for each
`i ∈ [0, key.length)`, tagging each with the full `key`. -/
def insertKeyWithSuffixes (n : KNode) (key : Str) : KNode :=
  (List.range key.length).foldl (fun m i => insertKeyOnly m (key.drop i) key) n

/-- `KeyTrie::insertKeyWithSuffixMode`: insert the key first (tagged with
itself), then all suffixes when suffix-tree mode is on. -/
def insertKeyWithSuffixMode (mode : Bool) (n : KNode) (key : Str) : KNode :=
  let n1 := insertKeyOnly n key key
  if mode then insertKeyWithSuffixes n1 key else n1

/-- Apply a function to the `ValueTrie` stored at `key` (the functional
rendering of mutating the `shared_ptr<ValueTrie>` that `insertKey...`
returned).  Walking a missing path leaves the trie unchanged; in the uses
below the path always exists because the key was just inserted. -/
def updateVtAt : KNode → Str → (VNode → VNode) → KNode
  | n, [], g => .mk n.isEnd (n.vt.map g) n.full n.children
  | n, c :: rest, g =>
    match childLookup n.children c with
    | some m => .mk n.isEnd n.vt n.full (childUpdate n.children c (updateVtAt m rest g))
    | none => n

theorem insKeyGo_cons_same (c : Char) (rest : Str) (fk : Str) (n : KNode) (q : Str) :
    (insKeyGo (c :: rest) fk n).kEndAt (c :: q)
        = (insKeyGo rest fk ((childLookup n.children c).getD emptyK)).kEndAt q ∧
      (insKeyGo (c :: rest) fk n).kFullAt (c :: q)
        = (insKeyGo rest fk ((childLookup n.children c).getD emptyK)).kFullAt q ∧
      (insKeyGo (c :: rest) fk n).vtAt (c :: q)
        = (insKeyGo rest fk ((childLookup n.children c).getD emptyK)).vtAt q := by
  refine ⟨?_, ?_, ?_⟩ <;>
    simp [insKeyGo, KNode.kEndAt_cons, KNode.kFullAt_cons, KNode.vtAt_cons, KNode.children]

theorem insKeyGo_cons_other (c : Char) (rest : Str) (fk : Str) (n : KNode)
    (d : Char) (q : Str) (hdc : d ≠ c) :
    (insKeyGo (c :: rest) fk n).kEndAt (d :: q) = n.kEndAt (d :: q) ∧
      (insKeyGo (c :: rest) fk n).kFullAt (d :: q) = n.kFullAt (d :: q) ∧
      (insKeyGo (c :: rest) fk n).vtAt (d :: q) = n.vtAt (d :: q) := by
  refine ⟨?_, ?_, ?_⟩ <;>
    simp [insKeyGo, KNode.kEndAt_cons, KNode.kFullAt_cons, KNode.vtAt_cons, KNode.children,
      childLookup_childUpdate_other _ _ _ _ hdc]

theorem getD_emptyK_kEndAt (x : Option KNode) (n : KNode) (c : Char) (q : Str)
    (hl : childLookup n.children c = x) :
    (x.getD emptyK).kEndAt q = n.kEndAt (c :: q) := by
  cases x with
  | none => simp [KNode.kEndAt_cons, hl]
  | some m => simp [KNode.kEndAt_cons, hl]

theorem getD_emptyK_kFullAt (x : Option KNode) (n : KNode) (c : Char) (q : Str)
    (hl : childLookup n.children c = x) :
    (x.getD emptyK).kFullAt q = n.kFullAt (c :: q) := by
  cases x with
  | none => simp [KNode.kFullAt_cons, hl]
  | some m => simp [KNode.kFullAt_cons, hl]

theorem getD_emptyK_vtAt (x : Option KNode) (n : KNode) (c : Char) (q : Str)
    (hl : childLookup n.children c = x) :
    (x.getD emptyK).vtAt q = n.vtAt (c :: q) := by
  cases x with
  | none => simp [KNode.vtAt_cons, hl]
  | some m => simp [KNode.vtAt_cons, hl]

theorem kEndAt_insKeyGo (s : Str) (fk : Str) (n : KNode) (p : Str) :
    (insKeyGo s fk n).kEndAt p = if p = s then true else n.kEndAt p := by
  induction s generalizing n p with
  | nil =>
    obtain ⟨e, vt, f, cs⟩ := n
    cases p with
    | nil => simp [insKeyGo, KNode.isEnd]
    | cons d q => simp [insKeyGo, KNode.kEndAt_cons, KNode.children]
  | cons c rest ih =>
    cases p with
    | nil => simp [insKeyGo, KNode.isEnd]
    | cons d q =>
      by_cases hdc : d = c
      · subst hdc
        rw [(insKeyGo_cons_same d rest fk n q).1, ih,
          getD_emptyK_kEndAt _ n d q rfl]
        by_cases hq : q = rest
        · simp [hq]
        · simp [hq]
      · rw [(insKeyGo_cons_other c rest fk n d q hdc).1]
        have hne : ¬ (d :: q = c :: rest) := by simp [hdc]
        simp [hne]

theorem kFullAt_insKeyGo (s : Str) (fk : Str) (n : KNode) (p : Str) :
    (insKeyGo s fk n).kFullAt p = if p = s then fk else n.kFullAt p := by
  induction s generalizing n p with
  | nil =>
    obtain ⟨e, vt, f, cs⟩ := n
    cases p with
    | nil => simp [insKeyGo, KNode.full]
    | cons d q => simp [insKeyGo, KNode.kFullAt_cons, KNode.children]
  | cons c rest ih =>
    cases p with
    | nil => simp [insKeyGo, KNode.full]
    | cons d q =>
      by_cases hdc : d = c
      · subst hdc
        rw [(insKeyGo_cons_same d rest fk n q).2.1, ih,
          getD_emptyK_kFullAt _ n d q rfl]
        by_cases hq : q = rest
        · simp [hq]
        · simp [hq]
      · rw [(insKeyGo_cons_other c rest fk n d q hdc).2.1]
        have hne : ¬ (d :: q = c :: rest) := by simp [hdc]
        simp [hne]

theorem vtAt_insKeyGo (s : Str) (fk : Str) (n : KNode) (p : Str) :
    (insKeyGo s fk n).vtAt p =
      if p = s then some ((n.vtAt p).getD emptyV) else n.vtAt p := by
  induction s generalizing n p with
  | nil =>
    obtain ⟨e, vt, f, cs⟩ := n
    cases p with
    | nil => simp [insKeyGo, KNode.vt]
    | cons d q => simp [insKeyGo, KNode.vtAt_cons, KNode.children]
  | cons c rest ih =>
    cases p with
    | nil => simp [insKeyGo, KNode.vt]
    | cons d q =>
      by_cases hdc : d = c
      · subst hdc
        rw [(insKeyGo_cons_same d rest fk n q).2.2, ih,
          getD_emptyK_vtAt _ n d q rfl]
        by_cases hq : q = rest
        · simp [hq]
        · have hne : ¬ (d :: q = d :: rest) := by simp [hq]
          simp [hq, hne]
      · rw [(insKeyGo_cons_other c rest fk n d q hdc).2.2]
        have hne : ¬ (d :: q = c :: rest) := by simp [hdc]
        simp [hne]

theorem kEndAt_updateVtAt (n : KNode) (k : Str) (g : VNode → VNode) (p : Str) :
    (updateVtAt n k g).kEndAt p = n.kEndAt p := by
  induction k generalizing n p with
  | nil =>
    cases p with
    | nil => simp [updateVtAt, KNode.isEnd]
    | cons d q => simp [updateVtAt, KNode.kEndAt_cons, KNode.children]
  | cons c rest ih =>
    obtain ⟨e, vt0, f, cs⟩ := n
    rw [updateVtAt]
    dsimp only [KNode.children]
    cases hl : childLookup cs c with
    | none => rfl
    | some m =>
      cases p with
      | nil => simp [KNode.isEnd]
      | cons d q =>
        rw [KNode.kEndAt_cons, KNode.kEndAt_cons]
        dsimp only [KNode.children]
        by_cases hdc : d = c
        · subst hdc
          simp only [childLookup_childUpdate_self, hl, ih]
        · simp only [childLookup_childUpdate_other _ _ _ _ hdc]

theorem kFullAt_updateVtAt (n : KNode) (k : Str) (g : VNode → VNode) (p : Str) :
    (updateVtAt n k g).kFullAt p = n.kFullAt p := by
  induction k generalizing n p with
  | nil =>
    cases p with
    | nil => simp [updateVtAt, KNode.full]
    | cons d q => simp [updateVtAt, KNode.kFullAt_cons, KNode.children]
  | cons c rest ih =>
    obtain ⟨e, vt0, f, cs⟩ := n
    rw [updateVtAt]
    dsimp only [KNode.children]
    cases hl : childLookup cs c with
    | none => rfl
    | some m =>
      cases p with
      | nil => simp [KNode.full]
      | cons d q =>
        rw [KNode.kFullAt_cons, KNode.kFullAt_cons]
        dsimp only [KNode.children]
        by_cases hdc : d = c
        · subst hdc
          simp only [childLookup_childUpdate_self, hl, ih]
        · simp only [childLookup_childUpdate_other _ _ _ _ hdc]

theorem vtAt_updateVtAt (n : KNode) (k : Str) (g : VNode → VNode) (p : Str) :
    (updateVtAt n k g).vtAt p = if p = k then (n.vtAt k).map g else n.vtAt p := by
  induction k generalizing n p with
  | nil =>
    cases p with
    | nil => simp [updateVtAt, KNode.vt]
    | cons d q => simp [updateVtAt, KNode.vtAt_cons, KNode.children]
  | cons c rest ih =>
    obtain ⟨e, vt0, f, cs⟩ := n
    rw [updateVtAt]
    dsimp only [KNode.children]
    cases hl : childLookup cs c with
    | none =>
      by_cases hp : p = c :: rest
      · subst hp
        rw [if_pos rfl, KNode.vtAt_cons]
        dsimp only [KNode.children]
        simp [hl]
      · simp [hp]
    | some m =>
      cases p with
      | nil => simp [KNode.vt]
      | cons d q =>
        rw [KNode.vtAt_cons, KNode.vtAt_cons]
        dsimp only [KNode.children]
        by_cases hdc : d = c
        · subst hdc
          simp only [childLookup_childUpdate_self, hl, ih]
          rw [show ((KNode.mk e vt0 f cs).vtAt (d :: q)) = m.vtAt q from by
            rw [KNode.vtAt_cons]
            dsimp only [KNode.children]
            rw [hl]]
          by_cases hq : q = rest
          · simp [hq]
          · have hne : ¬ (d :: q = d :: rest) := by simp [hq]
            simp [hq, hne]
        · simp only [childLookup_childUpdate_other _ _ _ _ hdc]
          rw [KNode.vtAt_cons]
          dsimp only [KNode.children]
          have hne : ¬ (d :: q = c :: rest) := by simp [hdc]
          rw [if_neg hne]

theorem kEndAt_insertKeyOnly (n : KNode) (key fk : Str) (p : Str) :
    (insertKeyOnly n key fk).kEndAt p = if p = key then true else n.kEndAt p :=
  kEndAt_insKeyGo key _ n p

theorem kFullAt_insertKeyOnly (n : KNode) (key fk : Str) (p : Str) :
    (insertKeyOnly n key fk).kFullAt p =
      if p = key then (if fk = [] then key else fk) else n.kFullAt p :=
  kFullAt_insKeyGo key _ n p

theorem vtAt_insertKeyOnly (n : KNode) (key fk : Str) (p : Str) :
    (insertKeyOnly n key fk).vtAt p =
      if p = key then some ((n.vtAt p).getD emptyV) else n.vtAt p :=
  vtAt_insKeyGo key _ n p

theorem vWrites_refl (mode : Bool) (p : Str) : vWrites mode p p := by
  cases mode
  · rfl
  · exact ⟨List.suffix_refl p, fun h => h⟩

theorem kEndAt_kFoldDrop (L : List Nat) (k : Str) (n : KNode) (p : Str) :
    ((L.foldl (fun m i => insertKeyOnly m (k.drop i) k) n).kEndAt p = true) ↔
      (∃ i ∈ L, p = k.drop i) ∨ n.kEndAt p = true := by
  induction L generalizing n with
  | nil => simp
  | cons i L ih =>
    simp only [List.foldl_cons, ih, kEndAt_insertKeyOnly]
    by_cases hp : p = k.drop i
    · simp [hp]
    · simp only [if_neg hp, List.mem_cons]
      constructor
      · rintro (⟨j, hj, rfl⟩ | h)
        · exact Or.inl ⟨j, Or.inr hj, rfl⟩
        · exact Or.inr h
      · rintro (⟨j, (rfl | hj), rfl⟩ | h)
        · exact absurd rfl hp
        · exact Or.inl ⟨j, hj, rfl⟩
        · exact Or.inr h

theorem kFullAt_kFoldDrop (L : List Nat) (k : Str) (n : KNode) (p : Str) :
    (L.foldl (fun m i => insertKeyOnly m (k.drop i) k) n).kFullAt p =
      if (∃ i ∈ L, p = k.drop i) then k else n.kFullAt p := by
  induction L generalizing n with
  | nil => simp
  | cons i L ih =>
    simp only [List.foldl_cons, ih, kFullAt_insertKeyOnly]
    have htag : (if k = [] then k.drop i else k) = k := by
      by_cases hv : k = []
      · subst hv; simp
      · simp [hv]
    by_cases hL : ∃ j ∈ L, p = k.drop j
    · rw [if_pos hL, if_pos]
      exact ⟨hL.choose, List.mem_cons_of_mem i hL.choose_spec.1, hL.choose_spec.2⟩
    · by_cases hp : p = k.drop i
      · rw [if_neg hL, if_pos hp, htag, if_pos]
        exact ⟨i, List.mem_cons_self i L, hp⟩
      · rw [if_neg hL, if_neg hp, if_neg]
        rintro ⟨j, hj, rfl⟩
        rcases List.mem_cons.mp hj with rfl | hj2
        · exact hp rfl
        · exact hL ⟨j, hj2, rfl⟩

theorem vtAt_kFoldDrop (L : List Nat) (k : Str) (n : KNode) (p : Str) :
    (L.foldl (fun m i => insertKeyOnly m (k.drop i) k) n).vtAt p =
      if (∃ i ∈ L, p = k.drop i) then some ((n.vtAt p).getD emptyV) else n.vtAt p := by
  induction L generalizing n with
  | nil => simp
  | cons i L ih =>
    rw [List.foldl_cons, ih]
    by_cases hp : p = k.drop i
    · rw [vtAt_insertKeyOnly, if_pos hp]
      have hcons : ∃ j ∈ i :: L, p = k.drop j := ⟨i, List.mem_cons_self i L, hp⟩
      rw [if_pos hcons]
      by_cases hL : ∃ j ∈ L, p = k.drop j
      · rw [if_pos hL]
        simp
      · rw [if_neg hL]
    · rw [vtAt_insertKeyOnly, if_neg hp]
      by_cases hL : ∃ j ∈ L, p = k.drop j
      · rw [if_pos hL, if_pos
          ⟨hL.choose, List.mem_cons_of_mem i hL.choose_spec.1, hL.choose_spec.2⟩]
      · rw [if_neg hL, if_neg]
        rintro ⟨j, hj, rfl⟩
        rcases List.mem_cons.mp hj with rfl | hj2
        · exact hp rfl
        · exact hL ⟨j, hj2, rfl⟩

/-! ## One `(key, value, objectId)` record entering the two-layer index

`addRecordToTrie` is the trie mutation shared verbatim by
`IdiomsClient::create_md_index` (idioms.cpp) and
`DistributedIdiomsServer::addIndexedKey` (src1/server/Server.cpp): insert the
key (with suffixes in suffix-tree mode), then insert the value into the
`ValueTrie` returned for the full key — rendered functionally as an update at
the key's path. -/

/-- Insert one metadata record into the key trie. -/
def addRecordToTrie (mode : Bool) (root : KNode) (key value : Str) (oid : Int) : KNode :=
  if mode then
    updateVtAt (insertKeyWithSuffixMode true root key) key
      (fun vt => insertValueWithSuffixMode true vt value oid)
  else
    updateVtAt (insertKeyOnly root key []) key
      (fun vt => insertValue vt value oid [])

theorem kEndAt_insertKeyRecord (mode : Bool) (n : KNode) (k : Str) (p : Str) :
    ((insertKeyWithSuffixMode mode n k).kEndAt p = true) ↔
      vWrites mode p k ∨ n.kEndAt p = true := by
  cases mode
  · show ((insertKeyOnly n k k).kEndAt p = true) ↔ _
    rw [kEndAt_insertKeyOnly]
    by_cases hp : p = k <;> simp [hp, vWrites_false]
  · show (((List.range k.length).foldl
        (fun m i => insertKeyOnly m (k.drop i) k) (insertKeyOnly n k k)).kEndAt p = true) ↔ _
    rw [kEndAt_kFoldDrop, kEndAt_insertKeyOnly]
    rw [show (vWrites true p k) = (p = k ∨ ∃ i ∈ List.range k.length, p = k.drop i) from
      propext ((vWrites_true p k).trans (drop_writes_iff p k).symm)]
    by_cases hp : p = k <;> simp [hp] <;> tauto

theorem kFullAt_insertKeyRecord (mode : Bool) (n : KNode) (k : Str) (p : Str) :
    (insertKeyWithSuffixMode mode n k).kFullAt p =
      if vWrites mode p k then k else n.kFullAt p := by
  cases mode
  · show (insertKeyOnly n k k).kFullAt p = _
    rw [kFullAt_insertKeyOnly]
    by_cases hp : p = k <;> by_cases hk : k = [] <;> simp [hp, hk, vWrites_false]
  · show ((List.range k.length).foldl
        (fun m i => insertKeyOnly m (k.drop i) k) (insertKeyOnly n k k)).kFullAt p = _
    rw [kFullAt_kFoldDrop, kFullAt_insertKeyOnly]
    have hiff : vWrites true p k ↔ (p = k ∨ ∃ i ∈ List.range k.length, p = k.drop i) :=
      (vWrites_true p k).trans (drop_writes_iff p k).symm
    by_cases hL : ∃ i ∈ List.range k.length, p = k.drop i
    · rw [if_pos hL, if_pos (hiff.mpr (Or.inr hL))]
    · by_cases hp : p = k
      · rw [if_neg hL, if_pos hp, if_pos (hiff.mpr (Or.inl hp))]
        by_cases hk : k = [] <;> simp [hk]
      · rw [if_neg hL, if_neg hp, if_neg]
        intro hw
        rcases hiff.mp hw with h1 | h2
        · exact hp h1
        · exact hL h2

theorem vtAt_insertKeyRecord (mode : Bool) (n : KNode) (k : Str) (p : Str) :
    (insertKeyWithSuffixMode mode n k).vtAt p =
      if vWrites mode p k then some ((n.vtAt p).getD emptyV) else n.vtAt p := by
  cases mode
  · show (insertKeyOnly n k k).vtAt p = _
    rw [vtAt_insertKeyOnly]
    by_cases hp : p = k <;> simp [hp, vWrites_false]
  · show ((List.range k.length).foldl
        (fun m i => insertKeyOnly m (k.drop i) k) (insertKeyOnly n k k)).vtAt p = _
    rw [vtAt_kFoldDrop, vtAt_insertKeyOnly]
    have hiff : vWrites true p k ↔ (p = k ∨ ∃ i ∈ List.range k.length, p = k.drop i) :=
      (vWrites_true p k).trans (drop_writes_iff p k).symm
    by_cases hL : ∃ i ∈ List.range k.length, p = k.drop i
    · rw [if_pos hL, if_pos (hiff.mpr (Or.inr hL))]
      by_cases hp : p = k
      · rw [if_pos hp]
        simp
      · rw [if_neg hp]
    · by_cases hp : p = k
      · rw [if_neg hL, if_pos hp, if_pos (hiff.mpr (Or.inl hp))]
      · rw [if_neg hL, if_neg hp, if_neg]
        intro hw
        rcases hiff.mp hw with h1 | h2
        · exact hp h1
        · exact hL h2

theorem insertValueWithSuffixMode_false (n : VNode) (v : Str) (oid : Int) :
    insertValueWithSuffixMode false n v oid = insertValue n v oid [] := rfl

theorem kEndAt_addRecord (mode : Bool) (n : KNode) (k v : Str) (oid : Int) (p : Str) :
    ((addRecordToTrie mode n k v oid).kEndAt p = true) ↔
      vWrites mode p k ∨ n.kEndAt p = true := by
  cases mode
  · show ((updateVtAt (insertKeyOnly n k []) k _).kEndAt p = true) ↔ _
    rw [kEndAt_updateVtAt, kEndAt_insertKeyOnly]
    by_cases hp : p = k <;> simp [hp, vWrites_false]
  · show ((updateVtAt (insertKeyWithSuffixMode true n k) k _).kEndAt p = true) ↔ _
    rw [kEndAt_updateVtAt]
    exact kEndAt_insertKeyRecord true n k p

theorem kFullAt_addRecord (mode : Bool) (n : KNode) (k v : Str) (oid : Int) (p : Str) :
    (addRecordToTrie mode n k v oid).kFullAt p =
      if vWrites mode p k then k else n.kFullAt p := by
  cases mode
  · show (updateVtAt (insertKeyOnly n k []) k _).kFullAt p = _
    rw [kFullAt_updateVtAt, kFullAt_insertKeyOnly]
    by_cases hp : p = k <;> simp [hp, vWrites_false]
  · show (updateVtAt (insertKeyWithSuffixMode true n k) k _).kFullAt p = _
    rw [kFullAt_updateVtAt]
    exact kFullAt_insertKeyRecord true n k p

theorem vtAt_addRecord (mode : Bool) (n : KNode) (k v : Str) (oid : Int) (p : Str) :
    (addRecordToTrie mode n k v oid).vtAt p =
      if p = k then some (insertValueWithSuffixMode mode ((n.vtAt k).getD emptyV) v oid)
      else if vWrites mode p k then some ((n.vtAt p).getD emptyV)
      else n.vtAt p := by
  cases mode
  · show (updateVtAt (insertKeyOnly n k []) k
      (fun vt => insertValue vt v oid [])).vtAt p = _
    rw [vtAt_updateVtAt]
    by_cases hp : p = k
    · rw [if_pos hp, if_pos hp, vtAt_insertKeyOnly, if_pos rfl]
      simp [insertValueWithSuffixMode_false]
    · rw [if_neg hp, if_neg hp, vtAt_insertKeyOnly, if_neg hp, if_neg]
      intro hw
      exact hp ((vWrites_false p k).mp hw)
  · show (updateVtAt (insertKeyWithSuffixMode true n k) k
      (fun vt => insertValueWithSuffixMode true vt v oid)).vtAt p = _
    rw [vtAt_updateVtAt]
    by_cases hp : p = k
    · rw [if_pos hp, if_pos hp, vtAt_insertKeyRecord, if_pos (hp ▸ vWrites_refl true p)]
      subst hp
      simp
    · rw [if_neg hp, if_neg hp, vtAt_insertKeyRecord]

/-! ## A list of records entering the two-layer index -/

/-- Fold a list of `(key, value, objectId)` records into a key trie. -/
def kFoldRecords (mode : Bool) (rs : List (Str × Str × Int)) (n : KNode) : KNode :=
  rs.foldl (fun m r => addRecordToTrie mode m r.1 r.2.1 r.2.2) n

/-- The `(value, objectId)` pairs of the records carrying key `k`, in insert
order; these are exactly the inserts that reach the `ValueTrie` at `k`. -/
def valuesOf (rs : List (Str × Str × Int)) (k : Str) : List (Str × Int) :=
  (rs.filter (fun r => decide (r.1 = k))).map (fun r => (r.2.1, r.2.2))

/-- The key written last at path `p` by the records in `rs`. -/
def lastKeyWrite (mode : Bool) (rs : List (Str × Str × Int)) (p dflt : Str) : Str :=
  rs.foldl (fun acc r => if vWrites mode p r.1 then r.1 else acc) dflt

theorem valuesOf_cons (r : Str × Str × Int) (rs : List (Str × Str × Int)) (k : Str) :
    valuesOf (r :: rs) k =
      if r.1 = k then (r.2.1, r.2.2) :: valuesOf rs k else valuesOf rs k := by
  unfold valuesOf
  by_cases hk : r.1 = k <;> simp [List.filter_cons, hk]

theorem valuesOf_eq_nil (mode : Bool) (rs : List (Str × Str × Int)) (p : Str)
    (h : ¬ ∃ r ∈ rs, vWrites mode p r.1) : valuesOf rs p = [] := by
  unfold valuesOf
  rw [List.map_eq_nil, List.filter_eq_nil]
  intro r hr
  simp only [decide_eq_true_eq]
  intro hk
  exact h ⟨r, hr, hk ▸ vWrites_refl mode p⟩

theorem kEndAt_kFold (mode : Bool) (rs : List (Str × Str × Int)) (n : KNode) (p : Str) :
    ((kFoldRecords mode rs n).kEndAt p = true) ↔
      (∃ r ∈ rs, vWrites mode p r.1) ∨ n.kEndAt p = true := by
  induction rs generalizing n with
  | nil => simp [kFoldRecords]
  | cons r rs ih =>
    show ((kFoldRecords mode rs (addRecordToTrie mode n r.1 r.2.1 r.2.2)).kEndAt p = true) ↔ _
    rw [ih, kEndAt_addRecord]
    constructor
    · rintro (⟨s, hs, hw⟩ | hw | h)
      · exact Or.inl ⟨s, List.mem_cons_of_mem r hs, hw⟩
      · exact Or.inl ⟨r, List.mem_cons_self r rs, hw⟩
      · exact Or.inr h
    · rintro (⟨s, hs, hw⟩ | h)
      · rcases List.mem_cons.mp hs with rfl | hs2
        · exact Or.inr (Or.inl hw)
        · exact Or.inl ⟨s, hs2, hw⟩
      · exact Or.inr (Or.inr h)

theorem kFullAt_kFold (mode : Bool) (rs : List (Str × Str × Int)) (n : KNode) (p : Str) :
    (kFoldRecords mode rs n).kFullAt p = lastKeyWrite mode rs p (n.kFullAt p) := by
  induction rs generalizing n with
  | nil => simp [kFoldRecords, lastKeyWrite]
  | cons r rs ih =>
    show (kFoldRecords mode rs (addRecordToTrie mode n r.1 r.2.1 r.2.2)).kFullAt p = _
    rw [ih, kFullAt_addRecord]
    rfl

theorem vtAt_kFold (mode : Bool) (rs : List (Str × Str × Int)) (n : KNode) (p : Str) :
    (kFoldRecords mode rs n).vtAt p =
      if ∃ r ∈ rs, vWrites mode p r.1
      then some (vtFoldRecords mode (valuesOf rs p) ((n.vtAt p).getD emptyV))
      else n.vtAt p := by
  induction rs generalizing n with
  | nil => simp [kFoldRecords]
  | cons r rs ih =>
    show (kFoldRecords mode rs (addRecordToTrie mode n r.1 r.2.1 r.2.2)).vtAt p = _
    rw [ih, vtAt_addRecord, valuesOf_cons]
    by_cases hp : r.1 = p
    · have hpr : p = r.1 := hp.symm
      have hw : vWrites mode p r.1 := hp ▸ vWrites_refl mode p
      have hcons : ∃ s ∈ r :: rs, vWrites mode p s.1 := ⟨r, List.mem_cons_self r rs, hw⟩
      rw [if_pos hpr, if_pos hp, if_pos hcons]
      by_cases hrs : ∃ s ∈ rs, vWrites mode p s.1
      · rw [if_pos hrs]
        subst hpr
        simp [vtFoldRecords]
      · rw [if_neg hrs, valuesOf_eq_nil mode rs p hrs]
        subst hpr
        simp [vtFoldRecords]
    · have hrp : ¬ p = r.1 := fun hh => hp hh.symm
      rw [if_neg hrp, if_neg hp]
      by_cases hw : vWrites mode p r.1
      · have hcons : ∃ s ∈ r :: rs, vWrites mode p s.1 := ⟨r, List.mem_cons_self r rs, hw⟩
        rw [if_pos hw, if_pos hcons]
        by_cases hrs : ∃ s ∈ rs, vWrites mode p s.1
        · rw [if_pos hrs]
          simp
        · rw [if_neg hrs, valuesOf_eq_nil mode rs p hrs]
          simp [vtFoldRecords]
      · rw [if_neg hw]
        by_cases hrs : ∃ s ∈ rs, vWrites mode p s.1
        · have hcons : ∃ s ∈ r :: rs, vWrites mode p s.1 :=
            ⟨hrs.choose, List.mem_cons_of_mem r hrs.choose_spec.1, hrs.choose_spec.2⟩
          rw [if_pos hrs, if_pos hcons]
        · rw [if_neg hrs, if_neg]
          rintro ⟨s, hs, hws⟩
          rcases List.mem_cons.mp hs with rfl | hs2
          · exact hw hws
          · exact hrs ⟨s, hs2, hws⟩

/-- Well-formedness of a key-trie node: duplicate-free child keys
throughout. -/
inductive KNode.WF : KNode → Prop where
  | mk (e : Bool) (vt : Option VNode) (f : Str) (cs : List (Char × KNode))
      (hnd : (cs.map Prod.fst).Nodup) (hch : ∀ p ∈ cs, KNode.WF p.2) :
      KNode.WF (.mk e vt f cs)

theorem KNode.kWF_iff (e : Bool) (vt : Option VNode) (f : Str) (cs : List (Char × KNode)) :
    KNode.WF (.mk e vt f cs) ↔ (cs.map Prod.fst).Nodup ∧ ∀ p ∈ cs, KNode.WF p.2 := by
  constructor
  · rintro ⟨⟩
    constructor <;> assumption
  · rintro ⟨h1, h2⟩
    exact KNode.WF.mk e vt f cs h1 h2

theorem emptyK_WF : emptyK.WF := by
  rw [emptyK, KNode.kWF_iff]
  simp

theorem WF_insKeyGo (s : Str) (fk : Str) (n : KNode) (hwf : n.WF) :
    (insKeyGo s fk n).WF := by
  induction s generalizing n with
  | nil =>
    obtain ⟨e, vt, f, cs⟩ := n
    rw [KNode.kWF_iff] at hwf
    rw [insKeyGo, KNode.kWF_iff]
    exact hwf
  | cons c rest ih =>
    obtain ⟨e, vt, f, cs⟩ := n
    rw [KNode.kWF_iff] at hwf
    rw [insKeyGo, KNode.kWF_iff]
    constructor
    · exact nodup_keys_childUpdate _ _ _ hwf.1
    · intro q hq
      rcases mem_childUpdate _ _ _ _ hq with rfl | hmem
      · refine ih _ ?_
        simp only [KNode.children]
        cases hl : childLookup cs c with
        | none => simpa using emptyK_WF
        | some m => simpa using hwf.2 (c, m) (mem_of_childLookup _ _ _ hl)
      · exact hwf.2 q hmem

theorem WF_updateVtAt (n : KNode) (k : Str) (g : VNode → VNode) (hwf : n.WF) :
    (updateVtAt n k g).WF := by
  induction k generalizing n with
  | nil =>
    obtain ⟨e, vt, f, cs⟩ := n
    rw [KNode.kWF_iff] at hwf
    rw [updateVtAt]
    rw [KNode.kWF_iff]
    exact hwf
  | cons c rest ih =>
    obtain ⟨e, vt, f, cs⟩ := n
    rw [KNode.kWF_iff] at hwf
    rw [updateVtAt]
    dsimp only [KNode.children]
    cases hl : childLookup cs c with
    | none => exact (KNode.kWF_iff e vt f cs).mpr hwf
    | some m =>
      rw [KNode.kWF_iff]
      constructor
      · exact nodup_keys_childUpdate _ _ _ hwf.1
      · intro q hq
        rcases mem_childUpdate _ _ _ _ hq with rfl | hmem
        · exact ih m (hwf.2 (c, m) (mem_of_childLookup _ _ _ hl))
        · exact hwf.2 q hmem

theorem WF_insertKeyOnly (n : KNode) (key fk : Str) (hwf : n.WF) :
    (insertKeyOnly n key fk).WF :=
  WF_insKeyGo key _ n hwf

theorem WF_addRecord (mode : Bool) (n : KNode) (k v : Str) (oid : Int) (hwf : n.WF) :
    (addRecordToTrie mode n k v oid).WF := by
  cases mode
  · exact WF_updateVtAt _ k _ (WF_insertKeyOnly n k [] hwf)
  · refine WF_updateVtAt _ k _ ?_
    show ((List.range k.length).foldl
      (fun m i => insertKeyOnly m (k.drop i) k) (insertKeyOnly n k k)).WF
    have h0 : (insertKeyOnly n k k).WF := WF_insertKeyOnly n k k hwf
    generalize insertKeyOnly n k k = n0 at h0
    induction List.range k.length generalizing n0 with
    | nil => exact h0
    | cons i L ih2 => exact ih2 _ (WF_insertKeyOnly n0 (k.drop i) k h0)

theorem WF_kFold (mode : Bool) (rs : List (Str × Str × Int)) (n : KNode) (hwf : n.WF) :
    (kFoldRecords mode rs n).WF := by
  induction rs generalizing n with
  | nil => exact hwf
  | cons r rs ih => exact ih _ (WF_addRecord mode n r.1 r.2.1 r.2.2 hwf)

/-! ## Key-trie searches (idioms.cpp `KeyTrie::search...`) -/

/-- `KeyTrie::searchExactKey`: walk the key; at a terminal return its
`ValueTrie` (a null pointer is `none`). -/
def searchExactKey : KNode → Str → Option VNode
  | n, [] => if n.isEnd then n.vt else none
  | n, c :: rest =>
    match childLookup n.children c with
    | some m => searchExactKey m rest
    | none => none

theorem searchExactKey_eq (n : KNode) (t : Str) :
    searchExactKey n t = if n.kEndAt t = true then n.vtAt t else none := by
  induction t generalizing n with
  | nil =>
    rw [searchExactKey]
    by_cases he : n.isEnd <;> simp [he]
  | cons c rest ih =>
    rw [searchExactKey, KNode.kEndAt_cons, KNode.vtAt_cons]
    cases hl : childLookup n.children c with
    | none => simp
    | some m => simpa using ih m

mutual

/-- `KeyTrie::collectAllValueTries`: every `ValueTrie` hanging below a node. -/
def collectAllValueTries : KNode → List VNode
  | .mk e vt _ cs =>
    (if e then (match vt with | some t => [t] | none => []) else []) ++
      collectAllValueTriesAux cs

/-- Children traversal for `collectAllValueTries`. -/
def collectAllValueTriesAux : List (Char × KNode) → List VNode
  | [] => []
  | (_, m) :: rest => collectAllValueTries m ++ collectAllValueTriesAux rest

end

mutual

/-- `KeyTrie::searchByKeyPrefix`: walk the pattern, branching at `*`; collect
all value tries below the reached node. -/
def searchByKeyPrefix : KNode → Str → List VNode
  | n, [] => collectAllValueTries n
  | n, c :: rest =>
    if c = '*' then searchByKeyPrefixAux n.children rest
    else
      match hl : childLookup n.children c with
      | some m => searchByKeyPrefix m rest
      | none => []
termination_by n _ => sizeOf n
decreasing_by
  · obtain ⟨e, vt, f, csn⟩ := n
    simp only [KNode.children, KNode.mk.sizeOf_spec]
    omega
  · obtain ⟨e, vt, f, csn⟩ := n
    simp only [KNode.children] at hl
    have h1 : ((c, m) : Char × KNode) ∈ csn := mem_of_childLookup csn c m hl
    have h2 : sizeOf ((c, m) : Char × KNode) < sizeOf csn := List.sizeOf_lt_of_mem h1
    have h3 : sizeOf m < sizeOf ((c, m) : Char × KNode) := by
      simp only [Prod.mk.sizeOf_spec]
      omega
    simp only [KNode.mk.sizeOf_spec]
    omega

/-- The `*` branch of `searchByKeyPrefix`: recurse into every child. -/
def searchByKeyPrefixAux : List (Char × KNode) → Str → List VNode
  | [], _ => []
  | (_, m) :: cs, pat => searchByKeyPrefix m pat ++ searchByKeyPrefixAux cs pat
termination_by cs _ => sizeOf cs
decreasing_by
  · simp only [Prod.mk.sizeOf_spec, List.cons.sizeOf_spec]
    omega
  · simp only [List.cons.sizeOf_spec]
    omega

end

mutual

/-- `KeyTrie::searchByKeySuffix`: visit every node; a terminal with a value
trie whose non-empty `fullKey` ends with the target contributes its trie. -/
def searchByKeySuffix : KNode → Str → List VNode
  | .mk e vt f cs, suf =>
    (match vt with
     | some t => if e = true ∧ f ≠ [] ∧ suf <:+ f then [t] else []
     | none => []) ++ searchByKeySuffixAux cs suf

/-- Children traversal for `searchByKeySuffix`. -/
def searchByKeySuffixAux : List (Char × KNode) → Str → List VNode
  | [], _ => []
  | (_, m) :: cs, suf => searchByKeySuffix m suf ++ searchByKeySuffixAux cs suf

end

mutual

/-- `KeyTrie::searchByKeyInfix`: visit every node; a terminal with a value
trie whose non-empty `fullKey` contains the target contributes its trie. -/
def searchByKeyInfix : KNode → Str → List VNode
  | .mk e vt f cs, t =>
    (match vt with
     | some tr => if e = true ∧ f ≠ [] ∧ t <:+: f then [tr] else []
     | none => []) ++ searchByKeyInfixAux cs t

/-- Children traversal for `searchByKeyInfix`. -/
def searchByKeyInfixAux : List (Char × KNode) → Str → List VNode
  | [], _ => []
  | (_, m) :: cs, t => searchByKeyInfix m t ++ searchByKeyInfixAux cs t

end

/-- `KeyTrie::searchKeySuffix`: the traversal runs only in suffix-tree mode. -/
def searchKeySuffix (mode : Bool) (n : KNode) (suf : Str) : List VNode :=
  if mode then searchByKeySuffix n suf else []

/-- `KeyTrie::searchKeyInfix`: the traversal runs only in suffix-tree mode. -/
def searchKeyInfix (mode : Bool) (n : KNode) (t : Str) : List VNode :=
  if mode then searchByKeyInfix n t else []

theorem collectAllValueTries_mk (e : Bool) (vt : Option VNode) (f : Str)
    (cs : List (Char × KNode)) :
    collectAllValueTries (.mk e vt f cs) =
      (if e then (match vt with | some t => [t] | none => []) else []) ++
        collectAllValueTriesAux cs := by
  rw [collectAllValueTries.eq_def]

theorem searchByKeySuffix_mk (e : Bool) (vt : Option VNode) (f : Str)
    (cs : List (Char × KNode)) (suf : Str) :
    searchByKeySuffix (.mk e vt f cs) suf =
      (match vt with
       | some t => if e = true ∧ f ≠ [] ∧ suf <:+ f then [t] else []
       | none => []) ++ searchByKeySuffixAux cs suf := by
  rw [searchByKeySuffix.eq_def]

theorem searchByKeyInfix_mk (e : Bool) (vt : Option VNode) (f : Str)
    (cs : List (Char × KNode)) (tok : Str) :
    searchByKeyInfix (.mk e vt f cs) tok =
      (match vt with
       | some tr => if e = true ∧ f ≠ [] ∧ tok <:+: f then [tr] else []
       | none => []) ++ searchByKeyInfixAux cs tok := by
  rw [searchByKeyInfix.eq_def]

theorem mem_collectAllValueTriesAux (cs : List (Char × KNode)) (t : VNode) :
    t ∈ collectAllValueTriesAux cs ↔ ∃ q ∈ cs, t ∈ collectAllValueTries q.2 := by
  induction cs with
  | nil => simp [collectAllValueTriesAux]
  | cons hd tl ih =>
    obtain ⟨c, m⟩ := hd
    rw [collectAllValueTriesAux]
    simp only [List.mem_append, ih]
    constructor
    · rintro (h | ⟨q, hq, ho⟩)
      · exact ⟨(c, m), List.mem_cons_self _ _, h⟩
      · exact ⟨q, List.mem_cons_of_mem _ hq, ho⟩
    · rintro ⟨q, hq, ho⟩
      rcases List.mem_cons.mp hq with rfl | hq2
      · exact Or.inl ho
      · exact Or.inr ⟨q, hq2, ho⟩

theorem mem_collectAllValueTries (n : KNode) :
    n.WF → ∀ t : VNode,
      (t ∈ collectAllValueTries n ↔ ∃ p, n.kEndAt p = true ∧ n.vtAt p = some t) := by
  induction n using KNode.inductionOn with
  | _ e vt f cs ih =>
    intro hwf t
    rw [KNode.kWF_iff] at hwf
    constructor
    · intro ht
      rw [collectAllValueTries_mk] at ht
      rcases List.mem_append.mp ht with h1 | h2
      · by_cases he : e
        · rw [if_pos he] at h1
          cases hv : vt with
          | none => rw [hv] at h1; simp at h1
          | some tr =>
            rw [hv] at h1
            have h1b : t ∈ [tr] := h1
            simp only [List.mem_singleton] at h1b
            subst h1b
            exact ⟨[], by simp [KNode.isEnd, he], by simp [KNode.vt, hv]⟩
        · rw [if_neg he] at h1
          simp at h1
      · obtain ⟨⟨c, m⟩, hq, ho2⟩ := (mem_collectAllValueTriesAux cs t).mp h2
        obtain ⟨p, hend, hvt⟩ := (ih (c, m) hq (hwf.2 (c, m) hq) t).mp ho2
        have hl := childLookup_of_mem cs c m hwf.1 hq
        refine ⟨c :: p, ?_, ?_⟩
        · rw [KNode.kEndAt_cons]; simp only [KNode.children]; rw [hl]; exact hend
        · rw [KNode.vtAt_cons]; simp only [KNode.children]; rw [hl]; exact hvt
    · rintro ⟨p, hend, hvt⟩
      rw [collectAllValueTries_mk, List.mem_append]
      cases p with
      | nil =>
        left
        simp only [KNode.kEndAt_nil, KNode.isEnd] at hend
        simp only [KNode.vtAt_nil, KNode.vt] at hvt
        subst hvt
        rw [if_pos hend]
        show t ∈ [t]
        simp
      | cons c q =>
        right
        rw [KNode.kEndAt_cons] at hend
        rw [KNode.vtAt_cons] at hvt
        simp only [KNode.children] at hend hvt
        cases hl : childLookup cs c with
        | none => rw [hl] at hend; simp at hend
        | some m =>
          rw [hl] at hend hvt
          have hq : (c, m) ∈ cs := mem_of_childLookup cs c m hl
          exact (mem_collectAllValueTriesAux cs t).mpr
            ⟨(c, m), hq, (ih (c, m) hq (hwf.2 (c, m) hq) t).mpr ⟨q, hend, hvt⟩⟩

theorem searchByKeyPrefix_nil (n : KNode) :
    searchByKeyPrefix n [] = collectAllValueTries n := by
  rw [searchByKeyPrefix]

theorem searchByKeyPrefix_star (n : KNode) (rest : Str) :
    searchByKeyPrefix n ('*' :: rest) = searchByKeyPrefixAux n.children rest := by
  rw [searchByKeyPrefix]
  simp

theorem searchByKeyPrefix_cons_ne (n : KNode) (c : Char) (rest : Str) (hc : ¬ c = '*') :
    searchByKeyPrefix n (c :: rest) =
      match childLookup n.children c with
      | some m => searchByKeyPrefix m rest
      | none => [] := by
  rw [searchByKeyPrefix]
  simp only [if_neg hc]
  cases hl : childLookup n.children c <;> simp

theorem mem_searchByKeyPrefixAux (cs : List (Char × KNode)) (pat : Str) (t : VNode) :
    t ∈ searchByKeyPrefixAux cs pat ↔ ∃ q ∈ cs, t ∈ searchByKeyPrefix q.2 pat := by
  induction cs with
  | nil => simp [searchByKeyPrefixAux]
  | cons hd tl ih =>
    obtain ⟨c, m⟩ := hd
    rw [searchByKeyPrefixAux]
    simp only [List.mem_append, ih]
    constructor
    · rintro (h | ⟨q, hq, ho⟩)
      · exact ⟨(c, m), List.mem_cons_self _ _, h⟩
      · exact ⟨q, List.mem_cons_of_mem _ hq, ho⟩
    · rintro ⟨q, hq, ho⟩
      rcases List.mem_cons.mp hq with rfl | hq2
      · exact Or.inl ho
      · exact Or.inr ⟨q, hq2, ho⟩

theorem mem_searchByKeyPrefix (pat : Str) :
    ∀ n : KNode, n.WF → ∀ t : VNode,
      (t ∈ searchByKeyPrefix n pat ↔
        ∃ p q, patMatch pat p = true ∧ n.kEndAt (p ++ q) = true ∧
          n.vtAt (p ++ q) = some t) := by
  induction pat with
  | nil =>
    intro n hwf t
    rw [searchByKeyPrefix_nil, mem_collectAllValueTries n hwf t]
    constructor
    · rintro ⟨p, h1, h2⟩
      exact ⟨[], p, rfl, by simpa using h1, by simpa using h2⟩
    · rintro ⟨p, q, hm, h1, h2⟩
      obtain rfl := patMatch_nil p |>.mp hm
      exact ⟨q, by simpa using h1, by simpa using h2⟩
  | cons c rest ih =>
    intro n hwf t
    have hwfc : (n.children.map Prod.fst).Nodup ∧ ∀ p ∈ n.children, KNode.WF p.2 := by
      obtain ⟨e, vt, f, cs⟩ := n
      rw [KNode.kWF_iff] at hwf
      exact hwf
    by_cases hc : c = '*'
    · subst hc
      rw [searchByKeyPrefix_star, mem_searchByKeyPrefixAux]
      constructor
      · rintro ⟨⟨d, m⟩, hq, ho⟩
        obtain ⟨p, q, hm, h1, h2⟩ := (ih m (hwfc.2 (d, m) hq) t).mp ho
        refine ⟨d :: p, q, ?_, ?_, ?_⟩
        · rw [patMatch_cons]
          exact ⟨d, p, rfl, Or.inl rfl, hm⟩
        · rw [List.cons_append, KNode.kEndAt_cons,
            childLookup_of_mem n.children d m hwfc.1 hq]
          exact h1
        · rw [List.cons_append, KNode.vtAt_cons,
            childLookup_of_mem n.children d m hwfc.1 hq]
          exact h2
      · rintro ⟨p, q, hm, h1, h2⟩
        obtain ⟨d, pr, rfl, hstar, hm2⟩ := (patMatch_cons '*' rest p).mp hm
        rw [List.cons_append, KNode.kEndAt_cons] at h1
        rw [List.cons_append, KNode.vtAt_cons] at h2
        cases hl : childLookup n.children d with
        | none => rw [hl] at h1; simp at h1
        | some m =>
          rw [hl] at h1 h2
          have hq : (d, m) ∈ n.children := mem_of_childLookup _ _ _ hl
          exact ⟨(d, m), hq, (ih m (hwfc.2 (d, m) hq) t).mpr ⟨pr, q, hm2, h1, h2⟩⟩
    · rw [searchByKeyPrefix_cons_ne n c rest hc]
      constructor
      · intro ho
        cases hl : childLookup n.children c with
        | none => rw [hl] at ho; simp at ho
        | some m =>
          rw [hl] at ho
          obtain ⟨p, q, hm, h1, h2⟩ :=
            (ih m (hwfc.2 (c, m) (mem_of_childLookup _ _ _ hl)) t).mp ho
          refine ⟨c :: p, q, ?_, ?_, ?_⟩
          · rw [patMatch_cons]
            exact ⟨c, p, rfl, Or.inr rfl, hm⟩
          · rw [List.cons_append, KNode.kEndAt_cons, hl]
            exact h1
          · rw [List.cons_append, KNode.vtAt_cons, hl]
            exact h2
      · rintro ⟨p, q, hm, h1, h2⟩
        obtain ⟨d, pr, rfl, hor, hm2⟩ := (patMatch_cons c rest p).mp hm
        have hcd : c = d := by
          rcases hor with h | h
          · exact absurd h hc
          · exact h
        subst hcd
        rw [List.cons_append, KNode.kEndAt_cons] at h1
        rw [List.cons_append, KNode.vtAt_cons] at h2
        cases hl : childLookup n.children c with
        | none => rw [hl] at h1; simp at h1
        | some m =>
          rw [hl] at h1 h2
          exact (ih m (hwfc.2 (c, m) (mem_of_childLookup _ _ _ hl)) t).mpr
            ⟨pr, q, hm2, h1, h2⟩

theorem mem_searchByKeySuffixAux (cs : List (Char × KNode)) (suf : Str) (t : VNode) :
    t ∈ searchByKeySuffixAux cs suf ↔ ∃ q ∈ cs, t ∈ searchByKeySuffix q.2 suf := by
  induction cs with
  | nil => simp [searchByKeySuffixAux]
  | cons hd tl ih =>
    obtain ⟨c, m⟩ := hd
    rw [searchByKeySuffixAux]
    simp only [List.mem_append, ih]
    constructor
    · rintro (h | ⟨q, hq, ho⟩)
      · exact ⟨(c, m), List.mem_cons_self _ _, h⟩
      · exact ⟨q, List.mem_cons_of_mem _ hq, ho⟩
    · rintro ⟨q, hq, ho⟩
      rcases List.mem_cons.mp hq with rfl | hq2
      · exact Or.inl ho
      · exact Or.inr ⟨q, hq2, ho⟩

theorem mem_searchByKeyInfixAux (cs : List (Char × KNode)) (tok : Str) (t : VNode) :
    t ∈ searchByKeyInfixAux cs tok ↔ ∃ q ∈ cs, t ∈ searchByKeyInfix q.2 tok := by
  induction cs with
  | nil => simp [searchByKeyInfixAux]
  | cons hd tl ih =>
    obtain ⟨c, m⟩ := hd
    rw [searchByKeyInfixAux]
    simp only [List.mem_append, ih]
    constructor
    · rintro (h | ⟨q, hq, ho⟩)
      · exact ⟨(c, m), List.mem_cons_self _ _, h⟩
      · exact ⟨q, List.mem_cons_of_mem _ hq, ho⟩
    · rintro ⟨q, hq, ho⟩
      rcases List.mem_cons.mp hq with rfl | hq2
      · exact Or.inl ho
      · exact Or.inr ⟨q, hq2, ho⟩

theorem mem_searchByKeySuffix (n : KNode) :
    n.WF → ∀ (suf : Str) (t : VNode),
      (t ∈ searchByKeySuffix n suf ↔
        ∃ p, n.kEndAt p = true ∧ n.vtAt p = some t ∧ n.kFullAt p ≠ [] ∧
          suf <:+ n.kFullAt p) := by
  induction n using KNode.inductionOn with
  | _ e vt f cs ih =>
    intro hwf suf t
    rw [KNode.kWF_iff] at hwf
    constructor
    · intro ht
      rw [searchByKeySuffix_mk] at ht
      rcases List.mem_append.mp ht with h1 | h2
      · cases hv : vt with
        | none => rw [hv] at h1; simp at h1
        | some tr =>
          rw [hv] at h1
          have h1b : t ∈ (if e = true ∧ f ≠ [] ∧ suf <:+ f then [tr] else []) := h1
          by_cases hcond : e = true ∧ f ≠ [] ∧ suf <:+ f
          · rw [if_pos hcond] at h1b
            simp only [List.mem_singleton] at h1b
            subst h1b
            exact ⟨[], by simp [KNode.isEnd, hcond.1], by simp [KNode.vt, hv],
              by simp [KNode.full, hcond.2.1], by simp [KNode.full, hcond.2.2]⟩
          · rw [if_neg hcond] at h1b
            simp at h1b
      · obtain ⟨⟨c, m⟩, hq, ho2⟩ := (mem_searchByKeySuffixAux cs suf t).mp h2
        obtain ⟨p, hend, hvt, hfne, hsuf⟩ := (ih (c, m) hq (hwf.2 (c, m) hq) suf t).mp ho2
        have hl := childLookup_of_mem cs c m hwf.1 hq
        refine ⟨c :: p, ?_, ?_, ?_, ?_⟩
        · rw [KNode.kEndAt_cons]; simp only [KNode.children]; rw [hl]; exact hend
        · rw [KNode.vtAt_cons]; simp only [KNode.children]; rw [hl]; exact hvt
        · rw [KNode.kFullAt_cons]; simp only [KNode.children]; rw [hl]; exact hfne
        · rw [KNode.kFullAt_cons]; simp only [KNode.children]; rw [hl]; exact hsuf
    · rintro ⟨p, hend, hvt, hfne, hsuf⟩
      rw [searchByKeySuffix_mk, List.mem_append]
      cases p with
      | nil =>
        left
        simp only [KNode.kEndAt_nil, KNode.isEnd] at hend
        simp only [KNode.vtAt_nil, KNode.vt] at hvt
        simp only [KNode.kFullAt_nil, KNode.full] at hfne hsuf
        subst hvt
        show t ∈ (if e = true ∧ f ≠ [] ∧ suf <:+ f then [t] else [])
        rw [if_pos ⟨hend, hfne, hsuf⟩]
        simp
      | cons c q =>
        right
        rw [KNode.kEndAt_cons] at hend
        rw [KNode.vtAt_cons] at hvt
        rw [KNode.kFullAt_cons] at hfne hsuf
        simp only [KNode.children] at hend hvt hfne hsuf
        cases hl : childLookup cs c with
        | none => rw [hl] at hend; simp at hend
        | some m =>
          rw [hl] at hend hvt hfne hsuf
          have hq : (c, m) ∈ cs := mem_of_childLookup cs c m hl
          exact (mem_searchByKeySuffixAux cs suf t).mpr
            ⟨(c, m), hq,
              (ih (c, m) hq (hwf.2 (c, m) hq) suf t).mpr ⟨q, hend, hvt, hfne, hsuf⟩⟩

theorem mem_searchByKeyInfix (n : KNode) :
    n.WF → ∀ (tok : Str) (t : VNode),
      (t ∈ searchByKeyInfix n tok ↔
        ∃ p, n.kEndAt p = true ∧ n.vtAt p = some t ∧ n.kFullAt p ≠ [] ∧
          tok <:+: n.kFullAt p) := by
  induction n using KNode.inductionOn with
  | _ e vt f cs ih =>
    intro hwf tok t
    rw [KNode.kWF_iff] at hwf
    constructor
    · intro ht
      rw [searchByKeyInfix_mk] at ht
      rcases List.mem_append.mp ht with h1 | h2
      · cases hv : vt with
        | none => rw [hv] at h1; simp at h1
        | some tr =>
          rw [hv] at h1
          have h1b : t ∈ (if e = true ∧ f ≠ [] ∧ tok <:+: f then [tr] else []) := h1
          by_cases hcond : e = true ∧ f ≠ [] ∧ tok <:+: f
          · rw [if_pos hcond] at h1b
            simp only [List.mem_singleton] at h1b
            subst h1b
            exact ⟨[], by simp [KNode.isEnd, hcond.1], by simp [KNode.vt, hv],
              by simp [KNode.full, hcond.2.1], by simp [KNode.full, hcond.2.2]⟩
          · rw [if_neg hcond] at h1b
            simp at h1b
      · obtain ⟨⟨c, m⟩, hq, ho2⟩ := (mem_searchByKeyInfixAux cs tok t).mp h2
        obtain ⟨p, hend, hvt, hfne, hinf⟩ := (ih (c, m) hq (hwf.2 (c, m) hq) tok t).mp ho2
        have hl := childLookup_of_mem cs c m hwf.1 hq
        refine ⟨c :: p, ?_, ?_, ?_, ?_⟩
        · rw [KNode.kEndAt_cons]; simp only [KNode.children]; rw [hl]; exact hend
        · rw [KNode.vtAt_cons]; simp only [KNode.children]; rw [hl]; exact hvt
        · rw [KNode.kFullAt_cons]; simp only [KNode.children]; rw [hl]; exact hfne
        · rw [KNode.kFullAt_cons]; simp only [KNode.children]; rw [hl]; exact hinf
    · rintro ⟨p, hend, hvt, hfne, hinf⟩
      rw [searchByKeyInfix_mk, List.mem_append]
      cases p with
      | nil =>
        left
        simp only [KNode.kEndAt_nil, KNode.isEnd] at hend
        simp only [KNode.vtAt_nil, KNode.vt] at hvt
        simp only [KNode.kFullAt_nil, KNode.full] at hfne hinf
        subst hvt
        show t ∈ (if e = true ∧ f ≠ [] ∧ tok <:+: f then [t] else [])
        rw [if_pos ⟨hend, hfne, hinf⟩]
        simp
      | cons c q =>
        right
        rw [KNode.kEndAt_cons] at hend
        rw [KNode.vtAt_cons] at hvt
        rw [KNode.kFullAt_cons] at hfne hinf
        simp only [KNode.children] at hend hvt hfne hinf
        cases hl : childLookup cs c with
        | none => rw [hl] at hend; simp at hend
        | some m =>
          rw [hl] at hend hvt hfne hinf
          have hq : (c, m) ∈ cs := mem_of_childLookup cs c m hl
          exact (mem_searchByKeyInfixAux cs tok t).mpr
            ⟨(c, m), hq,
              (ih (c, m) hq (hwf.2 (c, m) hq) tok t).mpr ⟨q, hend, hvt, hfne, hinf⟩⟩

/-! ## Query parsing (idioms.cpp `IdiomsClient::parseQueryCondition`)

The same classification is used verbatim by `md_search` (idioms.cpp), by
`executeQuery` (src1/server/Server.cpp) and by the routers.  A pattern of the
C++ code reads `front()`/`back()`; on the empty string those calls are
undefined behaviour, modelled here by `head?`/`getLast?` falling through to
the exact branch. -/

inductive QType : Type where
  | qExact : QType
  | qPre : QType
  | qSuf : QType
  | qInf : QType
  | qWild : QType
deriving DecidableEq

structure QueryCondition where
  keyPart : Str
  valuePart : Str
  keyType : QType
  valueType : QType

/-- Classify one side of a `key=value` query and strip its `*` markers. -/
def classifyPattern (p : Str) : QType × Str :=
  if p = ['*'] then (QType.qWild, p)
  else if p.head? = some '*' ∧ p.getLast? = some '*' ∧ p.length > 2 then
    (QType.qInf, (p.drop 1).dropLast)
  else if p.head? = some '*' then (QType.qSuf, p.drop 1)
  else if p.getLast? = some '*' then (QType.qPre, p.dropLast)
  else (QType.qExact, p)

/-- Split a query at the first `=`; a missing `=` defaults the value side to
`*`. -/
def splitQuery (q : Str) : Str × Str :=
  let kp := q.takeWhile (fun c => c ≠ '=')
  match q.dropWhile (fun c => c ≠ '=') with
  | [] => (q, ['*'])
  | _ :: tail => (kp, tail)

/-- `IdiomsClient::parseQueryCondition`. -/
def parseQueryCondition (q : Str) : QueryCondition :=
  let kv := splitQuery q
  let kc := classifyPattern kv.1
  let vc := classifyPattern kv.2
  ⟨kc.2, vc.2, kc.1, vc.1⟩

/-- The key-layer dispatch of `md_search`/`executeQuery`: resolve the key
pattern to the candidate `ValueTrie`s. -/
def keyDispatch (mode : Bool) (root : KNode) (ktype : QType) (tok : Str) : List VNode :=
  match ktype with
  | QType.qExact =>
    match searchExactKey root tok with
    | some vt => [vt]
    | none => []
  | QType.qPre => searchByKeyPrefix root tok
  | QType.qSuf => searchKeySuffix mode root tok
  | QType.qInf => searchKeyInfix mode root tok
  | QType.qWild => collectAllValueTries root

/-- The value-layer dispatch of `md_search`/`executeQuery`: run the value
pattern against one `ValueTrie`. -/
def valueDispatch (mode : Bool) (vt : VNode) (vtype : QType) (tok : Str) : List Int :=
  match vtype with
  | QType.qExact => searchExactValue vt tok
  | QType.qPre => searchByValuePrefix vt tok
  | QType.qSuf => searchValueSuffix mode vt tok
  | QType.qInf => searchValueInfix mode vt tok
  | QType.qWild => collectAllObjectIds vt

/-- The shared query engine of `IdiomsClient::md_search` (idioms.cpp) and
`DistributedIdiomsServer::executeQuery` (src1/server/Server.cpp): parse,
resolve candidate value tries by the key condition, run the value condition
on each, union the id sets, and return them as a sorted vector. -/
def trieQuery (mode : Bool) (root : KNode) (q : Str) : List Int :=
  let cond := parseQueryCondition q
  let valueTries := keyDispatch mode root cond.keyType cond.keyPart
  let collected := valueTries.bind (fun vt => valueDispatch mode vt cond.valueType cond.valuePart)
  collected.dedup.insertionSort (fun a b => a ≤ b)

/-! ## The IDIOMS client (idioms.cpp `IdiomsClient` + `track_metadata`) -/

structure IdiomsClient where
  suffixMode : Bool
  root : KNode
  metadata : List (Str × Str × Int)

/-- A fresh `IdiomsClient(useSuffixMode)`. -/
def IdiomsClient.init (mode : Bool) : IdiomsClient := ⟨mode, emptyK, []⟩

/-- `IdiomsClient::create_md_index`: insert the record into the two-layer
trie and track it (the `objectMetadata` side table, kept flat here). -/
def create_md_index (st : IdiomsClient) (key value : Str) (oid : Int) : IdiomsClient :=
  { st with
    root := addRecordToTrie st.suffixMode st.root key value oid,
    metadata := st.metadata ++ [(key, value, oid)] }

/-- `IdiomsClient::md_search`. -/
def md_search (st : IdiomsClient) (q : Str) : List Int :=
  trieQuery st.suffixMode st.root q

/-- The client obtained by inserting a list of records in order. -/
def buildClient (mode : Bool) (rs : List (Str × Str × Int)) : IdiomsClient :=
  rs.foldl (fun st r => create_md_index st r.1 r.2.1 r.2.2) (IdiomsClient.init mode)

theorem buildClient_suffixMode (mode : Bool) (rs : List (Str × Str × Int)) :
    (buildClient mode rs).suffixMode = mode := by
  suffices h : ∀ st : IdiomsClient,
      (rs.foldl (fun st r => create_md_index st r.1 r.2.1 r.2.2) st).suffixMode
        = st.suffixMode from h (IdiomsClient.init mode)
  induction rs with
  | nil => intro st; rfl
  | cons r rs ih => intro st; exact ih _

theorem buildClient_root (mode : Bool) (rs : List (Str × Str × Int)) :
    (buildClient mode rs).root = kFoldRecords mode rs emptyK := by
  suffices h : ∀ st : IdiomsClient, st.suffixMode = mode →
      (rs.foldl (fun st r => create_md_index st r.1 r.2.1 r.2.2) st).root
        = kFoldRecords mode rs st.root by
    exact h (IdiomsClient.init mode) rfl
  induction rs with
  | nil => intro st _; rfl
  | cons r rs ih =>
    intro st hm
    show (rs.foldl _ (create_md_index st r.1 r.2.1 r.2.2)).root = _
    rw [ih (create_md_index st r.1 r.2.1 r.2.2) (by simp [create_md_index, hm])]
    show kFoldRecords mode rs (addRecordToTrie st.suffixMode st.root r.1 r.2.1 r.2.2) = _
    rw [hm]
    rfl

/-- Which paths of the key trie the key-layer dispatch selects, phrased over
the observable terminal data of the key trie. -/
def keyPathSel (mode : Bool) (root : KNode) (ktype : QType) (tok : Str) (p : Str) : Prop :=
  match ktype with
  | QType.qExact => p = tok ∧ root.kEndAt tok = true
  | QType.qPre => (∃ pr q2, p = pr ++ q2 ∧ patMatch tok pr = true) ∧ root.kEndAt p = true
  | QType.qSuf => mode = true ∧ root.kEndAt p = true ∧ root.kFullAt p ≠ [] ∧
      tok <:+ root.kFullAt p
  | QType.qInf => mode = true ∧ root.kEndAt p = true ∧ root.kFullAt p ≠ [] ∧
      tok <:+: root.kFullAt p
  | QType.qWild => root.kEndAt p = true

/-- Which ids the value-layer dispatch returns, phrased over the observable
terminal data of one `ValueTrie`. -/
def valObsSel (mode : Bool) (t : VNode) (vtype : QType) (tok : Str) (o : Int) : Prop :=
  match vtype with
  | QType.qExact => t.endAt tok = true ∧ o ∈ t.idsAt tok
  | QType.qPre => ∃ pr q2, patMatch tok pr = true ∧ t.endAt (pr ++ q2) = true ∧
      o ∈ t.idsAt (pr ++ q2)
  | QType.qSuf => mode = true ∧ ∃ pi, t.endAt pi = true ∧ t.fullAt pi ≠ [] ∧
      tok <:+ t.fullAt pi ∧ o ∈ t.idsAt pi
  | QType.qInf => mode = true ∧ ∃ pi, t.endAt pi = true ∧ t.fullAt pi ≠ [] ∧
      tok <:+: t.fullAt pi ∧ o ∈ t.idsAt pi
  | QType.qWild => ∃ pi, t.endAt pi = true ∧ o ∈ t.idsAt pi

theorem mem_keyDispatch (mode : Bool) (root : KNode) (hwf : root.WF) (ktype : QType)
    (tok : Str) (t : VNode) :
    t ∈ keyDispatch mode root ktype tok ↔
      ∃ p, keyPathSel mode root ktype tok p ∧ root.vtAt p = some t := by
  cases ktype
  · show (t ∈ match searchExactKey root tok with
      | some vt => [vt] | none => []) ↔ _
    rw [searchExactKey_eq]
    by_cases hend : root.kEndAt tok = true
    · rw [if_pos hend]
      cases hvt : root.vtAt tok with
      | none =>
        simp only [keyPathSel]
        constructor
        · intro h; simp at h
        · rintro ⟨p, ⟨rfl, _⟩, h2⟩
          rw [hvt] at h2
          cases h2
      | some t2 =>
        simp only [keyPathSel, List.mem_singleton]
        constructor
        · rintro rfl
          exact ⟨tok, ⟨rfl, hend⟩, hvt⟩
        · rintro ⟨p, ⟨rfl, _⟩, h2⟩
          rw [hvt] at h2
          exact (Option.some.inj h2).symm
    · rw [if_neg hend]
      simp only [keyPathSel]
      constructor
      · intro h; simp at h
      · rintro ⟨p, ⟨rfl, h1⟩, h2⟩
        exact absurd h1 hend
  · rw [show keyDispatch mode root QType.qPre tok = searchByKeyPrefix root tok from rfl,
      mem_searchByKeyPrefix tok root hwf t]
    simp only [keyPathSel]
    constructor
    · rintro ⟨pr, q2, hm, h1, h2⟩
      exact ⟨pr ++ q2, ⟨⟨pr, q2, rfl, hm⟩, h1⟩, h2⟩
    · rintro ⟨p, ⟨⟨pr, q2, rfl, hm⟩, h1⟩, h2⟩
      exact ⟨pr, q2, hm, h1, h2⟩
  · show (t ∈ searchKeySuffix mode root tok) ↔ _
    unfold searchKeySuffix
    cases mode
    · simp only [Bool.false_eq_true, if_false, List.not_mem_nil, false_iff, keyPathSel]
      rintro ⟨p, ⟨h0, _⟩, _⟩
      exact h0
    · rw [if_pos rfl, mem_searchByKeySuffix root hwf tok t]
      simp only [keyPathSel]
      constructor
      · rintro ⟨p, h1, h2, h3, h4⟩
        refine ⟨p, ⟨by trivial, h1, h3, h4⟩, h2⟩
      · rintro ⟨p, ⟨_, h1, h3, h4⟩, h2⟩
        exact ⟨p, h1, h2, h3, h4⟩
  · show (t ∈ searchKeyInfix mode root tok) ↔ _
    unfold searchKeyInfix
    cases mode
    · simp only [Bool.false_eq_true, if_false, List.not_mem_nil, false_iff, keyPathSel]
      rintro ⟨p, ⟨h0, _⟩, _⟩
      exact h0
    · rw [if_pos rfl, mem_searchByKeyInfix root hwf tok t]
      simp only [keyPathSel]
      constructor
      · rintro ⟨p, h1, h2, h3, h4⟩
        refine ⟨p, ⟨by trivial, h1, h3, h4⟩, h2⟩
      · rintro ⟨p, ⟨_, h1, h3, h4⟩, h2⟩
        exact ⟨p, h1, h2, h3, h4⟩
  · rw [show keyDispatch mode root QType.qWild tok = collectAllValueTries root from rfl,
      mem_collectAllValueTries root hwf t]
    simp only [keyPathSel]

theorem mem_valueDispatch (mode : Bool) (vt : VNode) (hwf : vt.WF) (vtype : QType)
    (tok : Str) (o : Int) :
    o ∈ valueDispatch mode vt vtype tok ↔ valObsSel mode vt vtype tok o := by
  cases vtype
  · exact mem_searchExactValue vt tok o
  · exact mem_searchByValuePrefix tok vt hwf o
  · show (o ∈ searchValueSuffix mode vt tok) ↔ _
    unfold searchValueSuffix
    cases mode
    · simp only [Bool.false_eq_true, if_false, List.not_mem_nil, false_iff, valObsSel]
      rintro ⟨h0, _⟩
      exact h0
    · rw [if_pos rfl, mem_searchByValueSuffix vt hwf tok o]
      simp only [valObsSel, true_and]
  · show (o ∈ searchValueInfix mode vt tok) ↔ _
    unfold searchValueInfix
    cases mode
    · simp only [Bool.false_eq_true, if_false, List.not_mem_nil, false_iff, valObsSel]
      rintro ⟨h0, _⟩
      exact h0
    · rw [if_pos rfl, mem_searchByValueInfix vt hwf tok o]
      simp only [valObsSel, true_and]
  · exact mem_collectAllObjectIds vt hwf o

/-- Every `ValueTrie` reachable in the key trie is well-formed. -/
def KNode.vtsWF (root : KNode) : Prop :=
  ∀ p t, root.vtAt p = some t → VNode.WF t

/-- Master membership description of the shared query engine: an id is
returned iff some selected key-trie terminal owns a value trie whose
observable terminal data admits it. -/
theorem mem_trieQuery (mode : Bool) (root : KNode) (hwf : root.WF) (hv : root.vtsWF)
    (q : Str) (o : Int) :
    o ∈ trieQuery mode root q ↔
      ∃ p t, keyPathSel mode root (parseQueryCondition q).keyType
          (parseQueryCondition q).keyPart p ∧
        root.vtAt p = some t ∧
        valObsSel mode t (parseQueryCondition q).valueType
          (parseQueryCondition q).valuePart o := by
  unfold trieQuery
  rw [(List.perm_insertionSort _ _).mem_iff, List.mem_dedup, List.mem_bind]
  constructor
  · rintro ⟨t, ht, ho⟩
    obtain ⟨p, hsel, hvt⟩ :=
      (mem_keyDispatch mode root hwf _ _ t).mp ht
    exact ⟨p, t, hsel, hvt,
      (mem_valueDispatch mode t (hv p t hvt) _ _ o).mp ho⟩
  · rintro ⟨p, t, hsel, hvt, hval⟩
    exact ⟨t, (mem_keyDispatch mode root hwf _ _ t).mpr ⟨p, hsel, hvt⟩,
      (mem_valueDispatch mode t (hv p t hvt) _ _ o).mpr hval⟩

theorem buildClient_metadata (mode : Bool) (rs : List (Str × Str × Int)) :
    (buildClient mode rs).metadata = rs := by
  suffices h : ∀ st : IdiomsClient,
      (rs.foldl (fun st r => create_md_index st r.1 r.2.1 r.2.2) st).metadata
        = st.metadata ++ rs by
    simpa using h (IdiomsClient.init mode)
  induction rs with
  | nil => intro st; simp
  | cons r rs ih =>
    intro st
    show (rs.foldl _ (create_md_index st r.1 r.2.1 r.2.2)).metadata = _
    rw [ih]
    simp [create_md_index]

/-! ## Record-level semantics of the built client -/

theorem vtsWF_kFold (mode : Bool) (rs : List (Str × Str × Int)) :
    (kFoldRecords mode rs emptyK).vtsWF := by
  intro p t ht
  rw [vtAt_kFold] at ht
  by_cases h : ∃ r ∈ rs, vWrites mode p r.1
  · rw [if_pos h] at ht
    cases ht
    exact WF_vtFold mode (valuesOf rs p) _ (by rw [emptyK_vtAt]; exact emptyV_WF)
  · rw [if_neg h, emptyK_vtAt] at ht
    cases ht

theorem mem_md_search_build (mode : Bool) (rs : List (Str × Str × Int)) (q : Str) (o : Int) :
    o ∈ md_search (buildClient mode rs) q ↔
      ∃ p t, keyPathSel mode (kFoldRecords mode rs emptyK) (parseQueryCondition q).keyType
          (parseQueryCondition q).keyPart p ∧
        (kFoldRecords mode rs emptyK).vtAt p = some t ∧
        valObsSel mode t (parseQueryCondition q).valueType (parseQueryCondition q).valuePart o := by
  show o ∈ trieQuery (buildClient mode rs).suffixMode (buildClient mode rs).root q ↔ _
  rw [buildClient_suffixMode, buildClient_root]
  exact mem_trieQuery mode _ (WF_kFold mode rs emptyK emptyK_WF) (vtsWF_kFold mode rs) q o

theorem lastWrite_of_not (mode : Bool) (vs : List (Str × Int)) (p dflt : Str)
    (h : ¬ ∃ v ∈ vs, vWrites mode p v.1) : lastWrite mode vs p dflt = dflt := by
  induction vs generalizing dflt with
  | nil => rfl
  | cons v vs ih =>
    show lastWrite mode vs p (if vWrites mode p v.1 then v.1 else dflt) = dflt
    rw [if_neg (fun hw => h ⟨v, List.mem_cons_self v vs, hw⟩)]
    exact ih dflt (fun ⟨w, hw, hww⟩ => h ⟨w, List.mem_cons_of_mem v hw, hww⟩)

theorem lastWrite_const (mode : Bool) (vs : List (Str × Int)) (p dflt a : Str)
    (hex : ∃ v ∈ vs, vWrites mode p v.1)
    (hall : ∀ v ∈ vs, vWrites mode p v.1 → v.1 = a) : lastWrite mode vs p dflt = a := by
  induction vs generalizing dflt with
  | nil => exact absurd hex (by simp)
  | cons v vs ih =>
    show lastWrite mode vs p (if vWrites mode p v.1 then v.1 else dflt) = a
    by_cases hvs : ∃ w ∈ vs, vWrites mode p w.1
    · exact ih _ hvs (fun w hw => hall w (List.mem_cons_of_mem v hw))
    · rw [lastWrite_of_not mode vs p _ hvs]
      rcases hex with ⟨w, hw, hww⟩
      rcases List.mem_cons.mp hw with rfl | hw2
      · rw [if_pos hww]
        exact hall w (List.mem_cons_self w vs) hww
      · exact absurd ⟨w, hw2, hww⟩ hvs

theorem lastKeyWrite_of_not (mode : Bool) (rs : List (Str × Str × Int)) (p dflt : Str)
    (h : ¬ ∃ r ∈ rs, vWrites mode p r.1) : lastKeyWrite mode rs p dflt = dflt := by
  induction rs generalizing dflt with
  | nil => rfl
  | cons r rs ih =>
    show lastKeyWrite mode rs p (if vWrites mode p r.1 then r.1 else dflt) = dflt
    rw [if_neg (fun hw => h ⟨r, List.mem_cons_self r rs, hw⟩)]
    exact ih dflt (fun ⟨w, hw, hww⟩ => h ⟨w, List.mem_cons_of_mem r hw, hww⟩)

theorem lastKeyWrite_const (mode : Bool) (rs : List (Str × Str × Int)) (p dflt a : Str)
    (hex : ∃ r ∈ rs, vWrites mode p r.1)
    (hall : ∀ r ∈ rs, vWrites mode p r.1 → r.1 = a) : lastKeyWrite mode rs p dflt = a := by
  induction rs generalizing dflt with
  | nil => exact absurd hex (by simp)
  | cons r rs ih =>
    show lastKeyWrite mode rs p (if vWrites mode p r.1 then r.1 else dflt) = a
    by_cases hrs : ∃ w ∈ rs, vWrites mode p w.1
    · exact ih _ hrs (fun w hw => hall w (List.mem_cons_of_mem r hw))
    · rw [lastKeyWrite_of_not mode rs p _ hrs]
      rcases hex with ⟨w, hw, hww⟩
      rcases List.mem_cons.mp hw with rfl | hw2
      · rw [if_pos hww]
        exact hall w (List.mem_cons_self w rs) hww
      · exact absurd ⟨w, hw2, hww⟩ hrs

theorem getLast?_of_isSuffix (pi a : Str) (hne : pi ≠ []) (h : pi <:+ a) :
    a.getLast? = pi.getLast? := by
  obtain ⟨u, rfl⟩ := h
  exact List.getLast?_append_of_ne_nil u hne

theorem exists_append_vWrites (tok v : Str) :
    (∃ q2, vWrites true (tok ++ q2) v) ↔ tok <:+: v := by
  constructor
  · rintro ⟨q2, hw, -⟩
    exact ((List.prefix_append tok q2).isInfix).trans hw.isInfix
  · intro h
    obtain ⟨s, t, rfl⟩ := h
    by_cases h0 : tok ++ t = []
    · rcases List.append_eq_nil.mp h0 with ⟨rfl, rfl⟩
      refine ⟨s, ?_⟩
      rw [vWrites_true]
      simp
    · refine ⟨t, ?_⟩
      rw [vWrites_true]
      refine ⟨?_, fun hh => absurd hh h0⟩
      rw [List.append_assoc]
      exact List.suffix_append s (tok ++ t)

theorem patMatch_no_star (tok : Str) (h : '*' ∉ tok) (pr : Str) :
    patMatch tok pr = true ↔ pr = tok := by
  induction tok generalizing pr with
  | nil => exact patMatch_nil pr
  | cons c t ih =>
    rw [patMatch_cons]
    have hc : ¬ c = '*' := fun hh => h (hh ▸ List.mem_cons_self c t)
    constructor
    · rintro ⟨d, qr, rfl, hcd, hm⟩
      rcases hcd with h1 | h1
      · exact absurd h1 hc
      · rw [← h1, (ih (fun hm2 => h (List.mem_cons_of_mem c hm2)) qr).mp hm]
    · rintro rfl
      exact ⟨c, t, rfl, Or.inr rfl,
        (ih (fun hm2 => h (List.mem_cons_of_mem c hm2)) t).mpr rfl⟩

theorem mem_valuesOf (rs : List (Str × Str × Int)) (k : Str) (v : Str × Int) :
    v ∈ valuesOf rs k ↔ ∃ r ∈ rs, r.1 = k ∧ v = (r.2.1, r.2.2) := by
  unfold valuesOf
  rw [List.mem_map]
  constructor
  · rintro ⟨r, hr, rfl⟩
    rw [List.mem_filter] at hr
    exact ⟨r, hr.1, by simpa using hr.2, rfl⟩
  · rintro ⟨r, hr, hk, rfl⟩
    exact ⟨r, List.mem_filter.mpr ⟨hr, by simpa using hk⟩, rfl⟩

/-! ## The specification's brute-force reference scan -/

/-- The plain per-record string predicate of the specification: equality,
starts-with, ends-with, contains, or always-true. -/
def bruteMatch : QType → Str → Str → Prop
  | QType.qExact, tok, s => s = tok
  | QType.qPre, tok, s => tok <+: s
  | QType.qSuf, tok, s => tok <:+ s
  | QType.qInf, tok, s => tok <:+: s
  | QType.qWild, _, _ => True

instance bruteMatch.instDecidable : ∀ (t : QType) (tok s : Str), Decidable (bruteMatch t tok s)
  | QType.qExact, tok, s => inferInstanceAs (Decidable (s = tok))
  | QType.qPre, tok, s => inferInstanceAs (Decidable (tok <+: s))
  | QType.qSuf, tok, s => inferInstanceAs (Decidable (tok <:+ s))
  | QType.qInf, tok, s => inferInstanceAs (Decidable (tok <:+: s))
  | QType.qWild, _, _ => inferInstanceAs (Decidable True)

/-- Brute-force scan over the inserted metadata: the specification's
reference semantics for `md_search`, returned in the same
dedup-and-sort shape. -/
def bruteScan (rs : List (Str × Str × Int)) (q : Str) : List Int :=
  let cond := parseQueryCondition q
  ((rs.filter (fun r => decide (bruteMatch cond.keyType cond.keyPart r.1 ∧
      bruteMatch cond.valueType cond.valuePart r.2.1))).map
    (fun r => r.2.2)).dedup.insertionSort (fun a b => a ≤ b)

theorem mem_bruteScan (rs : List (Str × Str × Int)) (q : Str) (o : Int) :
    o ∈ bruteScan rs q ↔ ∃ r ∈ rs,
      bruteMatch (parseQueryCondition q).keyType (parseQueryCondition q).keyPart r.1 ∧
      bruteMatch (parseQueryCondition q).valueType (parseQueryCondition q).valuePart r.2.1 ∧
      o = r.2.2 := by
  unfold bruteScan
  rw [(List.perm_insertionSort _ _).mem_iff, List.mem_dedup, List.mem_map]
  constructor
  · rintro ⟨r, hr, rfl⟩
    rw [List.mem_filter] at hr
    have hb := of_decide_eq_true hr.2
    exact ⟨r, hr.1, hb.1, hb.2, rfl⟩
  · rintro ⟨r, hr, h1, h2, rfl⟩
    exact ⟨r, List.mem_filter.mpr ⟨hr, decide_eq_true ⟨h1, h2⟩⟩, rfl⟩

/-- Value-layer record semantics: over the `ValueTrie` grown from the
`(value, id)` pairs `vs` in suffix mode, the observable selection of each
value condition coincides with the plain per-record predicate, provided the
values are nonempty, no two distinct values share a last character, an exact
token is never a proper suffix of a value, and a prefix token is `*`-free
and only occurs as a leading substring. -/
theorem valObsSel_vtFold (vs : List (Str × Int)) (vtype : QType) (tok : Str) (o : Int)
    (hne : ∀ v ∈ vs, v.1 ≠ [])
    (h1 : ∀ v ∈ vs, ∀ w ∈ vs, v.1.getLast? = w.1.getLast? → v.1 = w.1)
    (h2 : vtype = QType.qExact → ∀ v ∈ vs, tok <:+ v.1 → v.1 = tok)
    (h3 : vtype = QType.qPre → ∀ v ∈ vs, tok <:+: v.1 → tok <+: v.1)
    (h4 : vtype = QType.qPre → '*' ∉ tok) :
    valObsSel true (vtFoldRecords true vs emptyV) vtype tok o ↔
      ∃ v ∈ vs, bruteMatch vtype tok v.1 ∧ o = v.2 := by
  cases vtype
  · simp only [valObsSel, bruteMatch]
    rw [endAt_vtFold, mem_idsAt_vtFold]
    simp only [emptyV_endAt, Bool.false_eq_true, or_false, emptyV_idsAt,
      List.not_mem_nil, or_false]
    constructor
    · rintro ⟨-, v, hv, hw, rfl⟩
      rw [vWrites_true] at hw
      exact ⟨v, hv, h2 rfl v hv hw.1, rfl⟩
    · rintro ⟨v, hv, hveq, rfl⟩
      have hw : vWrites true tok v.1 := by
        rw [hveq]
        exact vWrites_refl true tok
      exact ⟨⟨v, hv, hw⟩, v, hv, hw, rfl⟩
  · simp only [valObsSel, bruteMatch]
    have hstar := h4 rfl
    constructor
    · rintro ⟨pr, q2, hm, hend, hids⟩
      rw [patMatch_no_star tok hstar pr] at hm
      subst pr
      rw [mem_idsAt_vtFold] at hids
      simp only [emptyV_idsAt, List.not_mem_nil, or_false] at hids
      obtain ⟨v, hv, hw, rfl⟩ := hids
      have hinf : tok <:+: v.1 := (exists_append_vWrites tok v.1).mp ⟨q2, hw⟩
      exact ⟨v, hv, h3 rfl v hv hinf, rfl⟩
    · rintro ⟨v, hv, hpre, rfl⟩
      obtain ⟨q2, hw⟩ := (exists_append_vWrites tok v.1).mpr hpre.isInfix
      refine ⟨tok, q2, (patMatch_no_star tok hstar tok).mpr rfl, ?_, ?_⟩
      · rw [endAt_vtFold]
        exact Or.inl ⟨v, hv, hw⟩
      · rw [mem_idsAt_vtFold]
        exact Or.inl ⟨v, hv, hw, rfl⟩
  · simp only [valObsSel, bruteMatch]
    constructor
    · rintro ⟨-, pi, hend, hfne, hsuf, hids⟩
      rw [mem_idsAt_vtFold] at hids
      simp only [emptyV_idsAt, List.not_mem_nil, or_false] at hids
      obtain ⟨v, hv, hw0, rfl⟩ := hids
      have hw := hw0
      rw [vWrites_true] at hw
      have hpine : pi ≠ [] := by
        rintro rfl
        exact hne v hv (hw.2 rfl)
      have hfull : (vtFoldRecords true vs emptyV).fullAt pi = v.1 := by
        rw [fullAt_vtFold]
        refine lastWrite_const true vs pi _ v.1 ⟨v, hv, hw0⟩ ?_
        intro w hwmem hww
        rw [vWrites_true] at hww
        refine h1 w hwmem v hv ?_
        rw [getLast?_of_isSuffix pi w.1 hpine hww.1, getLast?_of_isSuffix pi v.1 hpine hw.1]
      rw [hfull] at hsuf
      exact ⟨v, hv, hsuf, rfl⟩
    · rintro ⟨v, hv, hsuf, rfl⟩
      have hvne := hne v hv
      have hw : vWrites true v.1 v.1 := vWrites_refl true v.1
      have hfull : (vtFoldRecords true vs emptyV).fullAt v.1 = v.1 := by
        rw [fullAt_vtFold]
        refine lastWrite_const true vs v.1 _ v.1 ⟨v, hv, hw⟩ ?_
        intro w hwmem hww
        rw [vWrites_true] at hww
        refine h1 w hwmem v hv ?_
        rw [getLast?_of_isSuffix v.1 w.1 hvne hww.1]
      refine ⟨by trivial, v.1, ?_, ?_, ?_, ?_⟩
      · rw [endAt_vtFold]
        exact Or.inl ⟨v, hv, hw⟩
      · rw [hfull]
        exact hvne
      · rw [hfull]
        exact hsuf
      · rw [mem_idsAt_vtFold]
        exact Or.inl ⟨v, hv, hw, rfl⟩
  · simp only [valObsSel, bruteMatch]
    constructor
    · rintro ⟨-, pi, hend, hfne, hinf, hids⟩
      rw [mem_idsAt_vtFold] at hids
      simp only [emptyV_idsAt, List.not_mem_nil, or_false] at hids
      obtain ⟨v, hv, hw0, rfl⟩ := hids
      have hw := hw0
      rw [vWrites_true] at hw
      have hpine : pi ≠ [] := by
        rintro rfl
        exact hne v hv (hw.2 rfl)
      have hfull : (vtFoldRecords true vs emptyV).fullAt pi = v.1 := by
        rw [fullAt_vtFold]
        refine lastWrite_const true vs pi _ v.1 ⟨v, hv, hw0⟩ ?_
        intro w hwmem hww
        rw [vWrites_true] at hww
        refine h1 w hwmem v hv ?_
        rw [getLast?_of_isSuffix pi w.1 hpine hww.1, getLast?_of_isSuffix pi v.1 hpine hw.1]
      rw [hfull] at hinf
      exact ⟨v, hv, hinf, rfl⟩
    · rintro ⟨v, hv, hinf, rfl⟩
      have hvne := hne v hv
      have hw : vWrites true v.1 v.1 := vWrites_refl true v.1
      have hfull : (vtFoldRecords true vs emptyV).fullAt v.1 = v.1 := by
        rw [fullAt_vtFold]
        refine lastWrite_const true vs v.1 _ v.1 ⟨v, hv, hw⟩ ?_
        intro w hwmem hww
        rw [vWrites_true] at hww
        refine h1 w hwmem v hv ?_
        rw [getLast?_of_isSuffix v.1 w.1 hvne hww.1]
      refine ⟨by trivial, v.1, ?_, ?_, ?_, ?_⟩
      · rw [endAt_vtFold]
        exact Or.inl ⟨v, hv, hw⟩
      · rw [hfull]
        exact hvne
      · rw [hfull]
        exact hinf
      · rw [mem_idsAt_vtFold]
        exact Or.inl ⟨v, hv, hw, rfl⟩
  · simp only [valObsSel, bruteMatch]
    constructor
    · rintro ⟨pi, hend, hids⟩
      rw [mem_idsAt_vtFold] at hids
      simp only [emptyV_idsAt, List.not_mem_nil, or_false] at hids
      obtain ⟨v, hv, hw, rfl⟩ := hids
      exact ⟨v, hv, trivial, rfl⟩
    · rintro ⟨v, hv, -, rfl⟩
      refine ⟨v.1, ?_, ?_⟩
      · rw [endAt_vtFold]
        exact Or.inl ⟨v, hv, vWrites_refl true v.1⟩
      · rw [mem_idsAt_vtFold]
        exact Or.inl ⟨v, hv, vWrites_refl true v.1, rfl⟩

/-- C1: in suffix-tree mode, `md_search` agrees with the brute-force scan at
the id-set level, under the amendment hypotheses: nonempty keys and values,
no inserted key a proper suffix of another, values under a common key
determined by their last character, `*`-free prefix tokens, an exact value
token never a proper suffix of an inserted value, and a prefix value token
occurring only as a leading substring. -/
theorem C1_md_search_matches_bruteforce (rs : List (Str × Str × Int)) (q : Str) (o : Int)
    (hKne : ∀ r ∈ rs, r.1 ≠ [])
    (hVne : ∀ r ∈ rs, r.2.1 ≠ [])
    (hK2 : ∀ r ∈ rs, ∀ s ∈ rs, r.1 <:+ s.1 → r.1 = s.1)
    (hV1 : ∀ r ∈ rs, ∀ s ∈ rs, r.1 = s.1 → r.2.1.getLast? = s.2.1.getLast? → r.2.1 = s.2.1)
    (hKstar : (parseQueryCondition q).keyType = QType.qPre →
      '*' ∉ (parseQueryCondition q).keyPart)
    (hVstar : (parseQueryCondition q).valueType = QType.qPre →
      '*' ∉ (parseQueryCondition q).valuePart)
    (hV2 : (parseQueryCondition q).valueType = QType.qExact → ∀ r ∈ rs,
      (parseQueryCondition q).valuePart <:+ r.2.1 → r.2.1 = (parseQueryCondition q).valuePart)
    (hV3 : (parseQueryCondition q).valueType = QType.qPre → ∀ r ∈ rs,
      (parseQueryCondition q).valuePart <:+: r.2.1 →
        (parseQueryCondition q).valuePart <+: r.2.1) :
    (o ∈ md_search (buildClient true rs) q ↔ o ∈ bruteScan rs q) := by
  rw [mem_md_search_build, mem_bruteScan]
  revert hKstar hVstar hV2 hV3
  generalize parseQueryCondition q = c
  obtain ⟨ktok, vtok, ktype, vtype⟩ := c
  intro hKstar hVstar hV2 hV3
  dsimp only at hKstar hVstar hV2 hV3 ⊢
  have hmain : ∀ p, (∃ t, (kFoldRecords true rs emptyK).vtAt p = some t ∧
        valObsSel true t vtype vtok o) ↔
      ∃ r ∈ rs, r.1 = p ∧ bruteMatch vtype vtok r.2.1 ∧ o = r.2.2 := by
    intro p
    have hne' : ∀ v ∈ valuesOf rs p, v.1 ≠ [] := by
      intro v hv
      rw [mem_valuesOf] at hv
      obtain ⟨r, hr, -, rfl⟩ := hv
      exact hVne r hr
    have h1' : ∀ v ∈ valuesOf rs p, ∀ w ∈ valuesOf rs p,
        v.1.getLast? = w.1.getLast? → v.1 = w.1 := by
      intro v hv w hw hl
      rw [mem_valuesOf] at hv hw
      obtain ⟨r, hr, hrp, rfl⟩ := hv
      obtain ⟨s, hs, hsp, rfl⟩ := hw
      exact hV1 r hr s hs (hrp.trans hsp.symm) hl
    have h2' : vtype = QType.qExact → ∀ v ∈ valuesOf rs p, vtok <:+ v.1 → v.1 = vtok := by
      intro hq v hv hsuf
      rw [mem_valuesOf] at hv
      obtain ⟨r, hr, -, rfl⟩ := hv
      exact hV2 hq r hr hsuf
    have h3' : vtype = QType.qPre → ∀ v ∈ valuesOf rs p, vtok <:+: v.1 → vtok <+: v.1 := by
      intro hq v hv hinf
      rw [mem_valuesOf] at hv
      obtain ⟨r, hr, -, rfl⟩ := hv
      exact hV3 hq r hr hinf
    constructor
    · rintro ⟨t, hvt, hsel⟩
      rw [vtAt_kFold] at hvt
      by_cases hex : ∃ r ∈ rs, vWrites true p r.1
      · rw [if_pos hex, emptyK_vtAt, Option.getD_none] at hvt
        cases hvt
        have hb := (valObsSel_vtFold (valuesOf rs p) vtype vtok o
          hne' h1' h2' h3' hVstar).mp hsel
        obtain ⟨v, hv, hbm, rfl⟩ := hb
        rw [mem_valuesOf] at hv
        obtain ⟨r, hr, hrp, rfl⟩ := hv
        exact ⟨r, hr, hrp, hbm, rfl⟩
      · rw [if_neg hex, emptyK_vtAt] at hvt
        cases hvt
    · rintro ⟨r, hr, rfl, hbm, rfl⟩
      have hex : ∃ s ∈ rs, vWrites true r.1 s.1 := ⟨r, hr, vWrites_refl true r.1⟩
      refine ⟨vtFoldRecords true (valuesOf rs r.1) emptyV, ?_, ?_⟩
      · rw [vtAt_kFold, if_pos hex, emptyK_vtAt, Option.getD_none]
      · rw [valObsSel_vtFold (valuesOf rs r.1) vtype vtok r.2.2
          hne' h1' h2' h3' hVstar]
        exact ⟨(r.2.1, r.2.2), (mem_valuesOf rs r.1 _).mpr ⟨r, hr, rfl, rfl⟩, hbm, rfl⟩
  have hkey : ∀ r ∈ rs,
      (keyPathSel true (kFoldRecords true rs emptyK) ktype ktok r.1 ↔
        bruteMatch ktype ktok r.1) := by
    intro r hr
    have hend : (kFoldRecords true rs emptyK).kEndAt r.1 = true := by
      rw [kEndAt_kFold]
      exact Or.inl ⟨r, hr, vWrites_refl true r.1⟩
    have hfull : (kFoldRecords true rs emptyK).kFullAt r.1 = r.1 := by
      rw [kFullAt_kFold, emptyK_kFullAt]
      refine lastKeyWrite_const true rs r.1 _ r.1 ⟨r, hr, vWrites_refl true r.1⟩ ?_
      intro s hs hws
      rw [vWrites_true] at hws
      exact (hK2 r hr s hs hws.1).symm
    cases ktype
    · simp only [keyPathSel, bruteMatch]
      constructor
      · rintro ⟨h, -⟩
        exact h
      · intro h
        refine ⟨h, ?_⟩
        rw [← h]
        exact hend
    · have hstar := hKstar rfl
      simp only [keyPathSel, bruteMatch]
      constructor
      · rintro ⟨⟨pr, q2, hpq, hm⟩, -⟩
        rw [patMatch_no_star ktok hstar pr] at hm
        subst pr
        exact ⟨q2, hpq.symm⟩
      · rintro ⟨q2, hq2⟩
        exact ⟨⟨ktok, q2, hq2.symm, (patMatch_no_star ktok hstar ktok).mpr rfl⟩, hend⟩
    · simp only [keyPathSel, bruteMatch]
      constructor
      · rintro ⟨-, -, -, hsuf⟩
        rw [hfull] at hsuf
        exact hsuf
      · intro h
        refine ⟨by trivial, hend, ?_, ?_⟩ <;> rw [hfull]
        · exact hKne r hr
        · exact h
    · simp only [keyPathSel, bruteMatch]
      constructor
      · rintro ⟨-, -, -, hinf⟩
        rw [hfull] at hinf
        exact hinf
      · intro h
        refine ⟨by trivial, hend, ?_, ?_⟩ <;> rw [hfull]
        · exact hKne r hr
        · exact h
    · simp only [keyPathSel, bruteMatch]
      constructor
      · intro h
        trivial
      · intro h
        exact hend
  constructor
  · rintro ⟨p, t, hksel, hvt, hvsel⟩
    obtain ⟨r, hr, hrp, hb, ho⟩ := (hmain p).mp ⟨t, hvt, hvsel⟩
    subst hrp
    exact ⟨r, hr, (hkey r hr).mp hksel, hb, ho⟩
  · rintro ⟨r, hr, hbk, hbv, ho⟩
    obtain ⟨t, hvt, hvsel⟩ := (hmain r.1).mpr ⟨r, hr, rfl, hbv, ho⟩
    exact ⟨r.1, t, (hkey r hr).mpr hbk, hvt, hvsel⟩

/-- C1 counterexample: in suffix-tree mode, with records `("b","v",1)` and
`("ab","w",2)`, the key-suffix query `*ab=*` returns id 1 (the key `"b"` is
reached through the overwritten `fullKey` tag `"ab"`), while the brute-force
ends-with scan returns only id 2. -/
theorem C1_counterexample :
    (1 : Int) ∈ md_search (buildClient true [(['b'], ['v'], 1), (['a','b'], ['w'], 2)])
        ['*', 'a', 'b', '=', '*'] ∧
    (1 : Int) ∉ bruteScan [(['b'], ['v'], 1), (['a','b'], ['w'], 2)]
        ['*', 'a', 'b', '=', '*'] := by
  constructor
  · rw [mem_md_search_build]
    refine ⟨['b'],
      vtFoldRecords true (valuesOf [(['b'], ['v'], 1), (['a','b'], ['w'], 2)] ['b']) emptyV,
      ?_, ?_, ?_⟩
    · have hk : (parseQueryCondition ['*', 'a', 'b', '=', '*']).keyType = QType.qSuf := rfl
      have hp : (parseQueryCondition ['*', 'a', 'b', '=', '*']).keyPart = ['a', 'b'] := rfl
      rw [hk, hp]
      exact ⟨rfl, by decide, by decide, by decide⟩
    · rfl
    · have hv : (parseQueryCondition ['*', 'a', 'b', '=', '*']).valueType = QType.qWild := rfl
      rw [hv]
      exact ⟨['v'], by decide, by decide⟩
  · decide

/-- C1 witness: a concrete record list and query satisfying every amendment
hypothesis, on which the two sides agree. -/
theorem C1_witness :
    (∀ r ∈ [((['a'], ['x'], 1) : Str × Str × Int)], r.1 ≠ []) ∧
    (∀ r ∈ [((['a'], ['x'], 1) : Str × Str × Int)], r.2.1 ≠ []) ∧
    (∀ r ∈ [((['a'], ['x'], 1) : Str × Str × Int)],
      ∀ s ∈ [((['a'], ['x'], 1) : Str × Str × Int)], r.1 <:+ s.1 → r.1 = s.1) ∧
    (∀ r ∈ [((['a'], ['x'], 1) : Str × Str × Int)],
      ∀ s ∈ [((['a'], ['x'], 1) : Str × Str × Int)], r.1 = s.1 →
        r.2.1.getLast? = s.2.1.getLast? → r.2.1 = s.2.1) ∧
    ((1 : Int) ∈ md_search (buildClient true [(['a'], ['x'], 1)]) ['a', '=', 'x'] ↔
      (1 : Int) ∈ bruteScan [(['a'], ['x'], 1)] ['a', '=', 'x']) :=
  ⟨by decide, by decide, by decide, by decide,
    C1_md_search_matches_bruteforce [(['a'], ['x'], 1)] ['a', '=', 'x'] 1
      (by decide) (by decide) (by decide) (by decide)
      (by decide) (by decide) (by decide) (by decide)⟩

/-! ## Idempotence of record insertion (for `create_md_index`)

The C++ children maps, id sets and terminal flags absorb re-insertion of the
same data; the association-list model mirrors this through a containment
predicate: once a path is present with the right terminal data, re-inserting
it is a no-op. -/

theorem childUpdate_childUpdate {α : Type} (cs : List (Char × α)) (c : Char) (x y : α) :
    childUpdate (childUpdate cs c x) c y = childUpdate cs c y := by
  induction cs with
  | nil => simp [childUpdate]
  | cons hd tl ih =>
    obtain ⟨d, m⟩ := hd
    by_cases h : d = c <;> simp [childUpdate, h, ih]

/-- The value trie already holds path `s` with terminal data `(oid, fv)`. -/
def VContains : VNode → Str → Int → Str → Prop
  | n, [], oid, fv => n.isEnd = true ∧ oid ∈ n.ids ∧ n.full = fv
  | n, c :: rest, oid, fv =>
    ∃ m, childLookup n.children c = some m ∧ VContains m rest oid fv

theorem insValGo_of_VContains (s : Str) (oid : Int) (fv : Str) (n : VNode)
    (h : VContains n s oid fv) : insValGo s oid fv n = n := by
  induction s generalizing n with
  | nil =>
    obtain ⟨e, ids, f, cs⟩ := n
    obtain ⟨h1, h2, h3⟩ := h
    simp only [VNode.isEnd] at h1
    simp only [VNode.ids] at h2
    simp only [VNode.full] at h3
    rw [insValGo, h1, h3, insertId_of_mem ids oid h2]
  | cons c rest ih =>
    obtain ⟨m, hl, hc⟩ := h
    rw [insValGo, hl]
    show VNode.mk n.isEnd n.ids n.full (childUpdate n.children c (insValGo rest oid fv m)) = n
    rw [ih m hc, childUpdate_of_lookup_eq n.children c m hl]
    obtain ⟨e, ids, f, cs⟩ := n
    rfl

theorem VContains_insValGo_self (s : Str) (oid : Int) (fv : Str) (n : VNode) :
    VContains (insValGo s oid fv n) s oid fv := by
  induction s generalizing n with
  | nil =>
    obtain ⟨e, ids, f, cs⟩ := n
    refine ⟨rfl, ?_, rfl⟩
    show oid ∈ insertId ids oid
    rw [mem_insertId]
    exact Or.inl rfl
  | cons c rest ih =>
    rw [insValGo]
    exact ⟨insValGo rest oid fv ((childLookup n.children c).getD emptyV),
      childLookup_childUpdate_self n.children c _, ih _⟩

theorem VContains_insValGo (s s2 : Str) (oid oid2 : Int) (fv : Str) (n : VNode)
    (h : VContains n s oid fv) : VContains (insValGo s2 oid2 fv n) s oid fv := by
  induction s generalizing s2 n with
  | nil =>
    obtain ⟨e, ids, f, cs⟩ := n
    obtain ⟨h1, h2, h3⟩ := h
    cases s2 with
    | nil =>
      refine ⟨rfl, ?_, rfl⟩
      show oid ∈ insertId ids oid2
      rw [mem_insertId]
      exact Or.inr h2
    | cons c r2 => exact ⟨h1, h2, h3⟩
  | cons d rest ih =>
    obtain ⟨m, hl, hc⟩ := h
    cases s2 with
    | nil =>
      obtain ⟨e, ids, f, cs⟩ := n
      exact ⟨m, hl, hc⟩
    | cons c r2 =>
      rw [insValGo]
      show ∃ m2, childLookup (childUpdate n.children c _) d = some m2 ∧ _
      by_cases hdc : d = c
      · subst hdc
        refine ⟨insValGo r2 oid2 fv ((childLookup n.children d).getD emptyV),
          childLookup_childUpdate_self n.children d _, ?_⟩
        rw [hl]
        exact ih r2 m hc
      · exact ⟨m, by rw [childLookup_childUpdate_other n.children c d _ hdc]; exact hl, hc⟩

theorem insertValue_drop_tag (m : VNode) (v : Str) (i : Nat) (oid : Int) :
    insertValue m (v.drop i) oid v = insValGo (v.drop i) oid v m := by
  unfold insertValue
  by_cases h : v = []
  · subst h
    simp
  · rw [if_neg h]

theorem insertValue_nil_tag (m : VNode) (v : Str) (oid : Int) :
    insertValue m v oid [] = insValGo v oid v m := rfl

theorem VContains_foldSuffixes (v : Str) (oid : Int) (L : List Nat) (m : VNode) (s : Str)
    (h : VContains m s oid v) :
    VContains (L.foldl (fun acc i => insertValue acc (v.drop i) oid v) m) s oid v := by
  induction L generalizing m with
  | nil => exact h
  | cons i L ih =>
    rw [List.foldl_cons, insertValue_drop_tag]
    exact ih _ (VContains_insValGo s (v.drop i) oid oid v m h)

theorem VContains_suffixMode (mode : Bool) (n : VNode) (v : Str) (oid : Int) :
    VContains (insertValueWithSuffixMode mode n v oid) v oid v := by
  unfold insertValueWithSuffixMode
  cases mode
  · rw [if_neg (by simp), insertValue_nil_tag]
    exact VContains_insValGo_self v oid v n
  · rw [if_pos rfl]
    unfold insertValueWithSuffixes
    rw [insertValue_nil_tag]
    exact VContains_foldSuffixes v oid _ _ v (VContains_insValGo_self v oid v n)

theorem VContains_foldSuffixes_mem (v : Str) (oid : Int) (L : List Nat) (n1 : VNode)
    (i : Nat) (hi : i ∈ L) :
    VContains (L.foldl (fun acc j => insertValue acc (v.drop j) oid v) n1) (v.drop i) oid v := by
  induction L generalizing n1 with
  | nil => cases hi
  | cons j L ih =>
    rw [List.foldl_cons]
    rcases List.mem_cons.mp hi with rfl | hiL
    · exact VContains_foldSuffixes v oid L _ _
        (by rw [insertValue_drop_tag]; exact VContains_insValGo_self (v.drop i) oid v n1)
    · exact ih _ hiL

theorem VContains_suffixMode_drop (n : VNode) (v : Str) (oid : Int) (i : Nat)
    (hi : i ∈ List.range v.length) :
    VContains (insertValueWithSuffixMode true n v oid) (v.drop i) oid v := by
  show VContains (insertValueWithSuffixes (insertValue n v oid []) v oid) (v.drop i) oid v
  unfold insertValueWithSuffixes
  exact VContains_foldSuffixes_mem v oid _ _ i hi

/-- Re-applying the record-level value insert is a no-op. -/
theorem insertValueWithSuffixMode_idem (mode : Bool) (n : VNode) (v : Str) (oid : Int) :
    insertValueWithSuffixMode mode (insertValueWithSuffixMode mode n v oid) v oid =
      insertValueWithSuffixMode mode n v oid := by
  have hmain := VContains_suffixMode mode n v oid
  cases mode
  · show insertValue (insertValueWithSuffixMode false n v oid) v oid [] = _
    rw [insertValue_nil_tag, insValGo_of_VContains v oid v _ hmain]
  · show insertValueWithSuffixes
      (insertValue (insertValueWithSuffixMode true n v oid) v oid []) v oid = _
    rw [insertValue_nil_tag, insValGo_of_VContains v oid v _ hmain]
    unfold insertValueWithSuffixes
    have hnoop : ∀ L : List Nat, (∀ i ∈ L, i ∈ List.range v.length) →
        L.foldl (fun acc j => insertValue acc (v.drop j) oid v)
          (insertValueWithSuffixMode true n v oid) =
          insertValueWithSuffixMode true n v oid := by
      intro L
      induction L with
      | nil => intro _; rfl
      | cons j L ih =>
        intro hL
        rw [List.foldl_cons, insertValue_drop_tag,
          insValGo_of_VContains (v.drop j) oid v _
            (VContains_suffixMode_drop n v oid j (hL j (List.mem_cons_self j L)))]
        exact ih (fun i hi => hL i (List.mem_cons_of_mem j hi))
    exact hnoop (List.range v.length) (fun i hi => hi)

/-- The key trie already holds path `s` as a terminal with a `ValueTrie`
and tag `fk`. -/
def KContains : KNode → Str → Str → Prop
  | n, [], fk => n.isEnd = true ∧ n.vt ≠ none ∧ n.full = fk
  | n, c :: rest, fk =>
    ∃ m, childLookup n.children c = some m ∧ KContains m rest fk

theorem insKeyGo_of_KContains (s : Str) (fk : Str) (n : KNode)
    (h : KContains n s fk) : insKeyGo s fk n = n := by
  induction s generalizing n with
  | nil =>
    obtain ⟨e, vt, f, cs⟩ := n
    obtain ⟨h1, h2, h3⟩ := h
    simp only [KNode.isEnd] at h1
    simp only [KNode.vt] at h2
    simp only [KNode.full] at h3
    obtain ⟨w, rfl⟩ := Option.ne_none_iff_exists.mp h2
    rw [insKeyGo, h1, h3]
    rfl
  | cons c rest ih =>
    obtain ⟨m, hl, hc⟩ := h
    rw [insKeyGo, hl]
    show KNode.mk n.isEnd n.vt n.full (childUpdate n.children c (insKeyGo rest fk m)) = n
    rw [ih m hc, childUpdate_of_lookup_eq n.children c m hl]
    obtain ⟨e, vt, f, cs⟩ := n
    rfl

theorem KContains_insKeyGo_self (s : Str) (fk : Str) (n : KNode) :
    KContains (insKeyGo s fk n) s fk := by
  induction s generalizing n with
  | nil =>
    obtain ⟨e, vt, f, cs⟩ := n
    refine ⟨rfl, ?_, rfl⟩
    show some (vt.getD emptyV) ≠ none
    simp
  | cons c rest ih =>
    rw [insKeyGo]
    exact ⟨insKeyGo rest fk ((childLookup n.children c).getD emptyK),
      childLookup_childUpdate_self n.children c _, ih _⟩

theorem KContains_insKeyGo (s s2 : Str) (fk : Str) (n : KNode)
    (h : KContains n s fk) : KContains (insKeyGo s2 fk n) s fk := by
  induction s generalizing s2 n with
  | nil =>
    obtain ⟨e, vt, f, cs⟩ := n
    obtain ⟨h1, h2, h3⟩ := h
    cases s2 with
    | nil =>
      refine ⟨rfl, ?_, rfl⟩
      show some (vt.getD emptyV) ≠ none
      simp
    | cons c r2 => exact ⟨h1, h2, h3⟩
  | cons d rest ih =>
    obtain ⟨m, hl, hc⟩ := h
    cases s2 with
    | nil =>
      obtain ⟨e, vt, f, cs⟩ := n
      exact ⟨m, hl, hc⟩
    | cons c r2 =>
      rw [insKeyGo]
      show ∃ m2, childLookup (childUpdate n.children c _) d = some m2 ∧ _
      by_cases hdc : d = c
      · subst hdc
        refine ⟨insKeyGo r2 fk ((childLookup n.children d).getD emptyK),
          childLookup_childUpdate_self n.children d _, ?_⟩
        rw [hl]
        exact ih r2 m hc
      · exact ⟨m, by rw [childLookup_childUpdate_other n.children c d _ hdc]; exact hl, hc⟩

theorem KContains_updateVtAt (s k2 : Str) (fk : Str) (g : VNode → VNode) (n : KNode)
    (h : KContains n s fk) : KContains (updateVtAt n k2 g) s fk := by
  induction s generalizing k2 n with
  | nil =>
    obtain ⟨e, vt, f, cs⟩ := n
    obtain ⟨h1, h2, h3⟩ := h
    cases k2 with
    | nil =>
      refine ⟨h1, ?_, h3⟩
      show (KNode.vt (.mk e vt f cs)).map g ≠ none
      simp only [KNode.vt] at h2 ⊢
      obtain ⟨w, rfl⟩ := Option.ne_none_iff_exists.mp h2
      simp
    | cons c r2 =>
      rw [updateVtAt]
      cases childLookup (KNode.children (.mk e vt f cs)) c with
      | none => exact ⟨h1, h2, h3⟩
      | some m => exact ⟨h1, h2, h3⟩
  | cons d rest ih =>
    obtain ⟨m, hl, hc⟩ := h
    cases k2 with
    | nil =>
      obtain ⟨e, vt, f, cs⟩ := n
      exact ⟨m, hl, hc⟩
    | cons c r2 =>
      rw [updateVtAt]
      cases hlc : childLookup n.children c with
      | none => exact ⟨m, hl, hc⟩
      | some m2 =>
        show ∃ m3, childLookup (childUpdate n.children c _) d = some m3 ∧ _
        by_cases hdc : d = c
        · subst hdc
          rw [hlc] at hl
          cases hl
          exact ⟨updateVtAt m r2 g, childLookup_childUpdate_self n.children d _, ih r2 m hc⟩
        · exact ⟨m, by rw [childLookup_childUpdate_other n.children c d _ hdc]; exact hl, hc⟩

theorem insertKeyOnly_drop_tag (m : KNode) (k : Str) (i : Nat) :
    insertKeyOnly m (k.drop i) k = insKeyGo (k.drop i) k m := by
  unfold insertKeyOnly
  by_cases h : k = []
  · subst h
    simp
  · rw [if_neg h]

theorem insertKeyOnly_self_tag (m : KNode) (k : Str) :
    insertKeyOnly m k k = insKeyGo k k m := by
  unfold insertKeyOnly
  by_cases h : k = []
  · subst h
    simp
  · rw [if_neg h]

theorem KContains_foldSuffixes (k : Str) (L : List Nat) (m : KNode) (s : Str)
    (h : KContains m s k) :
    KContains (L.foldl (fun acc i => insertKeyOnly acc (k.drop i) k) m) s k := by
  induction L generalizing m with
  | nil => exact h
  | cons i L ih =>
    rw [List.foldl_cons, insertKeyOnly_drop_tag]
    exact ih _ (KContains_insKeyGo s (k.drop i) k m h)

theorem KContains_foldSuffixes_mem (k : Str) (L : List Nat) (n1 : KNode)
    (i : Nat) (hi : i ∈ L) :
    KContains (L.foldl (fun acc j => insertKeyOnly acc (k.drop j) k) n1) (k.drop i) k := by
  induction L generalizing n1 with
  | nil => cases hi
  | cons j L ih =>
    rw [List.foldl_cons]
    rcases List.mem_cons.mp hi with rfl | hiL
    · exact KContains_foldSuffixes k L _ _
        (by rw [insertKeyOnly_drop_tag]; exact KContains_insKeyGo_self (k.drop i) k n1)
    · exact ih _ hiL

theorem KContains_suffixMode (mode : Bool) (n : KNode) (k : Str) :
    KContains (insertKeyWithSuffixMode mode n k) k k := by
  unfold insertKeyWithSuffixMode
  cases mode
  · rw [if_neg (by simp), insertKeyOnly_self_tag]
    exact KContains_insKeyGo_self k k n
  · rw [if_pos rfl]
    unfold insertKeyWithSuffixes
    rw [insertKeyOnly_self_tag]
    exact KContains_foldSuffixes k _ _ k (KContains_insKeyGo_self k k n)

theorem KContains_suffixMode_drop (n : KNode) (k : Str) (i : Nat)
    (hi : i ∈ List.range k.length) :
    KContains (insertKeyWithSuffixMode true n k) (k.drop i) k := by
  show KContains (insertKeyWithSuffixes (insertKeyOnly n k k) k) (k.drop i) k
  unfold insertKeyWithSuffixes
  exact KContains_foldSuffixes_mem k _ _ i hi

/-- Re-applying the record-level key insert is a no-op once the key (and its
suffixes, in suffix mode) are present, even after the `ValueTrie` at the key
was updated in between. -/
theorem insertKeyWithSuffixMode_noop (mode : Bool) (n : KNode) (k : Str)
    (hk : KContains n k k)
    (hd : mode = true → ∀ i ∈ List.range k.length, KContains n (k.drop i) k) :
    insertKeyWithSuffixMode mode n k = n := by
  unfold insertKeyWithSuffixMode
  cases mode
  · rw [if_neg (by simp), insertKeyOnly_self_tag, insKeyGo_of_KContains k k n hk]
  · rw [if_pos rfl, insertKeyOnly_self_tag, insKeyGo_of_KContains k k n hk]
    unfold insertKeyWithSuffixes
    have hnoop : ∀ L : List Nat, (∀ i ∈ L, i ∈ List.range k.length) →
        L.foldl (fun acc j => insertKeyOnly acc (k.drop j) k) n = n := by
      intro L
      induction L with
      | nil => intro _; rfl
      | cons j L ih =>
        intro hL
        rw [List.foldl_cons, insertKeyOnly_drop_tag,
          insKeyGo_of_KContains (k.drop j) k n (hd rfl j (hL j (List.mem_cons_self j L)))]
        exact ih (fun i hi => hL i (List.mem_cons_of_mem j hi))
    exact hnoop (List.range k.length) (fun i hi => hi)

theorem updateVtAt_updateVtAt (n : KNode) (k : Str) (g h : VNode → VNode) :
    updateVtAt (updateVtAt n k g) k h = updateVtAt n k (fun x => h (g x)) := by
  induction k generalizing n with
  | nil =>
    obtain ⟨e, vt, f, cs⟩ := n
    rw [updateVtAt, updateVtAt, updateVtAt]
    simp only [KNode.isEnd, KNode.vt, KNode.full, KNode.children, Option.map_map]
    rfl
  | cons c rest ih =>
    rw [updateVtAt]
    cases hlc : childLookup n.children c with
    | none =>
      rw [updateVtAt, hlc, updateVtAt, hlc]
    | some m =>
      rw [updateVtAt, hlc]
      show updateVtAt (KNode.mk n.isEnd n.vt n.full
        (childUpdate n.children c (updateVtAt m rest g))) (c :: rest) h = _
      rw [updateVtAt]
      dsimp only [KNode.isEnd, KNode.vt, KNode.full, KNode.children]
      rw [childLookup_childUpdate_self]
      show KNode.mk n.isEnd n.vt n.full
          (childUpdate (childUpdate n.children c (updateVtAt m rest g)) c
            (updateVtAt (updateVtAt m rest g) rest h)) = _
      rw [childUpdate_childUpdate, ih]
      rw [updateVtAt, hlc]

theorem updateVtAt_congr (n : KNode) (k : Str) (g h : VNode → VNode)
    (hgh : ∀ x, g x = h x) : updateVtAt n k g = updateVtAt n k h := by
  have : g = h := funext hgh
  rw [this]

/-- Re-inserting the same record leaves the two-layer trie unchanged. -/
theorem addRecordToTrie_idem (mode : Bool) (root : KNode) (k v : Str) (oid : Int) :
    addRecordToTrie mode (addRecordToTrie mode root k v oid) k v oid =
      addRecordToTrie mode root k v oid := by
  cases mode
  · have hko : ∀ m : KNode, insertKeyOnly m k [] = insertKeyWithSuffixMode false m k := by
      intro m
      show insertKeyOnly m k [] = insertKeyOnly m k k
      rw [insertKeyOnly_self_tag]
      unfold insertKeyOnly
      rw [if_pos rfl]
    show updateVtAt (insertKeyOnly (updateVtAt (insertKeyOnly root k [])
        k (fun vt => insertValue vt v oid [])) k [])
        k (fun vt => insertValue vt v oid []) =
      updateVtAt (insertKeyOnly root k []) k (fun vt => insertValue vt v oid [])
    rw [hko, hko, insertKeyWithSuffixMode_noop false _ k
      (KContains_updateVtAt k k k _ _ (KContains_suffixMode false root k))
      (by intro h; cases h)]
    rw [updateVtAt_updateVtAt]
    refine updateVtAt_congr _ k _ _ ?_
    intro x
    show insertValue (insertValue x v oid []) v oid [] = insertValue x v oid []
    rw [insertValue_nil_tag, insertValue_nil_tag,
      insValGo_of_VContains v oid v _ (VContains_insValGo_self v oid v x)]
  · show updateVtAt (insertKeyWithSuffixMode true (updateVtAt
        (insertKeyWithSuffixMode true root k)
        k (fun vt => insertValueWithSuffixMode true vt v oid)) k)
        k (fun vt => insertValueWithSuffixMode true vt v oid) =
      updateVtAt (insertKeyWithSuffixMode true root k) k
        (fun vt => insertValueWithSuffixMode true vt v oid)
    rw [insertKeyWithSuffixMode_noop true _ k
      (KContains_updateVtAt k k k _ _ (KContains_suffixMode true root k))
      (fun _ i hi => KContains_updateVtAt _ k k _ _ (KContains_suffixMode_drop root k i hi))]
    rw [updateVtAt_updateVtAt]
    refine updateVtAt_congr _ k _ _ ?_
    intro x
    exact insertValueWithSuffixMode_idem true x v oid

/-- C6: `create_md_index` is idempotent at the query level: after inserting
the same `(key, value, objectId)` twice, every `md_search` returns exactly
what it returns after one insert. -/
theorem C6_create_md_index_idempotent (st : IdiomsClient) (k v : Str) (oid : Int) (q : Str) :
    md_search (create_md_index (create_md_index st k v oid) k v oid) q =
      md_search (create_md_index st k v oid) q := by
  show trieQuery _ (addRecordToTrie st.suffixMode
      (addRecordToTrie st.suffixMode st.root k v oid) k v oid) q = _
  rw [addRecordToTrie_idem]
  rfl

/-! ## The src1 distributed server: checkpoint and recovery (Server.cpp)

`DistributedIdiomsServer` keeps the same two-layer trie plus an
`objectMetadata` map from object id to its `(key, value)` pairs in insert
order.  `checkpointIndex` writes the id, the mode flag and the metadata map;
`recoverIndex` checks the stored id, clears the state and replays
`addIndexedKey` group by group. -/

structure DServer where
  serverId : Int
  suffixMode : Bool
  root : KNode
  metadata : List (Int × List (Str × Str))

/-- `objectMetadata[objectId].push_back({key, value})` on an association
list in first-insertion order. -/
def metaAppend (md : List (Int × List (Str × Str))) (oid : Int) (kv : Str × Str) :
    List (Int × List (Str × Str)) :=
  match md with
  | [] => [(oid, [kv])]
  | (o, l) :: rest =>
    if o = oid then (o, l ++ [kv]) :: rest else (o, l) :: metaAppend rest oid kv

/-- A fresh `DistributedIdiomsServer(id, ..., useSuffixMode)`. -/
def DServer.init (id : Int) (mode : Bool) : DServer := ⟨id, mode, emptyK, []⟩

/-- `DistributedIdiomsServer::addIndexedKey`. -/
def addIndexedKey (sv : DServer) (k v : Str) (oid : Int) : DServer :=
  { sv with
    root := addRecordToTrie sv.suffixMode sv.root k v oid,
    metadata := metaAppend sv.metadata oid (k, v) }

/-- `DistributedIdiomsServer::executeQuery` (same engine as `md_search`). -/
def executeQuery (sv : DServer) (q : Str) : List Int :=
  trieQuery sv.suffixMode sv.root q

/-- What `checkpointIndex` writes to `index.dat`. -/
structure CheckpointFile where
  storedServerId : Int
  storedSuffixMode : Bool
  entries : List (Int × List (Str × Str))

/-- `DistributedIdiomsServer::checkpointIndex`: always succeeds (modulo I/O)
and dumps id, mode and the metadata map. -/
def checkpointIndex (sv : DServer) : Bool × CheckpointFile :=
  (true, ⟨sv.serverId, sv.suffixMode, sv.metadata⟩)

/-- Insert a list of records in order. -/
def addAll (sv : DServer) (rs : List (Str × Str × Int)) : DServer :=
  rs.foldl (fun s r => addIndexedKey s r.1 r.2.1 r.2.2) sv

/-- `DistributedIdiomsServer::recoverIndex`: refuse on an id mismatch, else
clear the trie and the metadata and replay `addIndexedKey` for every stored
record, object group by object group. -/
def recoverIndex (sv : DServer) (f : CheckpointFile) : Bool × DServer :=
  if f.storedServerId ≠ sv.serverId then (false, sv)
  else
    (true, f.entries.foldl
      (fun s e => e.2.foldl (fun s2 kv => addIndexedKey s2 kv.1 kv.2 e.1) s)
      ⟨sv.serverId, sv.suffixMode, emptyK, []⟩)

/-- The server built by a sequence of `addIndexedKey` calls. -/
def buildServer (id : Int) (mode : Bool) (rs : List (Str × Str × Int)) : DServer :=
  addAll (DServer.init id mode) rs

/-- The record sequence the recovery replays: the metadata map flattened
group by group. -/
def replayList (md : List (Int × List (Str × Str))) : List (Str × Str × Int) :=
  md.bind (fun e => e.2.map (fun kv => (kv.1, kv.2, e.1)))

theorem addAll_serverId (sv : DServer) (rs : List (Str × Str × Int)) :
    (addAll sv rs).serverId = sv.serverId := by
  induction rs generalizing sv with
  | nil => rfl
  | cons r rs ih => exact ih _

theorem addAll_suffixMode (sv : DServer) (rs : List (Str × Str × Int)) :
    (addAll sv rs).suffixMode = sv.suffixMode := by
  induction rs generalizing sv with
  | nil => rfl
  | cons r rs ih => exact ih _

theorem addAll_root (sv : DServer) (rs : List (Str × Str × Int)) :
    (addAll sv rs).root = kFoldRecords sv.suffixMode rs sv.root := by
  induction rs generalizing sv with
  | nil => rfl
  | cons r rs ih =>
    show (addAll (addIndexedKey sv r.1 r.2.1 r.2.2) rs).root = _
    rw [ih]
    rfl

theorem addAll_append (sv : DServer) (rs1 rs2 : List (Str × Str × Int)) :
    addAll sv (rs1 ++ rs2) = addAll (addAll sv rs1) rs2 := by
  unfold addAll
  rw [List.foldl_append]

theorem recover_fold_eq_addAll (L : List (Int × List (Str × Str))) (sv : DServer) :
    L.foldl (fun s e => e.2.foldl (fun s2 kv => addIndexedKey s2 kv.1 kv.2 e.1) s) sv =
      addAll sv (replayList L) := by
  induction L generalizing sv with
  | nil => rfl
  | cons e L ih =>
    rw [List.foldl_cons, ih]
    show addAll _ (replayList L) = addAll sv (replayList (e :: L))
    have h1 : replayList (e :: L) = e.2.map (fun kv => (kv.1, kv.2, e.1)) ++ replayList L := by
      unfold replayList
      rw [List.bind]
      rfl
    rw [h1, addAll_append]
    have h2 : ∀ (l : List (Str × Str)) (s : DServer),
        l.foldl (fun s2 kv => addIndexedKey s2 kv.1 kv.2 e.1) s =
          addAll s (l.map (fun kv => (kv.1, kv.2, e.1))) := by
      intro l
      induction l with
      | nil => intro s; rfl
      | cons kv l ih2 =>
        intro s
        rw [List.foldl_cons, List.map_cons, ih2]
        rfl
    rw [h2]

theorem replayList_metaAppend (md : List (Int × List (Str × Str))) (oid : Int)
    (kv : Str × Str) :
    (replayList (metaAppend md oid kv)).Perm (replayList md ++ [(kv.1, kv.2, oid)]) := by
  induction md with
  | nil =>
    show List.Perm (replayList [(oid, [kv])]) _
    unfold replayList
    simp
  | cons e md ih =>
    obtain ⟨o, l⟩ := e
    rw [metaAppend]
    by_cases h : o = oid
    · rw [if_pos h]
      subst h
      show List.Perm ((l ++ [kv]).map _ ++ replayList md) _
      rw [List.map_append]
      show List.Perm ((l.map _ ++ [(kv.1, kv.2, o)]) ++ replayList md)
        ((l.map _ ++ replayList md) ++ [(kv.1, kv.2, o)])
      rw [List.append_assoc, List.append_assoc]
      exact List.Perm.append_left _ List.perm_append_comm
    · rw [if_neg h]
      show List.Perm (l.map (fun kv2 => (kv2.1, kv2.2, o)) ++ replayList (metaAppend md oid kv))
        (replayList ((o, l) :: md) ++ [(kv.1, kv.2, oid)])
      have hcons : replayList ((o, l) :: md) =
          l.map (fun kv2 => (kv2.1, kv2.2, o)) ++ replayList md := by
        simp [replayList]
      rw [hcons, List.append_assoc]
      exact List.Perm.append_left _ ih

theorem replayList_addAll (sv : DServer) (rs : List (Str × Str × Int)) :
    (replayList (addAll sv rs).metadata).Perm (replayList sv.metadata ++ rs) := by
  induction rs generalizing sv with
  | nil => simp [addAll]
  | cons r rs ih =>
    show List.Perm (replayList (addAll (addIndexedKey sv r.1 r.2.1 r.2.2) rs).metadata) _
    refine (ih _).trans ?_
    show List.Perm (replayList (metaAppend sv.metadata r.2.2 (r.1, r.2.1)) ++ rs) _
    refine ((replayList_metaAppend sv.metadata r.2.2 (r.1, r.2.1)).append_right rs).trans ?_
    rw [List.append_assoc]
    have : [((r.1, r.2.1, r.2.2) : Str × Str × Int)] ++ rs = r :: rs := rfl
    rw [this]

theorem replayList_buildServer (id : Int) (mode : Bool) (rs : List (Str × Str × Int)) :
    (replayList (buildServer id mode rs).metadata).Perm rs := by
  have h := replayList_addAll (DServer.init id mode) rs
  simpa [replayList, DServer.init] using h

/-- Two query runs with the same id sets return the same sorted vector. -/
theorem trieQuery_ext (mode : Bool) (root1 root2 : KNode) (q : Str)
    (h : ∀ o, o ∈ trieQuery mode root1 q ↔ o ∈ trieQuery mode root2 q) :
    trieQuery mode root1 q = trieQuery mode root2 q := by
  have hs1 : List.Sorted (fun a b => a ≤ b) (trieQuery mode root1 q) :=
    List.sorted_insertionSort _ _
  have hs2 : List.Sorted (fun a b => a ≤ b) (trieQuery mode root2 q) :=
    List.sorted_insertionSort _ _
  have hn1 : (trieQuery mode root1 q).Nodup :=
    (List.perm_insertionSort _ _).nodup_iff.mpr (List.nodup_dedup _)
  have hn2 : (trieQuery mode root2 q).Nodup :=
    (List.perm_insertionSort _ _).nodup_iff.mpr (List.nodup_dedup _)
  exact List.eq_of_perm_of_sorted ((List.perm_ext_iff_of_nodup hn1 hn2).mpr h) hs1 hs2

/-- Record-level membership in the shared query engine over a trie built by
a record fold. -/
theorem mem_trieQuery_kFold (mode : Bool) (rs : List (Str × Str × Int)) (q : Str) (o : Int) :
    o ∈ trieQuery mode (kFoldRecords mode rs emptyK) q ↔
      ∃ p, keyPathSel mode (kFoldRecords mode rs emptyK) (parseQueryCondition q).keyType
          (parseQueryCondition q).keyPart p ∧
        (∃ r ∈ rs, vWrites mode p r.1) ∧
        valObsSel mode (vtFoldRecords mode (valuesOf rs p) emptyV)
          (parseQueryCondition q).valueType (parseQueryCondition q).valuePart o := by
  rw [mem_trieQuery mode _ (WF_kFold mode rs emptyK emptyK_WF) (vtsWF_kFold mode rs) q o]
  constructor
  · rintro ⟨p, t, hksel, hvt, hvsel⟩
    rw [vtAt_kFold] at hvt
    by_cases hex : ∃ r ∈ rs, vWrites mode p r.1
    · rw [if_pos hex, emptyK_vtAt, Option.getD_none] at hvt
      cases hvt
      exact ⟨p, hksel, hex, hvsel⟩
    · rw [if_neg hex, emptyK_vtAt] at hvt
      cases hvt
  · rintro ⟨p, hksel, hex, hvsel⟩
    refine ⟨p, vtFoldRecords mode (valuesOf rs p) emptyV, hksel, ?_, hvsel⟩
    rw [vtAt_kFold, if_pos hex, emptyK_vtAt, Option.getD_none]

theorem keyPathSel_perm (mode : Bool) (rs1 rs2 : List (Str × Str × Int)) (ktype : QType)
    (tok p : Str) (hperm : rs1.Perm rs2)
    (hk1 : ktype ≠ QType.qSuf) (hk2 : ktype ≠ QType.qInf)
    (h : keyPathSel mode (kFoldRecords mode rs1 emptyK) ktype tok p) :
    keyPathSel mode (kFoldRecords mode rs2 emptyK) ktype tok p := by
  have hend : ∀ s : Str, (kFoldRecords mode rs1 emptyK).kEndAt s = true →
      (kFoldRecords mode rs2 emptyK).kEndAt s = true := by
    intro s hs
    rw [kEndAt_kFold] at hs ⊢
    rcases hs with ⟨r, hr, hw⟩ | hfalse
    · exact Or.inl ⟨r, hperm.mem_iff.mp hr, hw⟩
    · rw [emptyK_kEndAt] at hfalse
      cases hfalse
  cases ktype
  · exact ⟨h.1, hend tok h.2⟩
  · exact ⟨h.1, hend p h.2⟩
  · exact absurd rfl hk1
  · exact absurd rfl hk2
  · exact hend p h

theorem valObsSel_perm (mode : Bool) (vs1 vs2 : List (Str × Int)) (vtype : QType)
    (tok : Str) (o : Int) (hperm : vs1.Perm vs2)
    (hv1 : vtype ≠ QType.qSuf) (hv2 : vtype ≠ QType.qInf)
    (h : valObsSel mode (vtFoldRecords mode vs1 emptyV) vtype tok o) :
    valObsSel mode (vtFoldRecords mode vs2 emptyV) vtype tok o := by
  have hend : ∀ s : Str, (vtFoldRecords mode vs1 emptyV).endAt s = true →
      (vtFoldRecords mode vs2 emptyV).endAt s = true := by
    intro s hs
    rw [endAt_vtFold] at hs ⊢
    rcases hs with ⟨v, hv, hw⟩ | hfalse
    · exact Or.inl ⟨v, hperm.mem_iff.mp hv, hw⟩
    · rw [emptyV_endAt] at hfalse
      cases hfalse
  have hids : ∀ s : Str, o ∈ (vtFoldRecords mode vs1 emptyV).idsAt s →
      o ∈ (vtFoldRecords mode vs2 emptyV).idsAt s := by
    intro s hs
    rw [mem_idsAt_vtFold] at hs ⊢
    rcases hs with ⟨v, hv, hw, rfl⟩ | hfalse
    · exact Or.inl ⟨v, hperm.mem_iff.mp hv, hw, rfl⟩
    · rw [emptyV_idsAt] at hfalse
      cases hfalse
  cases vtype
  · exact ⟨hend tok h.1, hids tok h.2⟩
  · obtain ⟨pr, q2, hm, he, hi⟩ := h
    exact ⟨pr, q2, hm, hend _ he, hids _ hi⟩
  · exact absurd rfl hv1
  · exact absurd rfl hv2
  · obtain ⟨pi, he, hi⟩ := h
    exact ⟨pi, hend pi he, hids pi hi⟩

/-- For non-suffix, non-infix conditions the query answer depends only on
the multiset of inserted records. -/
theorem mem_trieQuery_kFold_perm (mode : Bool) (rs1 rs2 : List (Str × Str × Int))
    (q : Str) (o : Int) (hperm : rs1.Perm rs2)
    (hk1 : (parseQueryCondition q).keyType ≠ QType.qSuf)
    (hk2 : (parseQueryCondition q).keyType ≠ QType.qInf)
    (hv1 : (parseQueryCondition q).valueType ≠ QType.qSuf)
    (hv2 : (parseQueryCondition q).valueType ≠ QType.qInf) :
    o ∈ trieQuery mode (kFoldRecords mode rs1 emptyK) q →
      o ∈ trieQuery mode (kFoldRecords mode rs2 emptyK) q := by
  rw [mem_trieQuery_kFold, mem_trieQuery_kFold]
  rintro ⟨p, hksel, ⟨r, hr, hw⟩, hvsel⟩
  refine ⟨p, keyPathSel_perm mode rs1 rs2 _ _ p hperm hk1 hk2 hksel,
    ⟨r, hperm.mem_iff.mp hr, hw⟩,
    valObsSel_perm mode (valuesOf rs1 p) (valuesOf rs2 p) _ _ o
      ((hperm.filter _).map _) hv1 hv2 hvsel⟩

/-- C2 (amended): checkpoint-then-recover on a fresh server with the same id
and mode preserves the result of every query whose key and value conditions
are exact, prefix or wildcard — the grouped replay permutes the records, and
for these shapes the answer only depends on the record multiset. -/
theorem C2_recover_preserves_queries (id : Int) (mode : Bool)
    (rs : List (Str × Str × Int)) (q : Str)
    (hk1 : (parseQueryCondition q).keyType ≠ QType.qSuf)
    (hk2 : (parseQueryCondition q).keyType ≠ QType.qInf)
    (hv1 : (parseQueryCondition q).valueType ≠ QType.qSuf)
    (hv2 : (parseQueryCondition q).valueType ≠ QType.qInf) :
    (checkpointIndex (buildServer id mode rs)).1 = true ∧
    (recoverIndex (DServer.init id mode) (checkpointIndex (buildServer id mode rs)).2).1 = true ∧
    executeQuery (recoverIndex (DServer.init id mode)
        (checkpointIndex (buildServer id mode rs)).2).2 q =
      executeQuery (buildServer id mode rs) q := by
  have hsid : (buildServer id mode rs).serverId = id := addAll_serverId _ _
  have hcond : ¬ ((checkpointIndex (buildServer id mode rs)).2.storedServerId ≠
      (DServer.init id mode).serverId) := by
    show ¬ ((buildServer id mode rs).serverId ≠ id)
    rw [hsid]
    exact fun h => h rfl
  have hrec : recoverIndex (DServer.init id mode) (checkpointIndex (buildServer id mode rs)).2 =
      (true, addAll (DServer.init id mode)
        (replayList (buildServer id mode rs).metadata)) := by
    unfold recoverIndex
    rw [if_neg hcond, recover_fold_eq_addAll]
    rfl
  refine ⟨rfl, ?_, ?_⟩
  · rw [hrec]
  · rw [hrec]
    simp only [executeQuery]
    unfold buildServer
    rw [addAll_suffixMode, addAll_root, addAll_suffixMode, addAll_root]
    show trieQuery mode
        (kFoldRecords mode (replayList (addAll (DServer.init id mode) rs).metadata) emptyK) q =
      trieQuery mode (kFoldRecords mode rs emptyK) q
    refine trieQuery_ext mode _ _ q ?_
    intro o
    have hperm := replayList_buildServer id mode rs
    exact ⟨mem_trieQuery_kFold_perm mode _ rs q o hperm hk1 hk2 hv1 hv2,
      mem_trieQuery_kFold_perm mode rs _ q o hperm.symm hk1 hk2 hv1 hv2⟩

/-- C2 counterexample: with interleaved inserts `("b","x",2)`, `("ab","y",1)`,
`("cb","z",2)` in suffix mode, the recovery replays the records grouped by
object id, which moves the last writer of the shared suffix terminal `"b"`:
the key-suffix query `*ab=*` returns id 2 after recovery but not before. -/
theorem C2_counterexample :
    (recoverIndex (DServer.init 0 true) (checkpointIndex (buildServer 0 true
        [(['b'], ['x'], 2), (['a', 'b'], ['y'], 1), (['c', 'b'], ['z'], 2)])).2).1 = true ∧
    (2 : Int) ∈ executeQuery (recoverIndex (DServer.init 0 true) (checkpointIndex
        (buildServer 0 true
          [(['b'], ['x'], 2), (['a', 'b'], ['y'], 1), (['c', 'b'], ['z'], 2)])).2).2
        ['*', 'a', 'b', '=', '*'] ∧
    (2 : Int) ∉ executeQuery (buildServer 0 true
        [(['b'], ['x'], 2), (['a', 'b'], ['y'], 1), (['c', 'b'], ['z'], 2)])
        ['*', 'a', 'b', '=', '*'] := by
  refine ⟨rfl, ?_, ?_⟩
  · show (2 : Int) ∈ trieQuery true (kFoldRecords true
      [(['b'], ['x'], 2), (['c', 'b'], ['z'], 2), (['a', 'b'], ['y'], 1)] emptyK)
      ['*', 'a', 'b', '=', '*']
    rw [mem_trieQuery_kFold]
    have hk : (parseQueryCondition ['*', 'a', 'b', '=', '*']).keyType = QType.qSuf := rfl
    have hp : (parseQueryCondition ['*', 'a', 'b', '=', '*']).keyPart = ['a', 'b'] := rfl
    have hv : (parseQueryCondition ['*', 'a', 'b', '=', '*']).valueType = QType.qWild := rfl
    rw [hk, hp, hv]
    refine ⟨['b'], ⟨rfl, by decide, by decide, by decide⟩, by decide, ?_⟩
    exact ⟨['x'], by decide, by decide⟩
  · show ¬ (2 : Int) ∈ trieQuery true (kFoldRecords true
      [(['b'], ['x'], 2), (['a', 'b'], ['y'], 1), (['c', 'b'], ['z'], 2)] emptyK)
      ['*', 'a', 'b', '=', '*']
    rw [mem_trieQuery_kFold]
    have hk : (parseQueryCondition ['*', 'a', 'b', '=', '*']).keyType = QType.qSuf := rfl
    have hp : (parseQueryCondition ['*', 'a', 'b', '=', '*']).keyPart = ['a', 'b'] := rfl
    have hv : (parseQueryCondition ['*', 'a', 'b', '=', '*']).valueType = QType.qWild := rfl
    rw [hk, hp, hv]
    rintro ⟨p, hksel, ⟨r, hr, hw⟩, hvsel⟩
    obtain ⟨-, hend, hfne, hsuf⟩ := hksel
    have hids : ∀ hvp : p = ['a', 'b'], False := by
      intro hvp
      subst hvp
      obtain ⟨pi, -, hid⟩ := hvsel
      rw [mem_idsAt_vtFold] at hid
      simp only [emptyV_idsAt, List.not_mem_nil, or_false] at hid
      obtain ⟨v, hvmem, -, h22⟩ := hid
      rw [show valuesOf
        [((['b'], ['x'], 2) : Str × Str × Int), (['a', 'b'], ['y'], 1), (['c', 'b'], ['z'], 2)]
        ['a', 'b'] = [(['y'], 1)] from rfl] at hvmem
      simp only [List.mem_singleton] at hvmem
      subst hvmem
      exact absurd h22 (by decide)
    simp only [List.mem_cons, List.not_mem_nil, or_false] at hr
    rcases hr with rfl | rfl | rfl
    · rw [vWrites_true] at hw
      have hpt := (List.mem_tails p ['b']).mpr hw.1
      rw [show List.tails ['b'] = [['b'], []] from rfl] at hpt
      simp only [List.mem_cons, List.not_mem_nil, or_false] at hpt
      rcases hpt with rfl | rfl
      · exact absurd hsuf (by decide)
      · exact absurd (hw.2 rfl) (by decide)
    · rw [vWrites_true] at hw
      have hpt := (List.mem_tails p ['a', 'b']).mpr hw.1
      rw [show List.tails ['a', 'b'] = [['a', 'b'], ['b'], []] from rfl] at hpt
      simp only [List.mem_cons, List.not_mem_nil, or_false] at hpt
      rcases hpt with rfl | rfl | rfl
      · exact hids rfl
      · exact absurd hsuf (by decide)
      · exact absurd (hw.2 rfl) (by decide)
    · rw [vWrites_true] at hw
      have hpt := (List.mem_tails p ['c', 'b']).mpr hw.1
      rw [show List.tails ['c', 'b'] = [['c', 'b'], ['b'], []] from rfl] at hpt
      simp only [List.mem_cons, List.not_mem_nil, or_false] at hpt
      rcases hpt with rfl | rfl | rfl
      · exact absurd hsuf (by decide)
      · exact absurd hsuf (by decide)
      · exact absurd (hw.2 rfl) (by decide)

/-- C2 witness: a concrete insert sequence and an exact query on which the
recovered server provably answers identically. -/
theorem C2_witness :
    ((parseQueryCondition ['a', '=', 'x']).keyType ≠ QType.qSuf) ∧
    ((parseQueryCondition ['a', '=', 'x']).keyType ≠ QType.qInf) ∧
    ((parseQueryCondition ['a', '=', 'x']).valueType ≠ QType.qSuf) ∧
    ((parseQueryCondition ['a', '=', 'x']).valueType ≠ QType.qInf) ∧
    ((checkpointIndex (buildServer 0 true [(['a'], ['x'], 1)])).1 = true ∧
    (recoverIndex (DServer.init 0 true)
      (checkpointIndex (buildServer 0 true [(['a'], ['x'], 1)])).2).1 = true ∧
    executeQuery (recoverIndex (DServer.init 0 true)
        (checkpointIndex (buildServer 0 true [(['a'], ['x'], 1)])).2).2 ['a', '=', 'x'] =
      executeQuery (buildServer 0 true [(['a'], ['x'], 1)]) ['a', '=', 'x']) :=
  ⟨by decide, by decide, by decide, by decide,
    C2_recover_preserves_queries 0 true [(['a'], ['x'], 1)] ['a', '=', 'x']
      (by decide) (by decide) (by decide) (by decide)⟩

/-! ## DART consistent hashing (dart.cpp / src4/dart/DART.cpp `ConsistentHash`)

64-bit FNV-1a arithmetic is carried out on `Nat` with explicit reduction
modulo `2 ^ 64`.  The ring stores `(position, serverId)` pairs sorted by
position; `lower_bound` is the first entry with position `≥` the key hash,
wrapping to the front past the end.  The replica walk advances around the
ring collecting ids not yet chosen; one full lap suffices because every
server occurs on the ring and the target never exceeds `numServers`, so the
walk is rendered as a fold over the rotated ring with an early-stop guard. -/

def fnv1a (key : Str) (seed : Nat) : Nat :=
  key.foldl (fun h c => ((h ^^^ c.toNat) * 1099511628211) % 2 ^ 64)
    ((14695981039346656037 + seed) % 2 ^ 64)

/-- `"server" + to_string(server) + "_" + to_string(i)`. -/
def serverRingKey (server i : Nat) : Str :=
  ['s', 'e', 'r', 'v', 'e', 'r'] ++ Nat.toDigits 10 server ++ ['_'] ++ Nat.toDigits 10 i

/-- `RING_SIZE` positions per server, in construction order. -/
def rawRing (n : Nat) : List (Nat × Nat) :=
  (List.range n).bind (fun s => (List.range 40).map
    (fun i => (fnv1a (serverRingKey s i) 0, s)))

/-- The ring after `sortRing()`. -/
def buildRing (n : Nat) : List (Nat × Nat) :=
  (rawRing n).insertionSort (fun a b => a.1 ≤ b.1)

/-- Index of `std::lower_bound` by position (the list length when every
position is below the key hash). -/
def lowerBoundIdx (ring : List (Nat × Nat)) (h : Nat) : Nat :=
  ring.findIdx (fun e => h ≤ e.1)

/-- `ConsistentHash::getServer`. -/
def getServer (n : Nat) (key : Str) : Nat :=
  let ring := buildRing n
  if ring.isEmpty then 0
  else
    match ring[lowerBoundIdx ring (fnv1a key 0)]? with
    | some e => e.2
    | none => (ring.headD (0, 0)).2

/-- The replica-collection loop: stop once `target` ids are chosen, skip ids
already chosen, append fresh ones. -/
def collectReplicas (target : Nat) : List (Nat × Nat) → List Nat → List Nat
  | [], acc => acc
  | e :: rest, acc =>
    if target ≤ acc.length then acc
    else if e.2 ∈ acc then collectReplicas target rest acc
    else collectReplicas target rest (acc ++ [e.2])

/-- `ConsistentHash::getReplicaServers`. -/
def getReplicaServers (n : Nat) (key : Str) (r : Int) : List Nat :=
  let ring := buildRing n
  if ring.isEmpty ∨ r ≤ 0 then []
  else
    let idx := lowerBoundIdx ring (fnv1a key 0)
    let rot := ring.drop idx ++ ring.take idx
    let primary := rot.headD (0, 0)
    collectReplicas (min (r + 1) (n : Int)).toNat (rot.drop 1 ++ [primary]) [primary.2]

theorem collectReplicas_nodup (target : Nat) (lap : List (Nat × Nat)) (acc : List Nat)
    (h : acc.Nodup) : (collectReplicas target lap acc).Nodup := by
  induction lap generalizing acc with
  | nil => exact h
  | cons e rest ih =>
    rw [collectReplicas]
    by_cases h1 : target ≤ acc.length
    · rw [if_pos h1]
      exact h
    · rw [if_neg h1]
      by_cases h2 : e.2 ∈ acc
      · rw [if_pos h2]
        exact ih acc h
      · rw [if_neg h2]
        refine ih _ ?_
        rw [(List.perm_append_singleton e.2 acc).nodup_iff, List.nodup_cons]
        exact ⟨h2, h⟩

theorem collectReplicas_extends (target : Nat) (lap : List (Nat × Nat)) (acc : List Nat) :
    acc <+: collectReplicas target lap acc := by
  induction lap generalizing acc with
  | nil => exact List.prefix_refl acc
  | cons e rest ih =>
    rw [collectReplicas]
    by_cases h1 : target ≤ acc.length
    · rw [if_pos h1]
    · rw [if_neg h1]
      by_cases h2 : e.2 ∈ acc
      · rw [if_pos h2]
        exact ih acc
      · rw [if_neg h2]
        exact (List.prefix_append acc [e.2]).trans (ih _)

theorem toFinset_card_le_of_subset (l1 l2 : List Nat) (h : l1 ⊆ l2) :
    l1.toFinset.card ≤ l2.toFinset.card := by
  refine Finset.card_le_card ?_
  intro a ha
  rw [List.mem_toFinset] at ha ⊢
  exact h ha

theorem collectReplicas_length (target : Nat) (lap : List (Nat × Nat)) (acc : List Nat)
    (hnd : acc.Nodup) (hle : acc.length ≤ target) :
    (collectReplicas target lap acc).length =
      min target (acc ++ lap.map (fun e => e.2)).toFinset.card := by
  induction lap generalizing acc with
  | nil =>
    rw [collectReplicas]
    simp only [List.map_nil, List.append_nil]
    rw [List.toFinset_card_of_nodup hnd]
    omega
  | cons e rest ih =>
    rw [collectReplicas]
    by_cases h1 : target ≤ acc.length
    · rw [if_pos h1]
      have hcard : acc.toFinset.card ≤ (acc ++ (e :: rest).map (fun e => e.2)).toFinset.card :=
        toFinset_card_le_of_subset _ _ (List.subset_append_left _ _)
      rw [List.toFinset_card_of_nodup hnd] at hcard
      omega
    · rw [if_neg h1]
      by_cases h2 : e.2 ∈ acc
      · rw [if_pos h2, ih acc hnd (by omega)]
        have hset : (acc ++ (e :: rest).map (fun e => e.2)).toFinset =
            (acc ++ rest.map (fun e => e.2)).toFinset := by
          rw [List.map_cons, List.toFinset_append, List.toFinset_cons, List.toFinset_append,
            Finset.union_insert, Finset.insert_eq_self]
          exact Finset.mem_union_left _ (List.mem_toFinset.mpr h2)
        rw [hset]
      · rw [if_neg h2]
        have hnd2 : (acc ++ [e.2]).Nodup := by
          rw [(List.perm_append_singleton e.2 acc).nodup_iff, List.nodup_cons]
          exact ⟨h2, hnd⟩
        rw [ih _ hnd2 (by simp; omega)]
        have hlist : (acc ++ [e.2]) ++ rest.map (fun e => e.2) =
            acc ++ (e :: rest).map (fun e => e.2) := by
          rw [List.append_assoc]
          rfl
        rw [hlist]

theorem ringIds_toFinset (n : Nat) :
    ((buildRing n).map (fun e => e.2)).toFinset = Finset.range n := by
  ext s
  rw [List.mem_toFinset, Finset.mem_range, buildRing,
    ((List.perm_insertionSort (fun a b => a.1 ≤ b.1) (rawRing n)).map (fun e => e.2)).mem_iff]
  constructor
  · intro hmem
    rw [List.mem_map] at hmem
    obtain ⟨e, he, rfl⟩ := hmem
    rw [rawRing, List.mem_bind] at he
    obtain ⟨a, ha, he2⟩ := he
    rw [List.mem_map] at he2
    obtain ⟨i, hi, rfl⟩ := he2
    exact List.mem_range.mp ha
  · intro hs
    rw [List.mem_map]
    refine ⟨(fnv1a (serverRingKey s 0) 0, s), ?_, rfl⟩
    rw [rawRing, List.mem_bind]
    exact ⟨s, List.mem_range.mpr hs, List.mem_map.mpr ⟨0, by decide, rfl⟩⟩

theorem buildRing_ne_nil (n : Nat) (hn : 1 ≤ n) : buildRing n ≠ [] := by
  intro h
  have h2 := ringIds_toFinset n
  rw [h] at h2
  have h0 : (0 : Nat) ∈ Finset.range n := Finset.mem_range.mpr hn
  rw [← h2] at h0
  simp at h0

theorem ringRot_perm (l : List (Nat × Nat)) (idx : Nat) :
    (l.drop idx ++ l.take idx).Perm l := by
  refine List.perm_append_comm.trans ?_
  rw [List.take_append_drop]

theorem getServer_eq_rot_head (n : Nat) (key : Str)
    (hne : ¬ (buildRing n).isEmpty = true) :
    getServer n key =
      (((buildRing n).drop (lowerBoundIdx (buildRing n) (fnv1a key 0)) ++
        (buildRing n).take (lowerBoundIdx (buildRing n) (fnv1a key 0))).headD (0, 0)).2 := by
  unfold getServer
  rw [if_neg hne]
  by_cases hlt : lowerBoundIdx (buildRing n) (fnv1a key 0) < (buildRing n).length
  · have hdropne : (buildRing n).drop (lowerBoundIdx (buildRing n) (fnv1a key 0)) ≠ [] := by
      intro hd
      have hlen := congrArg List.length hd
      rw [List.length_drop] at hlen
      simp only [List.length_nil] at hlen
      omega
    rw [List.getElem?_eq_getElem hlt]
    show (buildRing n)[lowerBoundIdx (buildRing n) (fnv1a key 0)].2 = _
    rw [List.headD_eq_head?_getD, List.head?_append_of_ne_nil _ hdropne, List.head?_drop,
      List.getElem?_eq_getElem hlt]
    rfl
  · have hge : (buildRing n).length ≤ lowerBoundIdx (buildRing n) (fnv1a key 0) := by omega
    rw [List.getElem?_eq_none hge]
    show ((buildRing n).headD (0, 0)).2 = _
    rw [List.drop_eq_nil_of_le hge, List.take_of_length_le hge, List.nil_append]

/-- C3 (amended with `r ≥ 1`, `numServers ≥ 1`): `getReplicaServers` returns
exactly `min(r+1, numServers)` pairwise-distinct ids and starts with
`getServer(key)`. -/
theorem C3_getReplicaServers_corrected (n : Nat) (key : Str) (r : Int)
    (hn : 1 ≤ n) (hr : 1 ≤ r) :
    (getReplicaServers n key r).length = (min (r + 1) (n : Int)).toNat ∧
    (getReplicaServers n key r).Nodup ∧
    (getReplicaServers n key r).head? = some (getServer n key) := by
  have hnne := buildRing_ne_nil n hn
  have hnemp : ¬ (buildRing n).isEmpty = true := by
    rw [List.isEmpty_iff]
    exact hnne
  have hcond : ¬ ((buildRing n).isEmpty = true ∨ r ≤ 0) := by
    rintro (h | h)
    · exact hnemp h
    · omega
  simp only [getReplicaServers]
  rw [if_neg hcond]
  set idx := lowerBoundIdx (buildRing n) (fnv1a key 0) with hidxdef
  set rot := (buildRing n).drop idx ++ (buildRing n).take idx with hrotdef
  have hperm : rot.Perm (buildRing n) := ringRot_perm _ idx
  have hrotne : rot ≠ [] := by
    intro h0
    rw [h0] at hperm
    exact hnne hperm.symm.eq_nil
  obtain ⟨hd, tl, hrot⟩ : ∃ hd tl, rot = hd :: tl := by
    cases hcase : rot with
    | nil => exact absurd hcase hrotne
    | cons a b => exact ⟨a, b, rfl⟩
  have hhd : rot.headD (0, 0) = hd := by
    rw [hrot]
    rfl
  have hdrop : rot.drop 1 = tl := by
    rw [hrot]
    rfl
  rw [hhd, hdrop]
  have hmin1 : (1 : Int) ≤ min (r + 1) (n : Int) := by
    refine le_min (by omega) ?_
    exact_mod_cast hn
  have hminn : min (r + 1) (n : Int) ≤ (n : Int) := min_le_right _ _
  have hcardS : ([hd.2] ++ (tl ++ [hd]).map (fun e => e.2)).toFinset.card = n := by
    have hset : ([hd.2] ++ (tl ++ [hd]).map (fun e => e.2)).toFinset =
        ((hd :: tl).map (fun e => e.2)).toFinset := by
      ext a
      simp only [List.toFinset_append, List.toFinset_cons, List.map_append, List.map_cons,
        List.toFinset_nil, List.map_nil, Finset.mem_union, Finset.mem_insert,
        List.mem_toFinset]
      constructor
      · rintro (h | h)
        · rcases h with h | h
          · exact Or.inl h
          · simp at h
        · rcases h with h | h
          · exact Or.inr h
          · rcases h with h | h
            · exact Or.inl h
            · simp at h
      · rintro (h | h)
        · exact Or.inl (Or.inl h)
        · exact Or.inr (Or.inl h)
    rw [hset]
    have hperm2 : ((hd :: tl).map (fun e => e.2)).Perm ((buildRing n).map (fun e => e.2)) := by
      rw [← hrot]
      exact hperm.map _
    have hfin : ((hd :: tl).map (fun e => e.2)).toFinset =
        ((buildRing n).map (fun e => e.2)).toFinset := by
      ext a
      rw [List.mem_toFinset, List.mem_toFinset, hperm2.mem_iff]
    rw [hfin, ringIds_toFinset n, Finset.card_range]
  refine ⟨?_, ?_, ?_⟩
  · rw [collectReplicas_length _ _ _ (List.nodup_singleton hd.2) (by simp; omega), hcardS]
    omega
  · exact collectReplicas_nodup _ _ _ (List.nodup_singleton hd.2)
  · obtain ⟨t2, ht2⟩ := collectReplicas_extends (min (r + 1) (n : Int)).toNat
      (tl ++ [hd]) [hd.2]
    rw [← ht2]
    show some hd.2 = some (getServer n key)
    rw [getServer_eq_rot_head n key hnemp, ← hidxdef, ← hrotdef, hhd]

/-- C3 counterexample: at replication factor 0 the code returns an empty
vector, not `min(0+1, numServers) = 1` servers. -/
theorem C3_counterexample :
    getReplicaServers 2 ['a'] 0 = [] ∧ (min ((0 : Int) + 1) ((2 : Nat) : Int)).toNat = 1 := by
  constructor
  · simp only [getReplicaServers]
    rw [if_pos (Or.inr (by decide))]
  · decide

/-- C3 witness: one server, replication factor 1. -/
theorem C3_witness :
    (1 ≤ 1) ∧ (1 ≤ (1 : Int)) ∧
    ((getReplicaServers 1 ['a'] 1).length = (min ((1 : Int) + 1) ((1 : Nat) : Int)).toNat ∧
    (getReplicaServers 1 ['a'] 1).Nodup ∧
    (getReplicaServers 1 ['a'] 1).head? = some (getServer 1 ['a'])) :=
  ⟨by decide, by decide, C3_getReplicaServers_corrected 1 ['a'] 1 (by decide) (by decide)⟩

/-! ## DART virtual-node routing (src4/dart/DART.cpp `DARTRouter`)

The prefix pool (in construction order): `a`-`z`, `A`-`Z`, `0`-`9`, the
special characters, twenty two-character prefixes, and the empty prefix —
100 prefixes in all.  The construction loop keeps cycling the pool until
`NUM_VIRTUAL_NODES = 256` nodes exist, so virtual node `i` carries prefix
`i mod 100`. -/

def dartPrefixes : List Str :=
  ((List.range 26).map (fun i => [Char.ofNat ('a'.toNat + i)])) ++
  ((List.range 26).map (fun i => [Char.ofNat ('A'.toNat + i)])) ++
  ((List.range 10).map (fun i => [Char.ofNat ('0'.toNat + i)])) ++
  (['_', '-', '.', '/', ',', ':', ';', '!', '@', '#', '$', '%', '^', '&', '*', '(', ')'].map
    (fun c => [c])) ++
  [['S', 't'], ['F', 'i'], ['D', 'a'], ['T', 'i'], ['U', 's'], ['P', 'r'], ['S', 'p'],
   ['K', 'e'], ['V', 'a'], ['E', 'x'], ['C', 'o'], ['I', 'n'], ['R', 'e'], ['D', 'e'],
   ['T', 'r'], ['L', 'o'], ['P', 'o'], ['P', 'a'], ['M', 'o'], ['S', 'e']] ++
  [[]]

/-- The 256 virtual nodes `(id, prefix)` built by `initializeVirtualNodes`. -/
def virtualNodes : List (Nat × Str) :=
  (List.range 256).map (fun i => (i, dartPrefixes.getD (i % dartPrefixes.length) []))

/-- 32-bit FNV-1a (`DARTRouter::hash`). -/
def hash32 (key : Str) : Nat :=
  key.foldl (fun h c => ((h ^^^ c.toNat) * 16777619) % 2 ^ 32) 2166136261

/-- `DARTRouter::getVirtualNodeId`: first virtual node whose prefix starts
the key (`VirtualNode::containsKey`), hash fallback otherwise. -/
def getVirtualNodeId (key : Str) : Nat :=
  match virtualNodes.find? (fun v => v.2.isPrefixOf key) with
  | some v => v.1
  | none => hash32 key % virtualNodes.length

theorem find?_split {α : Type} (p : α → Bool) (l : List α) (v : α)
    (h : l.find? p = some v) :
    ∃ l1 l2, l = l1 ++ v :: l2 ∧ ∀ w ∈ l1, p w = false := by
  induction l with
  | nil => cases h
  | cons a t ih =>
    rw [List.find?_cons] at h
    cases hp : p a with
    | true =>
      rw [hp] at h
      cases h
      exact ⟨[], t, rfl, by simp⟩
    | false =>
      rw [hp] at h
      obtain ⟨l1, l2, rfl, hall⟩ := ih h
      refine ⟨a :: l1, l2, rfl, ?_⟩
      intro w hw
      rcases List.mem_cons.mp hw with rfl | hw2
      · exact hp
      · exact hall w hw2

theorem virtualNodes_getElem (i : Nat) (hi : i < 256) :
    virtualNodes[i]? = some (i, dartPrefixes.getD (i % dartPrefixes.length) []) := by
  unfold virtualNodes
  rw [List.getElem?_map, List.getElem?_range hi]
  rfl

theorem virtualNodes_length : virtualNodes.length = 256 := by
  unfold virtualNodes
  rw [List.length_map, List.length_range]

theorem virtualNodes_mem (e : Nat × Str) (he : e ∈ virtualNodes) :
    e.1 < 256 ∧ e = (e.1, dartPrefixes.getD (e.1 % dartPrefixes.length) []) := by
  unfold virtualNodes at he
  rw [List.mem_map] at he
  obtain ⟨i, hi, rfl⟩ := he
  exact ⟨List.mem_range.mp hi, rfl⟩

/-- C7: for every non-empty key, `getVirtualNodeId` returns the id of the
first virtual node (in id order) whose prefix starts the key, and that id is
below 256; the empty-prefix node guarantees a match, so the hash fallback is
never taken. -/
theorem C7_getVirtualNodeId_first_match (key : Str) (hk : key ≠ []) :
    getVirtualNodeId key < 256 ∧
    ∃ v ∈ virtualNodes, getVirtualNodeId key = v.1 ∧ v.2.isPrefixOf key = true ∧
      ∀ w ∈ virtualNodes, w.2.isPrefixOf key = true → v.1 ≤ w.1 := by
  have hnilpre : ∀ k : Str, ([] : Str).isPrefixOf k = true := by
    intro k
    cases k <;> rfl
  cases hfind : virtualNodes.find? (fun v => v.2.isPrefixOf key) with
  | none =>
    have hall := List.find?_eq_none.mp hfind
    have h99e : virtualNodes[99]? = some (99, ([] : Str)) := by
      rw [virtualNodes_getElem 99 (by omega)]
      rfl
    have h99 : ((99, ([] : Str)) : Nat × Str) ∈ virtualNodes := List.getElem?_mem h99e
    exact absurd (hnilpre key) (by simpa using hall (99, ([] : Str)) h99)
  | some v =>
    have hid : getVirtualNodeId key = v.1 := by
      unfold getVirtualNodeId
      rw [hfind]
    have hvmem := List.mem_of_find?_eq_some hfind
    have hvlt := (virtualNodes_mem v hvmem).1
    have hvp : v.2.isPrefixOf key = true := by simpa using List.find?_some hfind
    obtain ⟨l1, l2, hsplit, hfail⟩ := find?_split _ _ _ hfind
    have hl1len : l1.length < virtualNodes.length := by
      rw [hsplit, List.length_append, List.length_cons]
      omega
    have hjunction : virtualNodes[l1.length]? = some v := by
      rw [hsplit, List.getElem?_append_right (le_refl l1.length)]
      simp
    have hv1 : v.1 = l1.length := by
      have h2 := virtualNodes_getElem l1.length (by rw [← virtualNodes_length]; exact hl1len)
      rw [hjunction] at h2
      cases h2
      rfl
    refine ⟨by rw [hid]; exact hvlt, v, hvmem, hid, hvp, ?_⟩
    intro w hwmem hwp
    by_contra hcon
    have hwlt : w.1 < l1.length := by
      rw [← hv1]
      omega
    have hwidx : virtualNodes[w.1]? = some w := by
      rw [virtualNodes_getElem w.1 (virtualNodes_mem w hwmem).1]
      exact congrArg some (virtualNodes_mem w hwmem).2.symm
    have hwin : w ∈ l1 := by
      rw [hsplit, List.getElem?_append_left hwlt] at hwidx
      exact List.getElem?_mem hwidx
    exact absurd hwp (by rw [hfail w hwin]; exact Bool.false_ne_true)

/-- C7 witness: the key `"a"` (matches the vnode with prefix `"a"`). -/
theorem C7_witness :
    (['a'] : Str) ≠ [] ∧
    (getVirtualNodeId ['a'] < 256 ∧
    ∃ v ∈ virtualNodes, getVirtualNodeId ['a'] = v.1 ∧ v.2.isPrefixOf ['a'] = true ∧
      ∀ w ∈ virtualNodes, w.2.isPrefixOf ['a'] = true → v.1 ≤ w.1) :=
  ⟨by decide, C7_getVirtualNodeId_first_match ['a'] (by decide)⟩

/-! ## Fault manager (src4/fault/FaultManager.cpp)

Server statuses live in a rank-keyed map; heartbeat times in another.  Time
is modelled as integer milliseconds of a monotonic clock.  `operator[]`
reads on a missing rank default-construct `ACTIVE` (enum value 0); the model
reads with that default and writes the net result back. -/

inductive SStatus : Type where
  | sActive : SStatus
  | sSuspect : SStatus
  | sConfirmedDown : SStatus
  | sRecovering : SStatus
deriving DecidableEq

def lookupD {β : Type} (m : List (Int × β)) (k : Int) (d : β) : β :=
  match m.find? (fun e => e.1 == k) with
  | some e => e.2
  | none => d

def setK {β : Type} : List (Int × β) → Int → β → List (Int × β)
  | [], k, v => [(k, v)]
  | (k2, v2) :: rest, k, v =>
    if k2 = k then (k2, v) :: rest else (k2, v2) :: setK rest k v

structure FaultState where
  statuses : List (Int × SStatus)
  lastBeat : List (Int × Int)

def statusOf (st : FaultState) (rank : Int) : SStatus :=
  lookupD st.statuses rank SStatus.sActive

/-- `FaultManager::processHeartbeat`: refresh the heartbeat time; a suspect
or recovering server goes back to active, anything else keeps its status. -/
def processHeartbeat (st : FaultState) (s : Int) (now : Int) : FaultState :=
  let cur := lookupD st.statuses s SStatus.sActive
  let new := if cur = SStatus.sSuspect ∨ cur = SStatus.sRecovering
    then SStatus.sActive else cur
  ⟨setK st.statuses s new, setK st.lastBeat s now⟩

/-- `FaultManager::notifyServerFailure`: unconditionally mark the server
confirmed-down (recovery initiation does not touch the status map). -/
def notifyServerFailure (st : FaultState) (s : Int) : FaultState :=
  { st with statuses := setK st.statuses s SStatus.sConfirmedDown }

/-- One entry of the `checkHeartbeats` loop: skip confirmed-down servers,
suspect an active server past `timeoutThreshold`, confirm a suspect past
`confirmationThreshold`. -/
def checkOne (now timeout confirm : Int) (lastBeat : List (Int × Int))
    (e : Int × SStatus) : Int × SStatus :=
  if e.2 = SStatus.sConfirmedDown then e
  else
    let elapsed := now - lookupD lastBeat e.1 0
    if e.2 = SStatus.sActive then
      if timeout < elapsed then (e.1, SStatus.sSuspect) else e
    else if e.2 = SStatus.sSuspect then
      if confirm < elapsed then (e.1, SStatus.sConfirmedDown) else e
    else e

/-- `FaultManager::checkHeartbeats`. -/
def checkHeartbeats (st : FaultState) (now timeout confirm : Int) : FaultState :=
  { st with statuses := st.statuses.map (checkOne now timeout confirm st.lastBeat) }

/-- The transition discipline the specification states: stay put, move one
stage forward along Active → Suspect → ConfirmedDown, or return to Active
from Suspect or Recovering. -/
def allowedStep (s t : SStatus) : Prop :=
  s = t ∨ (s = SStatus.sActive ∧ t = SStatus.sSuspect) ∨
    (s = SStatus.sSuspect ∧ t = SStatus.sConfirmedDown) ∨
    ((s = SStatus.sSuspect ∨ s = SStatus.sRecovering) ∧ t = SStatus.sActive)

instance allowedStep.instDecidable (s t : SStatus) : Decidable (allowedStep s t) :=
  inferInstanceAs (Decidable (_ ∨ _ ∨ _ ∨ _))

theorem lookupD_cons {β : Type} (k2 : Int) (v2 : β) (rest : List (Int × β)) (r : Int)
    (d : β) : lookupD ((k2, v2) :: rest) r d = if k2 = r then v2 else lookupD rest r d := by
  simp only [lookupD, List.find?_cons]
  by_cases h : k2 = r
  · rw [if_pos h]
    have hb : ((k2, v2).1 == r) = true := beq_iff_eq.mpr h
    simp [hb]
  · rw [if_neg h]
    have hb : ((k2, v2).1 == r) = false := by
      simp [h]
    simp [hb]

theorem lookupD_setK_self {β : Type} (m : List (Int × β)) (k : Int) (v d : β) :
    lookupD (setK m k v) k d = v := by
  induction m with
  | nil =>
    show lookupD [(k, v)] k d = v
    rw [lookupD_cons, if_pos rfl]
  | cons e rest ih =>
    obtain ⟨k2, v2⟩ := e
    rw [setK]
    by_cases h : k2 = k
    · rw [if_pos h, lookupD_cons, if_pos h]
    · rw [if_neg h, lookupD_cons, if_neg h]
      exact ih

theorem lookupD_setK_other {β : Type} (m : List (Int × β)) (k r : Int) (v d : β)
    (h : r ≠ k) : lookupD (setK m k v) r d = lookupD m r d := by
  induction m with
  | nil =>
    show lookupD [(k, v)] r d = lookupD [] r d
    rw [lookupD_cons, if_neg (fun h2 => h (h2.symm))]
  | cons e rest ih =>
    obtain ⟨k2, v2⟩ := e
    rw [setK]
    by_cases h2 : k2 = k
    · have hkr : ¬ k2 = r := by
        rw [h2]
        exact fun h3 => h h3.symm
      rw [if_pos h2, lookupD_cons, lookupD_cons, if_neg hkr, if_neg hkr]
    · rw [if_neg h2, lookupD_cons, lookupD_cons]
      by_cases h3 : k2 = r
      · rw [if_pos h3, if_pos h3]
      · rw [if_neg h3, if_neg h3]
        exact ih

theorem lookupD_map_keyFixed {β : Type} (f : (Int × β) → Int × β)
    (hf : ∀ e, (f e).1 = e.1) (m : List (Int × β)) (r : Int) (d : β) :
    lookupD (m.map f) r d =
      (match m.find? (fun e => e.1 == r) with
        | some e => (f e).2
        | none => d) := by
  induction m with
  | nil => rfl
  | cons e rest ih =>
    rw [List.map_cons]
    simp only [lookupD, List.find?_cons] at ih ⊢
    have hkey : ((f e).1 == r) = (e.1 == r) := by
      rw [hf]
    rw [hkey]
    cases hb : (e.1 == r) with
    | true => rfl
    | false => exact ih

theorem checkOne_key (now timeout confirm : Int) (lastBeat : List (Int × Int))
    (e : Int × SStatus) : (checkOne now timeout confirm lastBeat e).1 = e.1 := by
  rw [checkOne]
  by_cases h1 : e.2 = SStatus.sConfirmedDown
  · rw [if_pos h1]
  · rw [if_neg h1]
    by_cases h2 : e.2 = SStatus.sActive
    · rw [if_pos h2]
      by_cases h3 : timeout < now - lookupD lastBeat e.1 0
      · rw [if_pos h3]
      · rw [if_neg h3]
    · rw [if_neg h2]
      by_cases h4 : e.2 = SStatus.sSuspect
      · rw [if_pos h4]
        by_cases h5 : confirm < now - lookupD lastBeat e.1 0
        · rw [if_pos h5]
        · rw [if_neg h5]
      · rw [if_neg h4]

theorem checkOne_allowed (now timeout confirm : Int) (lastBeat : List (Int × Int))
    (e : Int × SStatus) :
    allowedStep e.2 (checkOne now timeout confirm lastBeat e).2 := by
  rw [checkOne]
  by_cases h1 : e.2 = SStatus.sConfirmedDown
  · rw [if_pos h1]
    exact Or.inl rfl
  · rw [if_neg h1]
    by_cases h2 : e.2 = SStatus.sActive
    · rw [if_pos h2]
      by_cases h3 : timeout < now - lookupD lastBeat e.1 0
      · rw [if_pos h3]
        exact Or.inr (Or.inl ⟨h2, rfl⟩)
      · rw [if_neg h3]
        exact Or.inl rfl
    · rw [if_neg h2]
      by_cases h4 : e.2 = SStatus.sSuspect
      · rw [if_pos h4]
        by_cases h5 : confirm < now - lookupD lastBeat e.1 0
        · rw [if_pos h5]
          exact Or.inr (Or.inr (Or.inl ⟨h4, rfl⟩))
        · rw [if_neg h5]
          exact Or.inl rfl
      · rw [if_neg h4]
        exact Or.inl rfl

/-- C8 (amended): the heartbeat-driven operations — heartbeat arrivals and
heartbeat checks — only move a server's status along the allowed relation;
`notifyServerFailure` is excluded, as it jumps any status to ConfirmedDown. -/
theorem C8_heartbeat_steps_respect_order (st : FaultState) (rank : Int) :
    (∀ s now, allowedStep (statusOf st rank) (statusOf (processHeartbeat st s now) rank)) ∧
    (∀ now timeout confirm, allowedStep (statusOf st rank)
      (statusOf (checkHeartbeats st now timeout confirm) rank)) := by
  constructor
  · intro s now
    show allowedStep (lookupD st.statuses rank SStatus.sActive)
      (lookupD (setK st.statuses s _) rank SStatus.sActive)
    by_cases hr : rank = s
    · subst hr
      rw [lookupD_setK_self]
      by_cases hcur : lookupD st.statuses rank SStatus.sActive = SStatus.sSuspect ∨
          lookupD st.statuses rank SStatus.sActive = SStatus.sRecovering
      · rw [if_pos hcur]
        exact Or.inr (Or.inr (Or.inr ⟨hcur, rfl⟩))
      · rw [if_neg hcur]
        exact Or.inl rfl
    · rw [lookupD_setK_other st.statuses s rank _ _ hr]
      exact Or.inl rfl
  · intro now timeout confirm
    show allowedStep (lookupD st.statuses rank SStatus.sActive)
      (lookupD (st.statuses.map (checkOne now timeout confirm st.lastBeat)) rank
        SStatus.sActive)
    rw [lookupD_map_keyFixed _ (checkOne_key now timeout confirm st.lastBeat)]
    show allowedStep (lookupD st.statuses rank SStatus.sActive) _
    unfold lookupD
    cases hb : st.statuses.find? (fun e => e.1 == rank) with
    | none => exact Or.inl rfl
    | some e => exact checkOne_allowed now timeout confirm st.lastBeat e

/-- C8 counterexample: `notifyServerFailure` on an active server jumps
Active → ConfirmedDown, skipping Suspect. -/
theorem C8_counterexample :
    statusOf (⟨[(1, SStatus.sActive)], [(1, 0)]⟩ : FaultState) 1 = SStatus.sActive ∧
    statusOf (notifyServerFailure ⟨[(1, SStatus.sActive)], [(1, 0)]⟩ 1) 1 =
      SStatus.sConfirmedDown ∧
    ¬ allowedStep SStatus.sActive SStatus.sConfirmedDown := by
  refine ⟨rfl, rfl, ?_⟩
  decide

/-- One heartbeat-driven step of the fault manager. -/
inductive HeartbeatStep : Type where
  | beat (s : Int) (now : Int) : HeartbeatStep
  | check (now timeout confirm : Int) : HeartbeatStep

def applyStep (st : FaultState) : HeartbeatStep → FaultState
  | .beat s now => processHeartbeat st s now
  | .check now timeout confirm => checkHeartbeats st now timeout confirm

def applySteps (st : FaultState) (steps : List HeartbeatStep) : FaultState :=
  steps.foldl applyStep st

theorem statusOf_applyStep_confirmedDown (st : FaultState) (rank : Int)
    (h : statusOf st rank = SStatus.sConfirmedDown) (step : HeartbeatStep) :
    statusOf (applyStep st step) rank = SStatus.sConfirmedDown := by
  cases step with
  | beat s now =>
    show lookupD (setK st.statuses s _) rank SStatus.sActive = _
    by_cases hr : rank = s
    · subst hr
      rw [statusOf] at h
      rw [lookupD_setK_self, h,
        if_neg (by rintro (h2 | h2) <;> cases h2)]
    · rw [lookupD_setK_other st.statuses s rank _ _ hr]
      exact h
  | check now timeout confirm =>
    show lookupD (st.statuses.map (checkOne now timeout confirm st.lastBeat)) rank
      SStatus.sActive = _
    rw [lookupD_map_keyFixed _ (checkOne_key now timeout confirm st.lastBeat)]
    rw [statusOf, lookupD] at h
    cases hb : st.statuses.find? (fun e => e.1 == rank) with
    | none =>
      rw [hb] at h
      exact h
    | some e =>
      rw [hb] at h
      have he : e.2 = SStatus.sConfirmedDown := h
      show (checkOne now timeout confirm st.lastBeat e).2 = SStatus.sConfirmedDown
      rw [checkOne, if_pos he]
      exact he

/-- C10: ConfirmedDown is absorbing for the heartbeat-driven step relation —
heartbeats only promote Suspect or Recovering servers back to Active, and
the check loop skips ConfirmedDown entries. -/
theorem C10_confirmedDown_absorbing (st : FaultState) (rank : Int)
    (h : statusOf st rank = SStatus.sConfirmedDown) (steps : List HeartbeatStep) :
    statusOf (applySteps st steps) rank = SStatus.sConfirmedDown := by
  induction steps generalizing st with
  | nil => exact h
  | cons step steps ih =>
    exact ih (applyStep st step) (statusOf_applyStep_confirmedDown st rank h step)

/-- C10 witness: a confirmed-down server stays confirmed-down across a
heartbeat arrival and a check. -/
theorem C10_witness :
    statusOf (⟨[(1, SStatus.sConfirmedDown)], [(1, 0)]⟩ : FaultState) 1 =
      SStatus.sConfirmedDown ∧
    statusOf (applySteps ⟨[(1, SStatus.sConfirmedDown)], [(1, 0)]⟩
        [HeartbeatStep.beat 1 600, HeartbeatStep.check 5000 2000 5000]) 1 =
      SStatus.sConfirmedDown :=
  ⟨by decide, C10_confirmedDown_absorbing ⟨[(1, SStatus.sConfirmedDown)], [(1, 0)]⟩ 1
    (by decide) [HeartbeatStep.beat 1 600, HeartbeatStep.check 5000 2000 5000]⟩

/-! ## Adaptive routing: query recording (src4/dart/AdaptiveDARTRouter.cpp)

`getDestinationServers` extracts the key portion (before the first `=`,
or the whole query), computes `increment` — 2.0 when the portion has no
`*`, 1.0 otherwise — and then calls `recordQuery(keyPattern)`, which
forwards to `PopularityTracker::recordQuery(keyPattern, increment = 1.0)`
with the tracker's default weight: the computed increment is never passed. -/

def keyPortion (q : Str) : Str := q.takeWhile (fun c => c ≠ '=')

/-- The local `increment` computed in `getDestinationServers`. -/
def computedIncrement (kp : Str) : ℚ := if '*' ∈ kp then 1 else 2

/-- The `(pattern, weight)` pair that actually reaches
`PopularityTracker::recordQuery` for one `getDestinationServers(query)`
call (none when adaptive replication is disabled). -/
def recordedCall (enabled : Bool) (q : Str) : Option (Str × ℚ) :=
  if enabled then some (keyPortion q, 1) else none

/-- C4 (code bug): for a `*`-free key portion the computed increment is 2.0,
but the weight the tracker receives is the default 1.0 — never the computed
increment. -/
theorem C4_increment_dropped (q : Str) (h : '*' ∉ keyPortion q) :
    computedIncrement (keyPortion q) = 2 ∧
    recordedCall true q = some (keyPortion q, 1) ∧
    ∀ w : ℚ, recordedCall true q = some (keyPortion q, w) →
      w ≠ computedIncrement (keyPortion q) := by
  refine ⟨by rw [computedIncrement, if_neg h], rfl, ?_⟩
  intro w hw
  rw [recordedCall, if_pos rfl] at hw
  have hw1 : w = 1 := ((Prod.mk.injEq _ _ _ _).mp (Option.some.inj hw)).2.symm
  rw [hw1, computedIncrement, if_neg h]
  intro h2
  exact absurd h2 (by norm_num)

/-- C4 witness: the exact query `StageX=300.00`. -/
theorem C4_witness :
    ('*' ∉ keyPortion ['S', 't', 'a', 'g', 'e', 'X', '=', '3', '0', '0', '.', '0', '0']) ∧
    (computedIncrement (keyPortion
        ['S', 't', 'a', 'g', 'e', 'X', '=', '3', '0', '0', '.', '0', '0']) = 2 ∧
    recordedCall true ['S', 't', 'a', 'g', 'e', 'X', '=', '3', '0', '0', '.', '0', '0'] =
      some (keyPortion ['S', 't', 'a', 'g', 'e', 'X', '=', '3', '0', '0', '.', '0', '0'], 1) ∧
    ∀ w : ℚ, recordedCall true ['S', 't', 'a', 'g', 'e', 'X', '=', '3', '0', '0', '.', '0', '0'] =
        some (keyPortion ['S', 't', 'a', 'g', 'e', 'X', '=', '3', '0', '0', '.', '0', '0'], w) →
      w ≠ computedIncrement (keyPortion
        ['S', 't', 'a', 'g', 'e', 'X', '=', '3', '0', '0', '.', '0', '0'])) :=
  ⟨by decide, C4_increment_dropped ['S', 't', 'a', 'g', 'e', 'X', '=', '3', '0', '0', '.', '0', '0']
    (by decide)⟩

/-! ## Popularity tracking (src4/popularity/PopularityTracker.cpp)

Scores and times are rationals (milliseconds of the steady clock);
`std::exp` and `std::log10` are abstracted as function parameters `expQ`
and `log10Q` — every statement below holds for arbitrary such functions. -/

def lookupS {β : Type} (m : List (Str × β)) (k : Str) (d : β) : β :=
  match m.find? (fun e => e.1 == k) with
  | some e => e.2
  | none => d

def setS {β : Type} : List (Str × β) → Str → β → List (Str × β)
  | [], k, v => [(k, v)]
  | (k2, v2) :: rest, k, v =>
    if k2 = k then (k2, v) :: rest else (k2, v2) :: setS rest k v

theorem lookupS_cons {β : Type} (k2 : Str) (v2 : β) (rest : List (Str × β)) (r : Str)
    (d : β) : lookupS ((k2, v2) :: rest) r d = if k2 = r then v2 else lookupS rest r d := by
  simp only [lookupS, List.find?_cons]
  by_cases h : k2 = r
  · rw [if_pos h]
    have hb : ((k2, v2).1 == r) = true := beq_iff_eq.mpr h
    simp [hb]
  · rw [if_neg h]
    have hb : ((k2, v2).1 == r) = false := by
      simp [h]
    simp [hb]

theorem lookupS_setS_self {β : Type} (m : List (Str × β)) (k : Str) (v d : β) :
    lookupS (setS m k v) k d = v := by
  induction m with
  | nil =>
    show lookupS [(k, v)] k d = v
    rw [lookupS_cons, if_pos rfl]
  | cons e rest ih =>
    obtain ⟨k2, v2⟩ := e
    rw [setS]
    by_cases h : k2 = k
    · rw [if_pos h, lookupS_cons, if_pos h]
    · rw [if_neg h, lookupS_cons, if_neg h]
      exact ih

structure Tracker where
  keyPop : List (Str × ℚ)
  lastAcc : List (Str × ℚ)
  threshold : ℚ
  decayF : ℚ

/-- `PopularityTracker::calculateDecay`: 1.0 on first access, else
`exp(-decayFactor · hoursSinceLastAccess)`. -/
def calculateDecay (expQ : ℚ → ℚ) (tr : Tracker) (key : Str) (now : ℚ) : ℚ :=
  match tr.lastAcc.find? (fun e => e.1 == key) with
  | none => 1
  | some e => expQ (-tr.decayF * ((now - e.2) / (1000 * 60 * 60)))

/-- `PopularityTracker::updatePopularityWithDecay`. -/
def updatePopularityWithDecay (expQ : ℚ → ℚ) (tr : Tracker) (key : Str)
    (inc now : ℚ) : Tracker :=
  let decay := calculateDecay expQ tr key now
  let cur := match tr.keyPop.find? (fun e => e.1 == key) with
    | some e => e.2 * decay
    | none => 0
  { tr with keyPop := setS tr.keyPop key (cur + inc), lastAcc := setS tr.lastAcc key now }

/-- `PopularityTracker::recordQuery`: the rich-get-richer bonus tests and
scales by the RAW stored score `it->second`, not the decayed one. -/
def recordQuery (expQ log10Q : ℚ → ℚ) (tr : Tracker) (key : Str) (inc now : ℚ) : Tracker :=
  let actual := match tr.keyPop.find? (fun e => e.1 == key) with
    | some e =>
      if tr.threshold < e.2 then inc * (1 + log10Q (e.2 / tr.threshold)) else inc
    | none => inc
  updatePopularityWithDecay expQ tr key actual now

/-- C5 (amended): for a tracked pattern with stored (undecayed) score `r`,
`recordQuery` stores `r · decay + w·(1 + log10(r/threshold))` when `r`
exceeds the threshold and `r · decay + w` otherwise: both the bonus
condition and the multiplier use the raw stored score, not the effective
(time-decayed) one. -/
theorem C5_bonus_uses_raw_score (expQ log10Q : ℚ → ℚ) (tr : Tracker) (key : Str)
    (inc now r : ℚ) (hr : tr.keyPop.find? (fun e => e.1 == key) = some (key, r)) :
    lookupS (recordQuery expQ log10Q tr key inc now).keyPop key 0 =
      r * calculateDecay expQ tr key now +
        (if tr.threshold < r then inc * (1 + log10Q (r / tr.threshold)) else inc) := by
  show lookupS (setS tr.keyPop key _) key 0 = _
  rw [lookupS_setS_self, hr]

/-- C5 counterexample: stored score 8, threshold 5, decay halving the score
to an effective 4 ≤ 5 — the specification forbids the bonus, yet the code
applies it (with multiplier from the raw 8), storing 6 instead of 5. -/
theorem C5_counterexample :
    (8 : ℚ) * calculateDecay (fun _ => 1 / 2)
        ⟨[(['k'], 8)], [(['k'], 0)], 5, 1⟩ ['k'] 3600000 ≤ 5 ∧
    lookupS (recordQuery (fun _ => 1 / 2) (fun _ => 1)
        ⟨[(['k'], 8)], [(['k'], 0)], 5, 1⟩ ['k'] 1 3600000).keyPop ['k'] 0 = 6 ∧
    (6 : ℚ) ≠ (8 : ℚ) * calculateDecay (fun _ => 1 / 2)
        ⟨[(['k'], 8)], [(['k'], 0)], 5, 1⟩ ['k'] 3600000 + 1 := by
  have hdec : calculateDecay (fun _ => (1 : ℚ) / 2)
      ⟨[(['k'], 8)], [(['k'], 0)], 5, 1⟩ ['k'] 3600000 = 1 / 2 := rfl
  refine ⟨?_, ?_, ?_⟩
  · rw [hdec]
    norm_num
  · show lookupS (setS [(['k'], (8 : ℚ))] ['k']
        (8 * ((1 : ℚ) / 2) + if (5 : ℚ) < 8 then 1 * (1 + (1 : ℚ)) else 1)) ['k'] 0 = 6
    rw [lookupS_setS_self, if_pos (by norm_num : (5 : ℚ) < 8)]
    norm_num
  · rw [hdec]
    norm_num

/-- C5 witness: a tracked key with raw score 8 over threshold 5. -/
theorem C5_witness :
    ((⟨[(['k'], 8)], [(['k'], 0)], 5, 1⟩ : Tracker).keyPop.find?
        (fun e => e.1 == ['k']) = some (['k'], 8)) ∧
    lookupS (recordQuery (fun _ => 1 / 2) (fun _ => 1)
        ⟨[(['k'], 8)], [(['k'], 0)], 5, 1⟩ ['k'] 1 3600000).keyPop ['k'] 0 =
      8 * calculateDecay (fun _ => 1 / 2) ⟨[(['k'], 8)], [(['k'], 0)], 5, 1⟩ ['k'] 3600000 +
        (if (5 : ℚ) < 8 then 1 * (1 + (fun _ : ℚ => (1 : ℚ)) (8 / 5)) else 1) :=
  ⟨by decide, C5_bonus_uses_raw_score (fun _ => 1 / 2) (fun _ => 1)
    ⟨[(['k'], 8)], [(['k'], 0)], 5, 1⟩ ['k'] 1 3600000 8 (by decide)⟩

/-! ## The dart.cpp mock server (`DistributedIdiomsServer` of dart.cpp)

This server keeps flat vectors: the indexed keys, every suffix of every
indexed key, and the object-id-keyed metadata map.  `canHandleQuery`
classifies the key portion as wildcard / infix / suffix / prefix / exact (in
that order); `executeQuery` classifies with prefix BEFORE suffix, scanning
the metadata with per-pair string predicates. -/

structure MockServer where
  indexedKeys : List Str
  indexedSuffixes : List Str
  metadata : List (Int × List (Str × Str))

def mockInit : MockServer := ⟨[], [], []⟩

/-- `DistributedIdiomsServer::addIndexedKey` (dart.cpp). -/
def mockAddIndexedKey (sv : MockServer) (key value : Str) (oid : Int) : MockServer :=
  ⟨sv.indexedKeys ++ [key],
   sv.indexedSuffixes ++ (List.range key.length).map (fun i => key.drop i),
   metaAppend sv.metadata oid (key, value)⟩

def buildMock (rs : List (Str × Str × Int)) : MockServer :=
  rs.foldl (fun sv r => mockAddIndexedKey sv r.1 r.2.1 r.2.2) mockInit

/-- `DistributedIdiomsServer::canHandleQuery` (dart.cpp). -/
def canHandleQuery (sv : MockServer) (q : Str) : Bool :=
  let keyPart := (splitQuery q).1
  if keyPart = ['*'] then true
  else if keyPart.head? = some '*' ∧ keyPart.getLast? = some '*' ∧ keyPart.length > 2 then
    sv.indexedSuffixes.any (fun s => ((keyPart.drop 1).dropLast).isPrefixOf s)
  else if keyPart.head? = some '*' then
    sv.indexedSuffixes.contains (keyPart.drop 1)
  else if keyPart.getLast? = some '*' then
    sv.indexedKeys.any (fun k => (keyPart.dropLast).isPrefixOf k)
  else sv.indexedKeys.contains keyPart

/-- The wildcard flags and stripped token `executeQuery` computes for one
side of the query (duplicated verbatim for key and value in the C++). -/
def tokenOf (part : Str) : Str :=
  let hasPre := decide (part.getLast? = some '*') && decide (part.length > 1)
  let hasSuf := decide (part.head? = some '*') && decide (part.length > 1)
  let hasInf := hasPre && hasSuf && decide (part.length > 2)
  if hasInf = true then (part.drop 1).dropLast
  else if hasPre = true then part.dropLast
  else if hasSuf = true then part.drop 1
  else part

/-- One side's match test in `executeQuery`: wildcard, contains,
starts-with (prefix tested BEFORE suffix), ends-with, or equality. -/
def partMatch (part : Str) (s : Str) : Bool :=
  let hasPre := decide (part.getLast? = some '*') && decide (part.length > 1)
  let hasSuf := decide (part.head? = some '*') && decide (part.length > 1)
  let isWild := decide (part = ['*'])
  let hasInf := hasPre && hasSuf && decide (part.length > 2)
  if isWild = true then true
  else if hasInf = true then decide (tokenOf part <:+: s)
  else if hasPre = true then (tokenOf part).isPrefixOf s
  else if hasSuf = true then decide (tokenOf part <:+ s)
  else s == tokenOf part

/-- `DistributedIdiomsServer::executeQuery` (dart.cpp): an object id is
returned when one of its metadata pairs matches both sides. -/
def mockExecuteQuery (sv : MockServer) (q : Str) : List Int :=
  (((sv.metadata.filter (fun e =>
      e.2.any (fun kv =>
        partMatch (splitQuery q).1 kv.1 && partMatch (splitQuery q).2 kv.2))).map
    (fun e => e.1)).dedup).insertionSort (fun a b => a ≤ b)

theorem mem_metaAppend_groups (md : List (Int × List (Str × Str))) (oid : Int)
    (kv : Str × Str) (e : Int × List (Str × Str)) (he : e ∈ metaAppend md oid kv)
    (p : Str × Str) (hp : p ∈ e.2) :
    (∃ e2 ∈ md, p ∈ e2.2) ∨ p = kv := by
  induction md with
  | nil =>
    rw [metaAppend] at he
    rcases List.mem_singleton.mp he with rfl
    rcases List.mem_singleton.mp hp with rfl
    exact Or.inr rfl
  | cons e2 md ih =>
    obtain ⟨o, l⟩ := e2
    rw [metaAppend] at he
    by_cases h : o = oid
    · rw [if_pos h] at he
      rcases List.mem_cons.mp he with rfl | he2
      · rcases List.mem_append.mp hp with hp2 | hp2
        · exact Or.inl ⟨(o, l), List.mem_cons_self _ _, hp2⟩
        · exact Or.inr (List.mem_singleton.mp hp2)
      · exact Or.inl ⟨e, List.mem_cons_of_mem _ he2, hp⟩
    · rw [if_neg h] at he
      rcases List.mem_cons.mp he with rfl | he2
      · exact Or.inl ⟨(o, l), List.mem_cons_self _ _, hp⟩
      · rcases ih he2 with ⟨e3, he3, hp3⟩ | hkv
        · exact Or.inl ⟨e3, List.mem_cons_of_mem _ he3, hp3⟩
        · exact Or.inr hkv

theorem buildMock_inv (rs : List (Str × Str × Int)) :
    (∀ e ∈ (buildMock rs).metadata, ∀ kv ∈ e.2, kv.1 ∈ (buildMock rs).indexedKeys) ∧
    (∀ k ∈ (buildMock rs).indexedKeys, ∀ i ∈ List.range k.length,
      k.drop i ∈ (buildMock rs).indexedSuffixes) := by
  suffices h : ∀ sv : MockServer,
      ((∀ e ∈ sv.metadata, ∀ kv ∈ e.2, kv.1 ∈ sv.indexedKeys) ∧
       (∀ k ∈ sv.indexedKeys, ∀ i ∈ List.range k.length, k.drop i ∈ sv.indexedSuffixes)) →
      ((∀ e ∈ (rs.foldl (fun sv r => mockAddIndexedKey sv r.1 r.2.1 r.2.2) sv).metadata,
          ∀ kv ∈ e.2, kv.1 ∈
            (rs.foldl (fun sv r => mockAddIndexedKey sv r.1 r.2.1 r.2.2) sv).indexedKeys) ∧
       (∀ k ∈ (rs.foldl (fun sv r => mockAddIndexedKey sv r.1 r.2.1 r.2.2) sv).indexedKeys,
          ∀ i ∈ List.range k.length, k.drop i ∈
            (rs.foldl (fun sv r => mockAddIndexedKey sv r.1 r.2.1 r.2.2) sv).indexedSuffixes)) by
    exact h mockInit ⟨(by intro e he; cases he), (by intro k hk; cases hk)⟩
  induction rs with
  | nil => exact fun sv h => h
  | cons r rs ih =>
    intro sv ⟨h1, h2⟩
    refine ih (mockAddIndexedKey sv r.1 r.2.1 r.2.2) ⟨?_, ?_⟩
    · intro e he kv hkv
      rcases mem_metaAppend_groups sv.metadata r.2.2 (r.1, r.2.1) e he kv hkv with
        ⟨e2, he2, hp2⟩ | rfl
      · exact List.mem_append.mpr (Or.inl (h1 e2 he2 kv hp2))
      · exact List.mem_append.mpr (Or.inr (List.mem_singleton.mpr rfl))
    · intro k hk i hi
      rcases List.mem_append.mp hk with hk2 | hk2
      · exact List.mem_append.mpr (Or.inl (h2 k hk2 i hi))
      · rcases List.mem_singleton.mp hk2 with rfl
        exact List.mem_append.mpr (Or.inr (List.mem_map.mpr ⟨i, hi, rfl⟩))

theorem partMatch_inf (part s : Str) (h1 : part.head? = some '*')
    (h2 : part.getLast? = some '*') (h3 : part.length > 2) :
    partMatch part s = decide ((part.drop 1).dropLast <:+: s) := by
  have hw : ¬ part = ['*'] := by
    intro h0
    rw [h0] at h3
    simp at h3
  have hl1 : part.length > 1 := by omega
  simp [partMatch, tokenOf, h1, h2, h3, hl1, hw]

theorem partMatch_suf (part s : Str) (h1 : part.head? = some '*')
    (h2 : part.getLast? ≠ some '*') (h3 : part.length > 1) :
    partMatch part s = decide (part.drop 1 <:+ s) := by
  have hw : ¬ part = ['*'] := by
    intro h0
    rw [h0] at h3
    simp at h3
  simp [partMatch, tokenOf, h1, h2, h3, hw]

theorem partMatch_pre (part s : Str) (h1 : part.getLast? = some '*')
    (h2 : part.head? ≠ some '*') (h3 : part.length > 1) :
    partMatch part s = (part.dropLast).isPrefixOf s := by
  have hw : ¬ part = ['*'] := by
    intro h0
    rw [h0] at h2
    exact h2 rfl
  simp [partMatch, tokenOf, h1, h2, h3, hw]

theorem partMatch_exact (part s : Str) (h1 : part.head? ≠ some '*')
    (h2 : part.getLast? ≠ some '*') :
    partMatch part s = (s == part) := by
  have hw : ¬ part = ['*'] := by
    intro h0
    rw [h0] at h1
    exact h1 rfl
  simp [partMatch, tokenOf, h1, h2, hw]

/-- C9 (amended): on every state reachable by `addIndexedKey` and every
query whose key portion is nonempty and is not exactly `**`, a false
`canHandleQuery` implies an empty `executeQuery`.  On the excluded key
portion `**` the two disagree: `canHandleQuery` reads it as
ends-with-`"*"`, `executeQuery` as starts-with-`"*"`. -/
theorem C9_executeQuery_subsumes_canHandle (rs : List (Str × Str × Int)) (q : Str)
    (hne : (splitQuery q).1 ≠ [])
    (hss : (splitQuery q).1 ≠ ['*', '*'])
    (hch : canHandleQuery (buildMock rs) q = false) :
    mockExecuteQuery (buildMock rs) q = [] := by
  obtain ⟨hI1, hI2⟩ := buildMock_inv rs
  simp only [canHandleQuery] at hch
  suffices hfilter : ∀ e ∈ (buildMock rs).metadata,
      (e.2.any (fun kv =>
        partMatch (splitQuery q).1 kv.1 && partMatch (splitQuery q).2 kv.2)) = false by
    simp only [mockExecuteQuery]
    rw [List.filter_eq_nil.mpr (fun e he => by rw [hfilter e he]; exact Bool.false_ne_true)]
    rfl
  intro e he
  rw [List.any_eq_false]
  rintro kv hkv hand
  have hkmatch : partMatch (splitQuery q).1 kv.1 = true := by
    simp only [Bool.and_eq_true] at hand
    exact hand.1
  have hkey : kv.1 ∈ (buildMock rs).indexedKeys := hI1 e he kv hkv
  by_cases hw : (splitQuery q).1 = ['*']
  · rw [if_pos hw] at hch
    cases hch
  rw [if_neg hw] at hch
  obtain ⟨c0, rest0, hcons⟩ := List.exists_cons_of_ne_nil hne
  by_cases hinf : (splitQuery q).1.head? = some '*' ∧ (splitQuery q).1.getLast? = some '*' ∧
      (splitQuery q).1.length > 2
  · rw [if_pos hinf] at hch
    rw [partMatch_inf _ kv.1 hinf.1 hinf.2.1 hinf.2.2] at hkmatch
    have hcont := of_decide_eq_true hkmatch
    have htne : ((splitQuery q).1.drop 1).dropLast ≠ [] := by
      intro h0
      have hlen := congrArg List.length h0
      rw [List.length_dropLast, List.length_drop, List.length_nil] at hlen
      omega
    obtain ⟨a, b, hab⟩ := hcont
    have htpos : 0 < (((splitQuery q).1.drop 1).dropLast).length := List.length_pos.mpr htne
    have hidx : a.length ∈ List.range kv.1.length := by
      rw [List.mem_range, ← hab, List.length_append, List.length_append]
      omega
    have hsuffmem := hI2 kv.1 hkey a.length hidx
    have hdropeq : kv.1.drop a.length = ((splitQuery q).1.drop 1).dropLast ++ b := by
      rw [← hab, List.append_assoc, List.drop_left]
    rw [List.any_eq_false] at hch
    refine hch (kv.1.drop a.length) hsuffmem ?_
    rw [hdropeq]
    exact List.isPrefixOf_iff_prefix.mpr (List.prefix_append _ b)
  rw [if_neg hinf] at hch
  by_cases hsuf : (splitQuery q).1.head? = some '*'
  · rw [if_pos hsuf] at hch
    have hc0 : c0 = '*' := by
      rw [hcons] at hsuf
      simpa using hsuf
    have hl2 : (splitQuery q).1.length > 1 := by
      rcases rest0 with _ | ⟨c1, rest1⟩
      · exfalso
        rw [hcons, hc0] at hw
        exact hw rfl
      · rw [hcons]
        simp only [List.length_cons]
        omega
    have hlast : (splitQuery q).1.getLast? ≠ some '*' := by
      intro hl
      by_cases h3 : (splitQuery q).1.length > 2
      · exact hinf ⟨hsuf, hl, h3⟩
      · rcases rest0 with _ | ⟨c1, rest1⟩
        · rw [hcons] at hl2
          simp at hl2
        · rcases rest1 with _ | ⟨c2, rest2⟩
          · have hc1 : c1 = '*' := by
              rw [hcons] at hl
              simpa using hl
            rw [hcons, hc0, hc1] at hss
            exact hss rfl
          · rw [hcons] at h3
            simp only [List.length_cons] at h3
            omega
    rw [partMatch_suf _ kv.1 hsuf hlast hl2] at hkmatch
    have hsfx := of_decide_eq_true hkmatch
    have htne : (splitQuery q).1.drop 1 ≠ [] := by
      intro h0
      have hlen := congrArg List.length h0
      rw [List.length_drop, List.length_nil] at hlen
      omega
    have hdw := (drop_writes_iff ((splitQuery q).1.drop 1) kv.1).mpr
      ⟨hsfx, fun h0 => absurd h0 htne⟩
    have hmem : (splitQuery q).1.drop 1 ∈ (buildMock rs).indexedSuffixes := by
      rcases hdw with heq | ⟨i, hi, hieq⟩
      · have hkne : kv.1 ≠ [] := by
          rw [← heq]
          exact htne
        have h0 : (0 : Nat) ∈ List.range kv.1.length := by
          rw [List.mem_range]
          exact List.length_pos.mpr hkne
        have := hI2 kv.1 hkey 0 h0
        rw [List.drop_zero] at this
        rw [heq]
        exact this
      · rw [hieq]
        exact hI2 kv.1 hkey i hi
    have hc : (buildMock rs).indexedSuffixes.contains ((splitQuery q).1.drop 1) = true :=
      List.elem_iff.mpr hmem
    rw [hc] at hch
    cases hch
  rw [if_neg hsuf] at hch
  by_cases hpre : (splitQuery q).1.getLast? = some '*'
  · rw [if_pos hpre] at hch
    have hl2 : (splitQuery q).1.length > 1 := by
      rcases rest0 with _ | ⟨c1, rest1⟩
      · exfalso
        rw [hcons] at hpre hsuf
        have hc0 : c0 = '*' := by
          simpa using hpre
        rw [hc0] at hsuf
        exact hsuf rfl
      · rw [hcons]
        simp only [List.length_cons]
        omega
    rw [partMatch_pre _ kv.1 hpre hsuf hl2] at hkmatch
    rw [List.any_eq_false] at hch
    exact hch kv.1 hkey hkmatch
  rw [if_neg hpre] at hch
  rw [partMatch_exact _ kv.1 hsuf hpre] at hkmatch
  have hkeq : kv.1 = (splitQuery q).1 := beq_iff_eq.mp hkmatch
  rw [hkeq] at hkey
  have hc : (buildMock rs).indexedKeys.contains (splitQuery q).1 = true :=
    List.elem_iff.mpr hkey
  rw [hc] at hch
  cases hch

/-- C9 counterexample: with the single record (key `*a`, value `v`, id 1)
and the query `**`, `canHandleQuery` returns false (it classifies `**` as
an ends-with query for `"*"`, which is not an indexed suffix) while
`executeQuery` returns [1] (it classifies `**` as a starts-with query for
`"*"`, which the key `*a` satisfies): the original claim fails. -/
theorem C9_counterexample :
    canHandleQuery (buildMock [(['*', 'a'], ['v'], (1 : Int))]) ['*', '*'] = false ∧
    mockExecuteQuery (buildMock [(['*', 'a'], ['v'], (1 : Int))]) ['*', '*'] = [1] := by
  decide

/-- Concrete instantiation of `C9_executeQuery_subsumes_canHandle`:
one record (key `a`, value `x`, id 1) and the exact query `b`. -/
theorem C9_witness :
    mockExecuteQuery (buildMock [(['a'], ['x'], (1 : Int))]) ['b'] = [] :=
  C9_executeQuery_subsumes_canHandle [(['a'], ['x'], (1 : Int))] ['b']
    (by decide) (by decide) (by decide)

end Idioms
